import Mathlib

/-!
Verification of the AI subsystem of the GameForge web demo
(behavior trees, navigation-mesh pathfinding, agent locomotion and the
orchestrating AISystem), shallowly embedded from the TypeScript source.
JS numbers are modelled by an arbitrary linear ordered field `K`
(instantiated at `ℚ` for concrete evaluation and at `ℝ` for the
geometric statements); calls to `Math.sqrt`, `Math.atan2`, `Math.cos`,
`Math.sin` and `Math.PI` are modelled by an explicit record of external
functions, and `Math.random` by a pre-sampled stream carried by the agent.
-/

namespace GameForgeAI

/-- Execution status of a behavior node (enum BehaviorStatus). -/
inductive Status where
  | success
  | failure
  | running
deriving DecidableEq, Repr

/-- Association lists model JS `Map` objects: insertion ordered, unique keys.
`aget` is `Map.get`. -/
def aget {κ β : Type} [DecidableEq κ] : List (κ × β) → κ → Option β
  | [], _ => none
  | (k₂, v) :: t, k => if k₂ = k then some v else aget t k

/-- `Map.set`: replace in place if the key is present, else append. -/
def aset {κ β : Type} [DecidableEq κ] : List (κ × β) → κ → β → List (κ × β)
  | [], k, v => [(k, v)]
  | (k₂, v₂) :: t, k, v => if k₂ = k then (k, v) :: t else (k₂, v₂) :: aset t k v

/-- `Map.delete` (keys are unique in every reachable map, so filtering
all occurrences agrees with deleting the entry). -/
def aerase {κ β : Type} [DecidableEq κ] (m : List (κ × β)) (k : κ) : List (κ × β) :=
  m.filter (fun e => decide (¬ e.1 = k))

theorem aget_aset_self {κ β : Type} [DecidableEq κ] (m : List (κ × β)) (k : κ) (v : β) :
    aget (aset m k v) k = some v := by
  induction m with
  | nil => simp [aget, aset]
  | cons h t ih =>
    by_cases hk : h.1 = k
    · simp [aset, hk, aget]
    · simp [aset, hk, aget, ih]

theorem aget_aset_ne {κ β : Type} [DecidableEq κ] (m : List (κ × β)) (k k₂ : κ) (v : β)
    (h : k₂ ≠ k) : aget (aset m k v) k₂ = aget m k₂ := by
  have hkk : ¬ k = k₂ := fun hc => h hc.symm
  induction m with
  | nil => simp [aget, aset, hkk]
  | cons hd t ih =>
    obtain ⟨k₁, v₁⟩ := hd
    by_cases hk : k₁ = k
    · subst hk
      simp [aset, aget, hkk]
    · by_cases hk2 : k₁ = k₂
      · subst hk2
        simp [aset, hk, aget]
      · simp [aset, hk, aget, hk2, ih]

theorem aget_aerase_self {κ β : Type} [DecidableEq κ] (m : List (κ × β)) (k : κ) :
    aget (aerase m k) k = none := by
  induction m with
  | nil => simp [aget, aerase]
  | cons h t ih =>
    by_cases hk : h.1 = k
    · simpa [aerase, hk] using ih
    · simpa [aerase, aget, hk] using ih

theorem aget_aerase_ne {κ β : Type} [DecidableEq κ] (m : List (κ × β)) (k k₂ : κ)
    (h : k₂ ≠ k) : aget (aerase m k) k₂ = aget m k₂ := by
  induction m with
  | nil => simp [aget, aerase]
  | cons hd t ih =>
    obtain ⟨k₁, v₁⟩ := hd
    by_cases hk : k₁ = k
    · subst hk
      have hne : ¬ k₁ = k₂ := fun hc => h hc.symm
      simpa [aerase, aget, hne] using ih
    · by_cases hk2 : k₁ = k₂
      · subst hk2
        simp [aerase, hk, aget]
      · simpa [aerase, hk, aget, hk2] using ih

mutual
/-- Behavior node, a closed tagged union of the node classes in app.js.
`K` is the number type, `σ` the mutable agent payload; closures stored in
`cond` and `act` receive the agent id (read-only in the source) and the
payload. -/
inductive BT (K σ : Type) where
  | seq : BTs K σ → BT K σ
  | sel : BTs K σ → BT K σ
  | par : BTs K σ → Int → BT K σ
  | inv : BT K σ → BT K σ
  | cond : (String → σ → Bool) → BT K σ
  | act : (String → σ → K → Status × σ) → Option (String → σ → σ) →
      Option (String → σ → σ) → BT K σ
  | repeatUF : BT K σ → BT K σ
  | wait : K → BT K σ

/-- Child list of a composite node (a mutual list keeps recursion structural). -/
inductive BTs (K σ : Type) where
  | nil : BTs K σ
  | cons : BT K σ → BTs K σ → BTs K σ
end

/-- Number of children. -/
def BTs.length {K σ : Type} : BTs K σ → Nat
  | .nil => 0
  | .cons _ t => t.length + 1

/-- The `Parallel` constructor: `requiredSuccesses` defaults to `-1` and any
negative value is resolved to the child count. -/
def BT.parallel {K σ : Type} (children : BTs K σ) (requiredSuccesses : Int := -1) : BT K σ :=
  .par children (if requiredSuccesses < 0 then (children.length : Int) else requiredSuccesses)

/-- Per-node, per-agent execution state.  Each node of the source stores up to
four maps keyed by agent id (`currentIndex`, `isRunning`, `statuses`,
`timeElapsed`); the state of a whole tree is the tree of these maps, laid out
in the same shape as the behavior tree, with children addressed by position. -/
inductive StT (K : Type) where
  | mk : List (String × Nat) → List (String × Bool) → List (String × List Status) →
      List (String × K) → List (StT K) → StT K

def StT.idxM {K : Type} : StT K → List (String × Nat)
  | .mk i _ _ _ _ => i

def StT.runM {K : Type} : StT K → List (String × Bool)
  | .mk _ r _ _ _ => r

def StT.statsM {K : Type} : StT K → List (String × List Status)
  | .mk _ _ s _ _ => s

def StT.elapM {K : Type} : StT K → List (String × K)
  | .mk _ _ _ e _ => e

def StT.kids {K : Type} : StT K → List (StT K)
  | .mk _ _ _ _ k => k

/-- The state of a freshly constructed node: all maps empty. -/
def StT.empty {K : Type} : StT K := .mk [] [] [] [] []

/-- State of the i-th child; a missing entry is the fresh state. -/
def StT.kid {K : Type} (s : StT K) (i : Nat) : StT K :=
  s.kids.getD i StT.empty

/-- Write position `i` of a kid list, padding with fresh states as needed. -/
def padSet {K : Type} : List (StT K) → Nat → StT K → List (StT K)
  | [], 0, c => [c]
  | _ :: t, 0, c => c :: t
  | [], n + 1, c => StT.empty :: padSet [] n c
  | h :: t, n + 1, c => h :: padSet t n c

def StT.setKid {K : Type} (s : StT K) (i : Nat) (c : StT K) : StT K :=
  .mk s.idxM s.runM s.statsM s.elapM (padSet s.kids i c)

def StT.setIdx {K : Type} (s : StT K) (a : String) (n : Nat) : StT K :=
  .mk (aset s.idxM a n) s.runM s.statsM s.elapM s.kids

def StT.eraseIdx {K : Type} (s : StT K) (a : String) : StT K :=
  .mk (aerase s.idxM a) s.runM s.statsM s.elapM s.kids

def StT.setRun {K : Type} (s : StT K) (a : String) (b : Bool) : StT K :=
  .mk s.idxM (aset s.runM a b) s.statsM s.elapM s.kids

def StT.eraseRun {K : Type} (s : StT K) (a : String) : StT K :=
  .mk s.idxM (aerase s.runM a) s.statsM s.elapM s.kids

def StT.setStats {K : Type} (s : StT K) (a : String) (l : List Status) : StT K :=
  .mk s.idxM s.runM (aset s.statsM a l) s.elapM s.kids

def StT.eraseStats {K : Type} (s : StT K) (a : String) : StT K :=
  .mk s.idxM s.runM (aerase s.statsM a) s.elapM s.kids

def StT.setElap {K : Type} (s : StT K) (a : String) (e : K) : StT K :=
  .mk s.idxM s.runM s.statsM (aset s.elapM a e) s.kids

def StT.eraseElap {K : Type} (s : StT K) (a : String) : StT K :=
  .mk s.idxM s.runM s.statsM (aerase s.elapM a) s.kids

theorem kid_padSet {K : Type} (l : List (StT K)) (i j : Nat) (c : StT K) :
    (padSet l i c).getD j StT.empty = if j = i then c else l.getD j StT.empty := by
  induction l generalizing i j with
  | nil =>
    induction i generalizing j with
    | zero => cases j <;> simp [padSet]
    | succ n ih =>
      cases j with
      | zero => simp [padSet]
      | succ m => simpa [padSet, Nat.succ_inj] using ih m
  | cons h t iht =>
    cases i with
    | zero => cases j <;> simp [padSet]
    | succ n =>
      cases j with
      | zero => simp [padSet]
      | succ m => simpa [padSet, Nat.succ_inj] using iht n m

theorem kid_setKid {K : Type} (s : StT K) (i j : Nat) (c : StT K) :
    (s.setKid i c).kid j = if j = i then c else s.kid j := by
  show (padSet s.kids i c).getD j StT.empty = _
  exact kid_padSet s.kids i j c

/-- Count of children whose recorded status is SUCCESS after the sweep. -/
def countSucc (sts : List Status) (n : Nat) : Nat :=
  ((List.range n).filter (fun i => decide (sts.get? i = some Status.success))).length

/-- Count of children whose recorded status is neither RUNNING nor SUCCESS
(the source increments `failureCount` in the final else branch). -/
def countFail (sts : List Status) (n : Nat) : Nat :=
  ((List.range n).filter (fun i =>
    decide (sts.get? i ≠ some Status.running ∧ sts.get? i ≠ some Status.success))).length

/-- Apply an optional hook (`onEnter`/`onExit`) to the payload. -/
def optApp {σ : Type} (hook : Option (String → σ → σ)) (a : String) (x : σ) : σ :=
  match hook with
  | some f => f a x
  | none => x

mutual
/-- `execute(agent, deltaTime)` of each node class, with the node state threaded
explicitly.  Returns the status, the updated node state and the updated agent
payload. -/
def exec {K σ : Type} [LinearOrderedAddCommGroup K] : BT K σ → StT K → String → σ → K → Status × StT K × σ
  | .seq cs, st, a, x, dt =>
    let st₁ := if (aget st.idxM a).isSome then st else st.setIdx a 0
    let idx := (aget st₁.idxM a).getD 0
    if cs.length ≤ idx then (.success, st₁, x)
    else
      let r := execChildAt cs idx (st₁.kid idx) a x dt
      let st₂ := st₁.setKid idx r.2.1
      match r.1 with
      | .running => (.running, st₂, r.2.2)
      | .failure => (.failure, st₂.setIdx a 0, r.2.2)
      | .success =>
        if cs.length ≤ idx + 1 then (.success, (st₂.setIdx a (idx + 1)).setIdx a 0, r.2.2)
        else (.running, st₂.setIdx a (idx + 1), r.2.2)
  | .sel cs, st, a, x, dt =>
    let st₁ := if (aget st.idxM a).isSome then st else st.setIdx a 0
    let idx := (aget st₁.idxM a).getD 0
    if cs.length ≤ idx then (.failure, st₁, x)
    else
      let r := execChildAt cs idx (st₁.kid idx) a x dt
      let st₂ := st₁.setKid idx r.2.1
      match r.1 with
      | .running => (.running, st₂, r.2.2)
      | .success => (.success, st₂.setIdx a 0, r.2.2)
      | .failure =>
        if cs.length ≤ idx + 1 then (.failure, (st₂.setIdx a (idx + 1)).setIdx a 0, r.2.2)
        else (.running, st₂.setIdx a (idx + 1), r.2.2)
  | .par cs req, st, a, x, dt =>
    let st₁ := if (aget st.statsM a).isSome then st
      else st.setStats a (List.replicate cs.length Status.running)
    let sts := (aget st₁.statsM a).getD []
    let r := execPar cs 0 sts st₁ a x dt
    let st₂ := r.2.1.setStats a r.1
    let sCount := countSucc r.1 cs.length
    let fCount := countFail r.1 cs.length
    if req ≤ (sCount : Int) then (.success, st₂.eraseStats a, r.2.2)
    else if (cs.length : Int) - req < (fCount : Int) then (.failure, st₂.eraseStats a, r.2.2)
    else (.running, st₂, r.2.2)
  | .inv c, st, a, x, dt =>
    let r := exec c (st.kid 0) a x dt
    let st₁ := st.setKid 0 r.2.1
    match r.1 with
    | .running => (.running, st₁, r.2.2)
    | .success => (.failure, st₁, r.2.2)
    | .failure => (.success, st₁, r.2.2)
  | .cond p, st, a, x, _ =>
    ((if p a x then Status.success else Status.failure), st, x)
  | .act fn en ex, st, a, x, dt =>
    let wasRunning := (aget st.runM a).getD false
    let x₁ := if wasRunning then x else optApp en a x
    let st₁ := st.setRun a true
    let r := fn a x₁ dt
    match r.1 with
    | .running => (.running, st₁, r.2)
    | .success => (.success, st₁.setRun a false, optApp ex a r.2)
    | .failure => (.failure, st₁.setRun a false, optApp ex a r.2)
  | .repeatUF c, st, a, x, dt =>
    let r := exec c (st.kid 0) a x dt
    match r.1 with
    | .failure => (.failure, st.setKid 0 r.2.1, r.2.2)
    | .success =>
      let rr := rst c r.2.1 a r.2.2
      (.running, st.setKid 0 rr.1, rr.2)
    | .running => (.running, st.setKid 0 r.2.1, r.2.2)
  | .wait d, st, a, x, dt =>
    let st₁ := if (aget st.elapM a).isSome then st else st.setElap a 0
    let e := (aget st₁.elapM a).getD 0 + dt
    let st₂ := st₁.setElap a e
    if d ≤ e then (.success, st₂.eraseElap a, x) else (.running, st₂, x)

/-- Evaluate `children[n]` (`Sequence`/`Selector` evaluate a single child by
index; the out-of-range branch is unreachable because both classes first check
the index against the child count). -/
def execChildAt {K σ : Type} [LinearOrderedAddCommGroup K] : BTs K σ → Nat → StT K → String → σ → K → Status × StT K × σ
  | .nil, _, cst, _, x, _ => (.success, cst, x)
  | .cons c _, 0, cst, a, x, dt => exec c cst a x dt
  | .cons _ cs, n + 1, cst, a, x, dt => execChildAt cs n cst a x dt

/-- The child sweep of `Parallel.execute`: child `i` is re-evaluated exactly
when its recorded status is RUNNING, and the record is updated in place. -/
def execPar {K σ : Type} [LinearOrderedAddCommGroup K] : BTs K σ → Nat → List Status → StT K → String → σ → K → List Status × StT K × σ
  | .nil, _, sts, st, _, x, _ => (sts, st, x)
  | .cons c cs, i, sts, st, a, x, dt =>
    match sts.get? i with
    | some .running =>
      let r := exec c (st.kid i) a x dt
      execPar cs (i + 1) (sts.set i r.1) (st.setKid i r.2.1) a r.2.2 dt
    | _ => execPar cs (i + 1) sts st a x dt

/-- `reset(agent)` of each node class: erase exactly this agent keyed state,
recursively; `Action.reset` fires `onExit` when the action was active. -/
def rst {K σ : Type} [LinearOrderedAddCommGroup K] : BT K σ → StT K → String → σ → StT K × σ
  | .seq cs, st, a, x => rstList cs 0 (st.eraseIdx a) a x
  | .sel cs, st, a, x => rstList cs 0 (st.eraseIdx a) a x
  | .par cs _, st, a, x => rstList cs 0 (st.eraseStats a) a x
  | .inv c, st, a, x =>
    let r := rst c (st.kid 0) a x
    (st.setKid 0 r.1, r.2)
  | .cond _, st, _, x => (st, x)
  | .act _ _ ex, st, a, x =>
    let wasRunning := (aget st.runM a).getD false
    let x₁ := if wasRunning then optApp ex a x else x
    (st.eraseRun a, x₁)
  | .repeatUF c, st, a, x =>
    let r := rst c (st.kid 0) a x
    (st.setKid 0 r.1, r.2)
  | .wait _, st, a, x => (st.eraseElap a, x)

/-- `children.forEach(child => child.reset(agent))`. -/
def rstList {K σ : Type} [LinearOrderedAddCommGroup K] : BTs K σ → Nat → StT K → String → σ → StT K × σ
  | .nil, _, st, _, x => (st, x)
  | .cons c cs, i, st, a, x =>
    let r := rst c (st.kid i) a x
    rstList cs (i + 1) (st.setKid i r.1) a r.2
end


@[simp] theorem setKid_idxM {K : Type} (s : StT K) (i : Nat) (c : StT K) :
    (s.setKid i c).idxM = s.idxM := rfl

@[simp] theorem setKid_runM {K : Type} (s : StT K) (i : Nat) (c : StT K) :
    (s.setKid i c).runM = s.runM := rfl

@[simp] theorem setKid_statsM {K : Type} (s : StT K) (i : Nat) (c : StT K) :
    (s.setKid i c).statsM = s.statsM := rfl

@[simp] theorem setKid_elapM {K : Type} (s : StT K) (i : Nat) (c : StT K) :
    (s.setKid i c).elapM = s.elapM := rfl

@[simp] theorem setIdx_idxM {K : Type} (s : StT K) (a : String) (n : Nat) :
    (s.setIdx a n).idxM = aset s.idxM a n := rfl

@[simp] theorem setIdx_kid {K : Type} (s : StT K) (a : String) (n : Nat) (i : Nat) :
    (s.setIdx a n).kid i = s.kid i := rfl

@[simp] theorem setIdx_kids {K : Type} (s : StT K) (a : String) (n : Nat) :
    (s.setIdx a n).kids = s.kids := rfl

@[simp] theorem setStats_statsM {K : Type} (s : StT K) (a : String) (l : List Status) :
    (s.setStats a l).statsM = aset s.statsM a l := rfl

@[simp] theorem setStats_kid {K : Type} (s : StT K) (a : String) (l : List Status) (i : Nat) :
    (s.setStats a l).kid i = s.kid i := rfl

@[simp] theorem eraseStats_statsM {K : Type} (s : StT K) (a : String) :
    (s.eraseStats a).statsM = aerase s.statsM a := rfl

/-- The lazy initialisation of a per-agent map entry: after the
`if (!map.has(agentId)) map.set(agentId, d)` step the entry holds the old
value or the default `d`. -/
theorem aget_init {κ β : Type} [DecidableEq κ] (m : List (κ × β)) (k : κ) (d : β) :
    aget (if (aget m k).isSome then m else aset m k d) k = some ((aget m k).getD d) := by
  cases h : aget m k with
  | none => simp [h, aget_aset_self]
  | some v => simp [h]

/-- Claim C10: a Sequence constructed with zero children returns Success on
every execute call, and a Selector with zero children returns Failure, in both
cases leaving the agent payload and every descendant state (the kid list)
unmodified. -/
theorem c10_empty_seq_sel {K σ : Type} [LinearOrderedAddCommGroup K]
    (st : StT K) (a : String) (x : σ) (dt : K) :
    exec (K := K) (σ := σ) (.seq .nil) st a x dt =
      (.success, (if (aget st.idxM a).isSome then st else st.setIdx a 0), x) ∧
    exec (K := K) (σ := σ) (.sel .nil) st a x dt =
      (.failure, (if (aget st.idxM a).isSome then st else st.setIdx a 0), x) ∧
    (exec (K := K) (σ := σ) (.seq .nil) st a x dt).2.1.kids = st.kids ∧
    (exec (K := K) (σ := σ) (.sel .nil) st a x dt).2.1.kids = st.kids := by
  have hseq : exec (K := K) (σ := σ) (.seq .nil) st a x dt =
      (.success, (if (aget st.idxM a).isSome then st else st.setIdx a 0), x) := by
    simp [exec, BTs.length]
  have hsel : exec (K := K) (σ := σ) (.sel .nil) st a x dt =
      (.failure, (if (aget st.idxM a).isSome then st else st.setIdx a 0), x) := by
    simp [exec, BTs.length]
  refine ⟨hseq, hsel, ?_, ?_⟩
  · rw [hseq]
    cases h : (aget st.idxM a).isSome <;> simp [h]
  · rw [hsel]
    cases h : (aget st.idxM a).isSome <;> simp [h]

/-- The lazy index-map initialisation shared by `Sequence.execute` and
`Selector.execute` (shorthand for the corresponding step of `exec`). -/
def seqInit {K : Type} (st : StT K) (a : String) : StT K :=
  if (aget st.idxM a).isSome then st else st.setIdx a 0

/-- The per-agent child index read by `Sequence.execute` and `Selector.execute`. -/
def seqIdx {K : Type} (st : StT K) (a : String) : Nat :=
  (aget (seqInit st a).idxM a).getD 0

theorem aget_seqInit {K : Type} (st : StT K) (a : String) :
    aget (seqInit st a).idxM a = some ((aget st.idxM a).getD 0) := by
  unfold seqInit
  cases h : aget st.idxM a with
  | none => simp [h, aget_aset_self]
  | some v => simp [h]

theorem seqIdx_eq {K : Type} (st : StT K) (a : String) :
    seqIdx st a = (aget st.idxM a).getD 0 := by
  simp [seqIdx, aget_seqInit]

/-- Claim C3: per-tick semantics of `Sequence.execute`.  The per-agent child
index starts at 0 (a missing entry reads as 0 and is initialised to 0); if the
evaluated child returns Running the Sequence returns Running with the index
unchanged; on Failure the Sequence fails and the index resets to 0; on Success
the index advances, and when the advanced index reaches the child count the
Sequence succeeds with the index reset to 0, otherwise it keeps Running. -/
theorem c3_sequence_tick {K σ : Type} [LinearOrderedAddCommGroup K]
    (cs : BTs K σ) (st : StT K) (a : String) (x : σ) (dt : K)
    (hlen : seqIdx st a < cs.length) :
    (aget st.idxM a = none → seqIdx st a = 0) ∧
    (aget st.idxM a = none → aget (seqInit st a).idxM a = some 0) ∧
    ((execChildAt cs (seqIdx st a) ((seqInit st a).kid (seqIdx st a)) a x dt).1 = .running →
      exec (.seq cs) st a x dt =
        (.running,
          (seqInit st a).setKid (seqIdx st a)
            (execChildAt cs (seqIdx st a) ((seqInit st a).kid (seqIdx st a)) a x dt).2.1,
          (execChildAt cs (seqIdx st a) ((seqInit st a).kid (seqIdx st a)) a x dt).2.2) ∧
      aget (exec (.seq cs) st a x dt).2.1.idxM a = some (seqIdx st a)) ∧
    ((execChildAt cs (seqIdx st a) ((seqInit st a).kid (seqIdx st a)) a x dt).1 = .failure →
      exec (.seq cs) st a x dt =
        (.failure,
          ((seqInit st a).setKid (seqIdx st a)
            (execChildAt cs (seqIdx st a) ((seqInit st a).kid (seqIdx st a)) a x dt).2.1).setIdx a 0,
          (execChildAt cs (seqIdx st a) ((seqInit st a).kid (seqIdx st a)) a x dt).2.2) ∧
      aget (exec (.seq cs) st a x dt).2.1.idxM a = some 0) ∧
    ((execChildAt cs (seqIdx st a) ((seqInit st a).kid (seqIdx st a)) a x dt).1 = .success →
      seqIdx st a + 1 = cs.length →
      exec (.seq cs) st a x dt =
        (.success,
          (((seqInit st a).setKid (seqIdx st a)
            (execChildAt cs (seqIdx st a) ((seqInit st a).kid (seqIdx st a)) a x dt).2.1).setIdx a
              (seqIdx st a + 1)).setIdx a 0,
          (execChildAt cs (seqIdx st a) ((seqInit st a).kid (seqIdx st a)) a x dt).2.2) ∧
      aget (exec (.seq cs) st a x dt).2.1.idxM a = some 0) ∧
    ((execChildAt cs (seqIdx st a) ((seqInit st a).kid (seqIdx st a)) a x dt).1 = .success →
      seqIdx st a + 1 < cs.length →
      exec (.seq cs) st a x dt =
        (.running,
          ((seqInit st a).setKid (seqIdx st a)
            (execChildAt cs (seqIdx st a) ((seqInit st a).kid (seqIdx st a)) a x dt).2.1).setIdx a
              (seqIdx st a + 1),
          (execChildAt cs (seqIdx st a) ((seqInit st a).kid (seqIdx st a)) a x dt).2.2) ∧
      aget (exec (.seq cs) st a x dt).2.1.idxM a = some (seqIdx st a + 1)) := by
  have hinit : aget (seqInit st a).idxM a = some ((aget st.idxM a).getD 0) := aget_seqInit st a
  have hidx : (aget (seqInit st a).idxM a).getD 0 = seqIdx st a := by
    rw [hinit, seqIdx_eq]
    rfl
  have hexec : exec (.seq cs) st a x dt =
      (if cs.length ≤ seqIdx st a then (.success, seqInit st a, x)
       else
        match (execChildAt cs (seqIdx st a) ((seqInit st a).kid (seqIdx st a)) a x dt).1 with
        | .running =>
          (.running,
            (seqInit st a).setKid (seqIdx st a)
              (execChildAt cs (seqIdx st a) ((seqInit st a).kid (seqIdx st a)) a x dt).2.1,
            (execChildAt cs (seqIdx st a) ((seqInit st a).kid (seqIdx st a)) a x dt).2.2)
        | .failure =>
          (.failure,
            ((seqInit st a).setKid (seqIdx st a)
              (execChildAt cs (seqIdx st a) ((seqInit st a).kid (seqIdx st a)) a x dt).2.1).setIdx a 0,
            (execChildAt cs (seqIdx st a) ((seqInit st a).kid (seqIdx st a)) a x dt).2.2)
        | .success =>
          if cs.length ≤ seqIdx st a + 1 then
            (.success,
              (((seqInit st a).setKid (seqIdx st a)
                (execChildAt cs (seqIdx st a) ((seqInit st a).kid (seqIdx st a)) a x dt).2.1).setIdx a
                  (seqIdx st a + 1)).setIdx a 0,
              (execChildAt cs (seqIdx st a) ((seqInit st a).kid (seqIdx st a)) a x dt).2.2)
          else
            (.running,
              ((seqInit st a).setKid (seqIdx st a)
                (execChildAt cs (seqIdx st a) ((seqInit st a).kid (seqIdx st a)) a x dt).2.1).setIdx a
                  (seqIdx st a + 1),
              (execChildAt cs (seqIdx st a) ((seqInit st a).kid (seqIdx st a)) a x dt).2.2)) := rfl
  rw [if_neg (not_le.mpr hlen)] at hexec
  refine ⟨?_, ?_, ?_, ?_, ?_, ?_⟩
  · intro h
    simp [seqIdx_eq, h]
  · intro h
    rw [hinit, h]
    rfl
  · intro hr
    rw [hr] at hexec
    refine ⟨hexec, ?_⟩
    rw [hexec]
    simpa using hinit.trans (by rw [seqIdx_eq])
  · intro hr
    rw [hr] at hexec
    exact ⟨hexec, by rw [hexec]; simp [aget_aset_self]⟩
  · intro hr hlast
    rw [hr, if_pos (le_of_eq hlast.symm)] at hexec
    exact ⟨hexec, by rw [hexec]; simp [aget_aset_self]⟩
  · intro hr hmore
    rw [hr, if_neg (not_le.mpr hmore)] at hexec
    exact ⟨hexec, by rw [hexec]; simp [aget_aset_self]⟩

/-- Witness tree for the Sequence claim: two always-true conditions. -/
def csC3 : BTs ℤ Unit :=
  .cons (.cond (fun _ _ => true)) (.cons (.cond (fun _ _ => true)) .nil)

/-- Witness for C3 at a concrete input: from the fresh state the first child
succeeds, so the tick returns Running with the index advanced to 1. -/
theorem c3_sequence_tick_witness :
    exec (.seq csC3) .empty "a" () (1 : ℤ) =
      (.running,
        ((seqInit (StT.empty : StT ℤ) "a").setKid (seqIdx (StT.empty : StT ℤ) "a")
          (execChildAt csC3 (seqIdx (StT.empty : StT ℤ) "a")
            ((seqInit (StT.empty : StT ℤ) "a").kid (seqIdx (StT.empty : StT ℤ) "a")) "a" () 1).2.1).setIdx
            "a" (seqIdx (StT.empty : StT ℤ) "a" + 1),
        ()) ∧
    aget (exec (.seq csC3) .empty "a" () (1 : ℤ)).2.1.idxM "a" = some 1 := by
  have h := (c3_sequence_tick csC3 .empty "a" () 1 (by decide)).2.2.2.2.2
    (by decide) (by decide)
  exact ⟨h.1, by simpa using h.2⟩

@[simp] theorem eraseStats_kid {K : Type} (s : StT K) (a : String) (i : Nat) :
    (s.eraseStats a).kid i = s.kid i := rfl

/-- The lazy status-vector initialisation of `Parallel.execute`. -/
def parInit {K : Type} (st : StT K) (a : String) (n : Nat) : StT K :=
  if (aget st.statsM a).isSome then st else st.setStats a (List.replicate n Status.running)

/-- The per-agent status vector read by `Parallel.execute` after initialisation. -/
def parStats {K : Type} (st : StT K) (a : String) (n : Nat) : List Status :=
  (aget (parInit st a n).statsM a).getD []

theorem aget_parInit {K : Type} (st : StT K) (a : String) (n : Nat) :
    aget (parInit st a n).statsM a =
      some ((aget st.statsM a).getD (List.replicate n Status.running)) := by
  unfold parInit
  cases h : aget st.statsM a with
  | none => simp [h, aget_aset_self]
  | some v => simp [h]

theorem length_filter_disjoint {α : Type} (l : List α) (p q : α → Bool)
    (h : ∀ y ∈ l, ¬(p y = true ∧ q y = true)) :
    (l.filter p).length + (l.filter q).length ≤ l.length := by
  induction l with
  | nil => simp
  | cons hd t ih =>
    have ht : ∀ y ∈ t, ¬(p y = true ∧ q y = true) := fun y hy => h y (List.mem_cons_of_mem hd hy)
    have hih := ih ht
    have hh := h hd (List.mem_cons_self hd t)
    cases hp : p hd <;> cases hq : q hd
    · simp only [List.filter, hp, hq, List.length_cons]
      omega
    · simp only [List.filter, hp, hq, List.length_cons]
      omega
    · simp only [List.filter, hp, hq, List.length_cons]
      omega
    · exact absurd ⟨hp, hq⟩ hh

theorem countSucc_add_countFail_le (sts : List Status) (n : Nat) :
    countSucc sts n + countFail sts n ≤ n := by
  have h := length_filter_disjoint (List.range n)
    (fun i => decide (sts.get? i = some Status.success))
    (fun i => decide (sts.get? i ≠ some Status.running ∧ sts.get? i ≠ some Status.success))
    (by
      intro y _ hc
      rcases hc with ⟨h₁, h₂⟩
      simp only [decide_eq_true_eq] at h₁ h₂
      exact h₂.2 h₁)
  simpa [countSucc, countFail] using h

/-- Structural induction over a child list alone (children are treated as
opaque, so no motive over `BT` is needed). -/
theorem BTs.rec1 {K σ : Type} {motive : BTs K σ → Prop} (hnil : motive .nil)
    (hcons : ∀ c t, motive t → motive (.cons c t)) : ∀ cs, motive cs
  | .nil => hnil
  | .cons c t => hcons c t (BTs.rec1 hnil hcons t)

theorem execPar_stats_length {K σ : Type} [LinearOrderedAddCommGroup K]
    (cs : BTs K σ) (i : Nat) (sts : List Status) (st : StT K) (a : String) (x : σ) (dt : K) :
    (execPar cs i sts st a x dt).1.length = sts.length := by
  induction cs using BTs.rec1 generalizing i sts st x with
  | hnil => rfl
  | hcons c t ih =>
    show (execPar (.cons c t) i sts st a x dt).1.length = sts.length
    rw [execPar]
    rcases h : sts.get? i with _ | s
    · exact ih (i + 1) sts st x
    · cases s
      · exact ih (i + 1) sts st x
      · exact ih (i + 1) sts st x
      · rw [show ((match some Status.running with
          | some Status.running =>
            let r := exec c (st.kid i) a x dt
            execPar t (i + 1) (sts.set i r.1) (st.setKid i r.2.1) a r.2.2 dt
          | _ => execPar t (i + 1) sts st a x dt) : List Status × StT K × σ) =
            execPar t (i + 1) (sts.set i (exec c (st.kid i) a x dt).1)
              (st.setKid i (exec c (st.kid i) a x dt).2.1) a (exec c (st.kid i) a x dt).2.2 dt
            from rfl]
        rw [ih (i + 1) (sts.set i (exec c (st.kid i) a x dt).1) _ _]
        exact sts.length_set i _

theorem execPar_not_running {K σ : Type} [LinearOrderedAddCommGroup K]
    (cs : BTs K σ) (i : Nat) (sts : List Status) (st : StT K) (a : String) (x : σ) (dt : K)
    (j : Nat) (h : sts.get? j ≠ some Status.running) :
    (execPar cs i sts st a x dt).1.get? j = sts.get? j ∧
    (execPar cs i sts st a x dt).2.1.kid j = st.kid j := by
  induction cs using BTs.rec1 generalizing i sts st x with
  | hnil => exact ⟨rfl, rfl⟩
  | hcons c t ih =>
    show ((execPar (.cons c t) i sts st a x dt).1.get? j = sts.get? j ∧ _)
    rw [execPar]
    rcases hi : sts.get? i with _ | s
    · exact ih (i + 1) sts st x h
    · cases s
      · exact ih (i + 1) sts st x h
      · exact ih (i + 1) sts st x h
      · have hij : i ≠ j := by
          intro hc
          rw [hc] at hi
          exact h hi
        have hset : (sts.set i (exec c (st.kid i) a x dt).1).get? j = sts.get? j :=
          List.get?_set_ne _ sts hij
        have hkid : (st.setKid i (exec c (st.kid i) a x dt).2.1).kid j = st.kid j := by
          rw [kid_setKid, if_neg (fun hc => hij hc.symm)]
        have hrec := ih (i + 1) (sts.set i (exec c (st.kid i) a x dt).1)
          (st.setKid i (exec c (st.kid i) a x dt).2.1) (exec c (st.kid i) a x dt).2.2
          (by rw [hset]; exact h)
        exact ⟨hrec.1.trans hset, hrec.2.trans hkid⟩

theorem execPar_maps {K σ : Type} [LinearOrderedAddCommGroup K]
    (cs : BTs K σ) (i : Nat) (sts : List Status) (st : StT K) (a : String) (x : σ) (dt : K) :
    (execPar cs i sts st a x dt).2.1.idxM = st.idxM ∧
    (execPar cs i sts st a x dt).2.1.runM = st.runM ∧
    (execPar cs i sts st a x dt).2.1.statsM = st.statsM ∧
    (execPar cs i sts st a x dt).2.1.elapM = st.elapM := by
  induction cs using BTs.rec1 generalizing i sts st x with
  | hnil => exact ⟨rfl, rfl, rfl, rfl⟩
  | hcons c t ih =>
    show ((execPar (.cons c t) i sts st a x dt).2.1.idxM = st.idxM ∧ _)
    rw [execPar]
    rcases hi : sts.get? i with _ | s
    · exact ih (i + 1) sts st x
    · cases s
      · exact ih (i + 1) sts st x
      · exact ih (i + 1) sts st x
      · exact ih (i + 1) (sts.set i (exec c (st.kid i) a x dt).1)
          (st.setKid i (exec c (st.kid i) a x dt).2.1) (exec c (st.kid i) a x dt).2.2

/-- Claim C4: semantics of `Parallel.execute`.  `requiredSuccesses` defaults to
the child count; each tick only children whose recorded per-agent status is
Running are re-evaluated while the others retain their prior terminal status;
the node returns Success iff successCount is at least requiredSuccesses,
Failure iff failureCount exceeds childCount minus requiredSuccesses, Running
otherwise; and the per-agent status vector is cleared exactly on a terminal
outcome. -/
theorem c4_parallel_semantics {K σ : Type} [LinearOrderedAddCommGroup K]
    (cs : BTs K σ) (req : Int) (st : StT K) (a : String) (x : σ) (dt : K) :
    (BT.parallel (K := K) (σ := σ) cs = .par cs (cs.length : Int)) ∧
    ((exec (.par cs req) st a x dt).1 = .success ↔
      req ≤ (countSucc (execPar cs 0 (parStats st a cs.length) (parInit st a cs.length) a x dt).1
        cs.length : Int)) ∧
    ((exec (.par cs req) st a x dt).1 = .failure ↔
      (cs.length : Int) - req <
        (countFail (execPar cs 0 (parStats st a cs.length) (parInit st a cs.length) a x dt).1
          cs.length : Int)) ∧
    ((exec (.par cs req) st a x dt).1 = .running ↔
      ¬ req ≤ (countSucc (execPar cs 0 (parStats st a cs.length) (parInit st a cs.length) a x dt).1
        cs.length : Int) ∧
      ¬ (cs.length : Int) - req <
        (countFail (execPar cs 0 (parStats st a cs.length) (parInit st a cs.length) a x dt).1
          cs.length : Int)) ∧
    (aget (exec (.par cs req) st a x dt).2.1.statsM a = none ↔
      ((exec (.par cs req) st a x dt).1 = .success ∨ (exec (.par cs req) st a x dt).1 = .failure)) ∧
    (∀ j : Nat, (parStats st a cs.length).get? j ≠ some Status.running →
      (execPar cs 0 (parStats st a cs.length) (parInit st a cs.length) a x dt).1.get? j =
        (parStats st a cs.length).get? j ∧
      (exec (.par cs req) st a x dt).2.1.kid j = (parInit st a cs.length).kid j) := by
  have hpar : BT.parallel (K := K) (σ := σ) cs = .par cs (cs.length : Int) := by
    simp [BT.parallel]
  have hexec : exec (.par cs req) st a x dt =
      (if req ≤ (countSucc (execPar cs 0 (parStats st a cs.length) (parInit st a cs.length) a x dt).1
          cs.length : Int) then
        (.success,
          ((execPar cs 0 (parStats st a cs.length) (parInit st a cs.length) a x dt).2.1.setStats a
            (execPar cs 0 (parStats st a cs.length) (parInit st a cs.length) a x dt).1).eraseStats a,
          (execPar cs 0 (parStats st a cs.length) (parInit st a cs.length) a x dt).2.2)
       else if (cs.length : Int) - req <
          (countFail (execPar cs 0 (parStats st a cs.length) (parInit st a cs.length) a x dt).1
            cs.length : Int) then
        (.failure,
          ((execPar cs 0 (parStats st a cs.length) (parInit st a cs.length) a x dt).2.1.setStats a
            (execPar cs 0 (parStats st a cs.length) (parInit st a cs.length) a x dt).1).eraseStats a,
          (execPar cs 0 (parStats st a cs.length) (parInit st a cs.length) a x dt).2.2)
       else
        (.running,
          (execPar cs 0 (parStats st a cs.length) (parInit st a cs.length) a x dt).2.1.setStats a
            (execPar cs 0 (parStats st a cs.length) (parInit st a cs.length) a x dt).1,
          (execPar cs 0 (parStats st a cs.length) (parInit st a cs.length) a x dt).2.2)) := rfl
  have hdisj := countSucc_add_countFail_le
    (execPar cs 0 (parStats st a cs.length) (parInit st a cs.length) a x dt).1 cs.length
  refine ⟨hpar, ?_, ?_, ?_, ?_, ?_⟩
  · rw [hexec]
    split_ifs with h1 h2
    · simp [h1]
    · simp [h1]
    · simp [h1]
  · rw [hexec]
    split_ifs with h1 h2
    · constructor
      · intro hc
        cases hc
      · intro hf
        exfalso
        omega
    · simp [h2]
    · simp [h2]
  · rw [hexec]
    split_ifs with h1 h2
    · constructor
      · intro hc
        cases hc
      · intro hf
        exact absurd h1 hf.1
    · constructor
      · intro hc
        cases hc
      · intro hf
        exact absurd h2 hf.2
    · simp [h1, h2]
  · rw [hexec]
    split_ifs with h1 h2
    · simp [StT.eraseStats, StT.statsM, aget_aerase_self]
    · simp [StT.eraseStats, StT.statsM, aget_aerase_self]
    · simp [StT.setStats, StT.statsM, aget_aset_self]
  · intro j hj
    have hnr := execPar_not_running cs 0 (parStats st a cs.length) (parInit st a cs.length)
      a x dt j hj
    refine ⟨hnr.1, ?_⟩
    rw [hexec]
    split_ifs with h1 h2
    · exact hnr.2
    · exact hnr.2
    · exact hnr.2

/-- Witness tree for the Parallel claim: a condition and a two-second wait. -/
def csC4 : BTs ℤ Unit :=
  .cons (.cond (fun _ _ => true)) (.cons (.wait 2) .nil)

/-- Witness state for the Parallel claim: child 0 already recorded Success. -/
def stC4 : StT ℤ :=
  StT.empty.setStats "a" [Status.success, Status.running]

/-- Witness for C4 at a concrete input: a child whose recorded status is the
terminal Success is not re-evaluated and retains that status in the sweep. -/
theorem c4_parallel_semantics_witness :
    (parStats stC4 "a" csC4.length).get? 0 ≠ some Status.running ∧
    (execPar csC4 0 (parStats stC4 "a" csC4.length) (parInit stC4 "a" csC4.length)
      "a" () (1 : ℤ)).1.get? 0 = some Status.success := by
  have h := (c4_parallel_semantics csC4 2 stC4 "a" () 1).2.2.2.2.2 0 (by decide)
  exact ⟨by decide, h.1.trans (by decide)⟩

/-- The n-th child of a child list. -/
def BTs.get {K σ : Type} : BTs K σ → Nat → Option (BT K σ)
  | .nil, _ => none
  | .cons c _, 0 => some c
  | .cons _ t, n + 1 => t.get n

mutual
/-- Agreement of two state trees on everything node `t` stores for agent `a`:
at each node position the map the node class actually owns has the same entry
for `a`.  Taking `s₂ = StT.empty` states that agent `a` has no state in `s₁`. -/
def eqOnT {K σ : Type} : BT K σ → String → StT K → StT K → Prop
  | .seq cs, a, s₁, s₂ => aget s₁.idxM a = aget s₂.idxM a ∧ eqOnTs cs 0 a s₁ s₂
  | .sel cs, a, s₁, s₂ => aget s₁.idxM a = aget s₂.idxM a ∧ eqOnTs cs 0 a s₁ s₂
  | .par cs _, a, s₁, s₂ => aget s₁.statsM a = aget s₂.statsM a ∧ eqOnTs cs 0 a s₁ s₂
  | .inv c, a, s₁, s₂ => eqOnT c a (s₁.kid 0) (s₂.kid 0)
  | .cond _, _, _, _ => True
  | .act _ _ _, a, s₁, s₂ => aget s₁.runM a = aget s₂.runM a
  | .repeatUF c, a, s₁, s₂ => eqOnT c a (s₁.kid 0) (s₂.kid 0)
  | .wait _, a, s₁, s₂ => aget s₁.elapM a = aget s₂.elapM a

/-- Agreement on the children of a composite, stored at kid positions
`i, i+1, ...`. -/
def eqOnTs {K σ : Type} : BTs K σ → Nat → String → StT K → StT K → Prop
  | .nil, _, _, _, _ => True
  | .cons c t, i, a, s₁, s₂ => eqOnT c a (s₁.kid i) (s₂.kid i) ∧ eqOnTs t (i + 1) a s₁ s₂
end

theorem eqOnTs_iff {K σ : Type} (cs : BTs K σ) (i : Nat) (a : String) (s₁ s₂ : StT K) :
    eqOnTs cs i a s₁ s₂ ↔
      ∀ n c, cs.get n = some c → eqOnT c a (s₁.kid (i + n)) (s₂.kid (i + n)) := by
  induction cs using BTs.rec1 generalizing i with
  | hnil =>
    constructor
    · intro _ n c hc
      cases hc
    · intro _
      trivial
  | hcons c t ih =>
    show (eqOnT c a (s₁.kid i) (s₂.kid i) ∧ eqOnTs t (i + 1) a s₁ s₂) ↔ _
    rw [ih (i + 1)]
    constructor
    · rintro ⟨h0, hs⟩ n c₂ hc
      cases n with
      | zero =>
        cases hc
        simpa using h0
      | succ m =>
        have := hs m c₂ hc
        rwa [show i + 1 + m = i + (m + 1) by omega] at this
    · intro h
      refine ⟨by simpa using h 0 c rfl, ?_⟩
      intro n c₂ hc
      have := h (n + 1) c₂ hc
      rwa [show i + (n + 1) = i + 1 + n by omega] at this

/-- Transport of child agreement along maps that leave the relevant kid
positions unchanged. -/
theorem eqOnTs_congr_kids {K σ : Type} (cs : BTs K σ) (j : Nat) (a : String)
    {s₁ s₂ t₁ t₂ : StT K} (h : eqOnTs cs j a s₁ s₂)
    (h₁ : ∀ n, j ≤ n → t₁.kid n = s₁.kid n) (h₂ : ∀ n, j ≤ n → t₂.kid n = s₂.kid n) :
    eqOnTs cs j a t₁ t₂ := by
  rw [eqOnTs_iff] at h ⊢
  intro n c hc
  rw [h₁ (j + n) (Nat.le_add_right j n), h₂ (j + n) (Nat.le_add_right j n)]
  exact h n c hc

@[simp] theorem kid_empty {K : Type} (i : Nat) : (StT.empty : StT K).kid i = StT.empty := by
  cases i <;> rfl

@[simp] theorem seqInit_kid {K : Type} (st : StT K) (a : String) (i : Nat) :
    (seqInit st a).kid i = st.kid i := by
  unfold seqInit
  split_ifs <;> rfl

@[simp] theorem seqInit_runM {K : Type} (st : StT K) (a : String) :
    (seqInit st a).runM = st.runM := by
  unfold seqInit
  split_ifs <;> rfl

@[simp] theorem seqInit_statsM {K : Type} (st : StT K) (a : String) :
    (seqInit st a).statsM = st.statsM := by
  unfold seqInit
  split_ifs <;> rfl

@[simp] theorem seqInit_elapM {K : Type} (st : StT K) (a : String) :
    (seqInit st a).elapM = st.elapM := by
  unfold seqInit
  split_ifs <;> rfl

@[simp] theorem parInit_kid {K : Type} (st : StT K) (a : String) (n : Nat) (i : Nat) :
    (parInit st a n).kid i = st.kid i := by
  unfold parInit
  split_ifs <;> rfl

theorem execPar_kid_lt {K σ : Type} [LinearOrderedAddCommGroup K]
    (cs : BTs K σ) (i : Nat) (sts : List Status) (st : StT K) (a : String) (x : σ) (dt : K)
    (j : Nat) (hj : j < i) :
    (execPar cs i sts st a x dt).2.1.kid j = st.kid j := by
  induction cs using BTs.rec1 generalizing i sts st x with
  | hnil => rfl
  | hcons c t ih =>
    show (execPar (.cons c t) i sts st a x dt).2.1.kid j = st.kid j
    rw [execPar]
    rcases hi : sts.get? i with _ | s
    · exact ih (i + 1) sts st x (Nat.lt_succ_of_lt hj)
    · cases s
      · exact ih (i + 1) sts st x (Nat.lt_succ_of_lt hj)
      · exact ih (i + 1) sts st x (Nat.lt_succ_of_lt hj)
      · rw [show ((match some Status.running with
          | some Status.running =>
            let r := exec c (st.kid i) a x dt
            execPar t (i + 1) (sts.set i r.1) (st.setKid i r.2.1) a r.2.2 dt
          | _ => execPar t (i + 1) sts st a x dt) : List Status × StT K × σ) =
            execPar t (i + 1) (sts.set i (exec c (st.kid i) a x dt).1)
              (st.setKid i (exec c (st.kid i) a x dt).2.1) a (exec c (st.kid i) a x dt).2.2 dt
            from rfl]
        rw [ih (i + 1) _ _ _ (Nat.lt_succ_of_lt hj), kid_setKid,
          if_neg (fun hc => absurd hc (by omega))]

theorem rstList_kid_lt {K σ : Type} [LinearOrderedAddCommGroup K]
    (cs : BTs K σ) (i : Nat) (st : StT K) (a : String) (x : σ)
    (j : Nat) (hj : j < i) :
    (rstList cs i st a x).1.kid j = st.kid j := by
  induction cs using BTs.rec1 generalizing i st x with
  | hnil => rfl
  | hcons c t ih =>
    show (rstList (.cons c t) i st a x).1.kid j = st.kid j
    rw [rstList]
    rw [ih (i + 1) _ _ (Nat.lt_succ_of_lt hj), kid_setKid,
      if_neg (fun hc => absurd hc (by omega))]

theorem rstList_maps {K σ : Type} [LinearOrderedAddCommGroup K]
    (cs : BTs K σ) (i : Nat) (st : StT K) (a : String) (x : σ) :
    (rstList cs i st a x).1.idxM = st.idxM ∧
    (rstList cs i st a x).1.runM = st.runM ∧
    (rstList cs i st a x).1.statsM = st.statsM ∧
    (rstList cs i st a x).1.elapM = st.elapM := by
  induction cs using BTs.rec1 generalizing i st x with
  | hnil => exact ⟨rfl, rfl, rfl, rfl⟩
  | hcons c t ih =>
    show ((rstList (.cons c t) i st a x).1.idxM = st.idxM ∧ _)
    rw [rstList]
    exact ih (i + 1) _ _

theorem BTs.get_lt {K σ : Type} (cs : BTs K σ) (n : Nat) (h : n < cs.length) :
    ∃ c, cs.get n = some c := by
  induction cs using BTs.rec1 generalizing n with
  | hnil => cases h
  | hcons c t ih =>
    cases n with
    | zero => exact ⟨c, rfl⟩
    | succ m => exact ih m (Nat.lt_of_succ_lt_succ h)

@[simp] theorem eraseIdx_kid {K : Type} (s : StT K) (a : String) (i : Nat) :
    (s.eraseIdx a).kid i = s.kid i := rfl

@[simp] theorem eraseRun_kid {K : Type} (s : StT K) (a : String) (i : Nat) :
    (s.eraseRun a).kid i = s.kid i := rfl

@[simp] theorem eraseElap_kid {K : Type} (s : StT K) (a : String) (i : Nat) :
    (s.eraseElap a).kid i = s.kid i := rfl

@[simp] theorem setRun_kid {K : Type} (s : StT K) (a : String) (b : Bool) (i : Nat) :
    (s.setRun a b).kid i = s.kid i := rfl

@[simp] theorem setElap_kid {K : Type} (s : StT K) (a : String) (e : K) (i : Nat) :
    (s.setElap a e).kid i = s.kid i := rfl

/-- The lazy timer initialisation of `Wait.execute`. -/
def waitInit {K : Type} [Zero K] (st : StT K) (a : String) : StT K :=
  if (aget st.elapM a).isSome then st else st.setElap a 0

theorem aget_waitInit {K : Type} [Zero K] (st : StT K) (a : String) :
    aget (waitInit st a).elapM a = some ((aget st.elapM a).getD 0) := by
  unfold waitInit
  cases h : aget st.elapM a with
  | none => simp [h, StT.setElap, StT.elapM, aget_aset_self]
  | some v => simp [h]

mutual
/-- The result of `execute` for agent `a` depends only on the state the tree
stores for `a`: on `a`-equivalent state trees it returns the same status, the
same payload, and `a`-equivalent updated states. -/
theorem execCongr {K σ : Type} [LinearOrderedAddCommGroup K]
    (t : BT K σ) (s₁ s₂ : StT K) (a : String) (x : σ) (dt : K)
    (h : eqOnT t a s₁ s₂) :
    (exec t s₁ a x dt).1 = (exec t s₂ a x dt).1 ∧
    (exec t s₁ a x dt).2.2 = (exec t s₂ a x dt).2.2 ∧
    eqOnT t a (exec t s₁ a x dt).2.1 (exec t s₂ a x dt).2.1 := by
  cases t with
  | seq cs =>
    obtain ⟨hidx, hkids⟩ := h
    have hSI : seqIdx s₂ a = seqIdx s₁ a := by rw [seqIdx_eq, seqIdx_eq, hidx]
    have hI : aget (seqInit s₁ a).idxM a = aget (seqInit s₂ a).idxM a := by
      rw [aget_seqInit, aget_seqInit, hidx]
    have e₁ : exec (.seq cs) s₁ a x dt =
        (if cs.length ≤ seqIdx s₁ a then (Status.success, seqInit s₁ a, x)
         else
          match (execChildAt cs (seqIdx s₁ a) ((seqInit s₁ a).kid (seqIdx s₁ a)) a x dt).1 with
          | .running =>
            (.running,
              (seqInit s₁ a).setKid (seqIdx s₁ a)
                (execChildAt cs (seqIdx s₁ a) ((seqInit s₁ a).kid (seqIdx s₁ a)) a x dt).2.1,
              (execChildAt cs (seqIdx s₁ a) ((seqInit s₁ a).kid (seqIdx s₁ a)) a x dt).2.2)
          | .failure =>
            (.failure,
              ((seqInit s₁ a).setKid (seqIdx s₁ a)
                (execChildAt cs (seqIdx s₁ a) ((seqInit s₁ a).kid (seqIdx s₁ a)) a x dt).2.1).setIdx a 0,
              (execChildAt cs (seqIdx s₁ a) ((seqInit s₁ a).kid (seqIdx s₁ a)) a x dt).2.2)
          | .success =>
            if cs.length ≤ seqIdx s₁ a + 1 then
              (.success,
                (((seqInit s₁ a).setKid (seqIdx s₁ a)
                  (execChildAt cs (seqIdx s₁ a) ((seqInit s₁ a).kid (seqIdx s₁ a)) a x dt).2.1).setIdx a
                    (seqIdx s₁ a + 1)).setIdx a 0,
                (execChildAt cs (seqIdx s₁ a) ((seqInit s₁ a).kid (seqIdx s₁ a)) a x dt).2.2)
            else
              (.running,
                ((seqInit s₁ a).setKid (seqIdx s₁ a)
                  (execChildAt cs (seqIdx s₁ a) ((seqInit s₁ a).kid (seqIdx s₁ a)) a x dt).2.1).setIdx a
                    (seqIdx s₁ a + 1),
                (execChildAt cs (seqIdx s₁ a) ((seqInit s₁ a).kid (seqIdx s₁ a)) a x dt).2.2)) := rfl
    have e₂ : exec (.seq cs) s₂ a x dt =
        (if cs.length ≤ seqIdx s₁ a then (Status.success, seqInit s₂ a, x)
         else
          match (execChildAt cs (seqIdx s₁ a) ((seqInit s₂ a).kid (seqIdx s₁ a)) a x dt).1 with
          | .running =>
            (.running,
              (seqInit s₂ a).setKid (seqIdx s₁ a)
                (execChildAt cs (seqIdx s₁ a) ((seqInit s₂ a).kid (seqIdx s₁ a)) a x dt).2.1,
              (execChildAt cs (seqIdx s₁ a) ((seqInit s₂ a).kid (seqIdx s₁ a)) a x dt).2.2)
          | .failure =>
            (.failure,
              ((seqInit s₂ a).setKid (seqIdx s₁ a)
                (execChildAt cs (seqIdx s₁ a) ((seqInit s₂ a).kid (seqIdx s₁ a)) a x dt).2.1).setIdx a 0,
              (execChildAt cs (seqIdx s₁ a) ((seqInit s₂ a).kid (seqIdx s₁ a)) a x dt).2.2)
          | .success =>
            if cs.length ≤ seqIdx s₁ a + 1 then
              (.success,
                (((seqInit s₂ a).setKid (seqIdx s₁ a)
                  (execChildAt cs (seqIdx s₁ a) ((seqInit s₂ a).kid (seqIdx s₁ a)) a x dt).2.1).setIdx a
                    (seqIdx s₁ a + 1)).setIdx a 0,
                (execChildAt cs (seqIdx s₁ a) ((seqInit s₂ a).kid (seqIdx s₁ a)) a x dt).2.2)
            else
              (.running,
                ((seqInit s₂ a).setKid (seqIdx s₁ a)
                  (execChildAt cs (seqIdx s₁ a) ((seqInit s₂ a).kid (seqIdx s₁ a)) a x dt).2.1).setIdx a
                    (seqIdx s₁ a + 1),
                (execChildAt cs (seqIdx s₁ a) ((seqInit s₂ a).kid (seqIdx s₁ a)) a x dt).2.2)) := by
      rw [← hSI]
      rfl
    by_cases hlen : cs.length ≤ seqIdx s₁ a
    · rw [e₁, e₂, if_pos hlen, if_pos hlen]
      refine ⟨rfl, rfl, hI, ?_⟩
      exact eqOnTs_congr_kids cs 0 a hkids (fun n _ => seqInit_kid s₁ a n)
        (fun n _ => seqInit_kid s₂ a n)
    · have hrel : ∀ cb, cs.get (seqIdx s₁ a) = some cb →
          eqOnT cb a ((seqInit s₁ a).kid (seqIdx s₁ a)) ((seqInit s₂ a).kid (seqIdx s₁ a)) := by
        intro cb hcb
        rw [seqInit_kid, seqInit_kid]
        have := (eqOnTs_iff cs 0 a s₁ s₂).mp hkids (seqIdx s₁ a) cb hcb
        simpa using this
      have hC := execChildAtCongr cs (seqIdx s₁ a) ((seqInit s₁ a).kid (seqIdx s₁ a))
        ((seqInit s₂ a).kid (seqIdx s₁ a)) a x dt hrel
      obtain ⟨hst, hpay, hrel2⟩ := hC
      have hkids2 : eqOnTs cs 0 a
          ((seqInit s₁ a).setKid (seqIdx s₁ a)
            (execChildAt cs (seqIdx s₁ a) ((seqInit s₁ a).kid (seqIdx s₁ a)) a x dt).2.1)
          ((seqInit s₂ a).setKid (seqIdx s₁ a)
            (execChildAt cs (seqIdx s₁ a) ((seqInit s₂ a).kid (seqIdx s₁ a)) a x dt).2.1) := by
        rw [eqOnTs_iff]
        intro n c₂ hc₂
        rw [kid_setKid, kid_setKid]
        by_cases hn : 0 + n = seqIdx s₁ a
        · rw [if_pos hn, if_pos hn]
          have hn2 : n = seqIdx s₁ a := by omega
          rw [hn2] at hc₂
          exact hrel2 c₂ hc₂
        · rw [if_neg hn, if_neg hn, seqInit_kid, seqInit_kid]
          exact (eqOnTs_iff cs 0 a s₁ s₂).mp hkids n c₂ hc₂
      rw [e₁, e₂, if_neg hlen, if_neg hlen, ← hst]
      rcases hr : (execChildAt cs (seqIdx s₁ a) ((seqInit s₁ a).kid (seqIdx s₁ a)) a x dt).1 with _ | _ | _
      · by_cases hlast : cs.length ≤ seqIdx s₁ a + 1
        · rw [if_pos hlast, if_pos hlast]
          refine ⟨rfl, hpay, by simp [aget_aset_self], ?_⟩
          exact eqOnTs_congr_kids cs 0 a hkids2 (fun n _ => rfl) (fun n _ => rfl)
        · rw [if_neg hlast, if_neg hlast]
          refine ⟨rfl, hpay, by simp [aget_aset_self], ?_⟩
          exact eqOnTs_congr_kids cs 0 a hkids2 (fun n _ => rfl) (fun n _ => rfl)
      · exact ⟨rfl, hpay, by simp [aget_aset_self], eqOnTs_congr_kids cs 0 a hkids2
          (fun n _ => rfl) (fun n _ => rfl)⟩
      · exact ⟨rfl, hpay, by simpa using hI, hkids2⟩
  | sel cs =>
    obtain ⟨hidx, hkids⟩ := h
    have hSI : seqIdx s₂ a = seqIdx s₁ a := by rw [seqIdx_eq, seqIdx_eq, hidx]
    have hI : aget (seqInit s₁ a).idxM a = aget (seqInit s₂ a).idxM a := by
      rw [aget_seqInit, aget_seqInit, hidx]
    have e₁ : exec (.sel cs) s₁ a x dt =
        (if cs.length ≤ seqIdx s₁ a then (Status.failure, seqInit s₁ a, x)
         else
          match (execChildAt cs (seqIdx s₁ a) ((seqInit s₁ a).kid (seqIdx s₁ a)) a x dt).1 with
          | .running =>
            (.running,
              (seqInit s₁ a).setKid (seqIdx s₁ a)
                (execChildAt cs (seqIdx s₁ a) ((seqInit s₁ a).kid (seqIdx s₁ a)) a x dt).2.1,
              (execChildAt cs (seqIdx s₁ a) ((seqInit s₁ a).kid (seqIdx s₁ a)) a x dt).2.2)
          | .success =>
            (.success,
              ((seqInit s₁ a).setKid (seqIdx s₁ a)
                (execChildAt cs (seqIdx s₁ a) ((seqInit s₁ a).kid (seqIdx s₁ a)) a x dt).2.1).setIdx a 0,
              (execChildAt cs (seqIdx s₁ a) ((seqInit s₁ a).kid (seqIdx s₁ a)) a x dt).2.2)
          | .failure =>
            if cs.length ≤ seqIdx s₁ a + 1 then
              (.failure,
                (((seqInit s₁ a).setKid (seqIdx s₁ a)
                  (execChildAt cs (seqIdx s₁ a) ((seqInit s₁ a).kid (seqIdx s₁ a)) a x dt).2.1).setIdx a
                    (seqIdx s₁ a + 1)).setIdx a 0,
                (execChildAt cs (seqIdx s₁ a) ((seqInit s₁ a).kid (seqIdx s₁ a)) a x dt).2.2)
            else
              (.running,
                ((seqInit s₁ a).setKid (seqIdx s₁ a)
                  (execChildAt cs (seqIdx s₁ a) ((seqInit s₁ a).kid (seqIdx s₁ a)) a x dt).2.1).setIdx a
                    (seqIdx s₁ a + 1),
                (execChildAt cs (seqIdx s₁ a) ((seqInit s₁ a).kid (seqIdx s₁ a)) a x dt).2.2)) := rfl
    have e₂ : exec (.sel cs) s₂ a x dt =
        (if cs.length ≤ seqIdx s₁ a then (Status.failure, seqInit s₂ a, x)
         else
          match (execChildAt cs (seqIdx s₁ a) ((seqInit s₂ a).kid (seqIdx s₁ a)) a x dt).1 with
          | .running =>
            (.running,
              (seqInit s₂ a).setKid (seqIdx s₁ a)
                (execChildAt cs (seqIdx s₁ a) ((seqInit s₂ a).kid (seqIdx s₁ a)) a x dt).2.1,
              (execChildAt cs (seqIdx s₁ a) ((seqInit s₂ a).kid (seqIdx s₁ a)) a x dt).2.2)
          | .success =>
            (.success,
              ((seqInit s₂ a).setKid (seqIdx s₁ a)
                (execChildAt cs (seqIdx s₁ a) ((seqInit s₂ a).kid (seqIdx s₁ a)) a x dt).2.1).setIdx a 0,
              (execChildAt cs (seqIdx s₁ a) ((seqInit s₂ a).kid (seqIdx s₁ a)) a x dt).2.2)
          | .failure =>
            if cs.length ≤ seqIdx s₁ a + 1 then
              (.failure,
                (((seqInit s₂ a).setKid (seqIdx s₁ a)
                  (execChildAt cs (seqIdx s₁ a) ((seqInit s₂ a).kid (seqIdx s₁ a)) a x dt).2.1).setIdx a
                    (seqIdx s₁ a + 1)).setIdx a 0,
                (execChildAt cs (seqIdx s₁ a) ((seqInit s₂ a).kid (seqIdx s₁ a)) a x dt).2.2)
            else
              (.running,
                ((seqInit s₂ a).setKid (seqIdx s₁ a)
                  (execChildAt cs (seqIdx s₁ a) ((seqInit s₂ a).kid (seqIdx s₁ a)) a x dt).2.1).setIdx a
                    (seqIdx s₁ a + 1),
                (execChildAt cs (seqIdx s₁ a) ((seqInit s₂ a).kid (seqIdx s₁ a)) a x dt).2.2)) := by
      rw [← hSI]
      rfl
    by_cases hlen : cs.length ≤ seqIdx s₁ a
    · rw [e₁, e₂, if_pos hlen, if_pos hlen]
      refine ⟨rfl, rfl, hI, ?_⟩
      exact eqOnTs_congr_kids cs 0 a hkids (fun n _ => seqInit_kid s₁ a n)
        (fun n _ => seqInit_kid s₂ a n)
    · have hrel : ∀ cb, cs.get (seqIdx s₁ a) = some cb →
          eqOnT cb a ((seqInit s₁ a).kid (seqIdx s₁ a)) ((seqInit s₂ a).kid (seqIdx s₁ a)) := by
        intro cb hcb
        rw [seqInit_kid, seqInit_kid]
        have := (eqOnTs_iff cs 0 a s₁ s₂).mp hkids (seqIdx s₁ a) cb hcb
        simpa using this
      have hC := execChildAtCongr cs (seqIdx s₁ a) ((seqInit s₁ a).kid (seqIdx s₁ a))
        ((seqInit s₂ a).kid (seqIdx s₁ a)) a x dt hrel
      obtain ⟨hst, hpay, hrel2⟩ := hC
      have hkids2 : eqOnTs cs 0 a
          ((seqInit s₁ a).setKid (seqIdx s₁ a)
            (execChildAt cs (seqIdx s₁ a) ((seqInit s₁ a).kid (seqIdx s₁ a)) a x dt).2.1)
          ((seqInit s₂ a).setKid (seqIdx s₁ a)
            (execChildAt cs (seqIdx s₁ a) ((seqInit s₂ a).kid (seqIdx s₁ a)) a x dt).2.1) := by
        rw [eqOnTs_iff]
        intro n c₂ hc₂
        rw [kid_setKid, kid_setKid]
        by_cases hn : 0 + n = seqIdx s₁ a
        · rw [if_pos hn, if_pos hn]
          have hn2 : n = seqIdx s₁ a := by omega
          rw [hn2] at hc₂
          exact hrel2 c₂ hc₂
        · rw [if_neg hn, if_neg hn, seqInit_kid, seqInit_kid]
          exact (eqOnTs_iff cs 0 a s₁ s₂).mp hkids n c₂ hc₂
      rw [e₁, e₂, if_neg hlen, if_neg hlen, ← hst]
      rcases hr : (execChildAt cs (seqIdx s₁ a) ((seqInit s₁ a).kid (seqIdx s₁ a)) a x dt).1 with _ | _ | _
      · exact ⟨rfl, hpay, by simp [aget_aset_self], eqOnTs_congr_kids cs 0 a hkids2
          (fun n _ => rfl) (fun n _ => rfl)⟩
      · by_cases hlast : cs.length ≤ seqIdx s₁ a + 1
        · rw [if_pos hlast, if_pos hlast]
          exact ⟨rfl, hpay, by simp [aget_aset_self], eqOnTs_congr_kids cs 0 a hkids2
            (fun n _ => rfl) (fun n _ => rfl)⟩
        · rw [if_neg hlast, if_neg hlast]
          exact ⟨rfl, hpay, by simp [aget_aset_self], eqOnTs_congr_kids cs 0 a hkids2
            (fun n _ => rfl) (fun n _ => rfl)⟩
      · exact ⟨rfl, hpay, by simpa using hI, hkids2⟩
  | par cs req =>
    obtain ⟨hstats, hkids⟩ := h
    have hP : parStats s₁ a cs.length = parStats s₂ a cs.length := by
      unfold parStats
      rw [aget_parInit, aget_parInit, hstats]
    have hkidsI : eqOnTs cs 0 a (parInit s₁ a cs.length) (parInit s₂ a cs.length) :=
      eqOnTs_congr_kids cs 0 a hkids (fun n _ => parInit_kid s₁ a cs.length n)
        (fun n _ => parInit_kid s₂ a cs.length n)
    have hPC := execParCongr cs 0 (parStats s₁ a cs.length) (parInit s₁ a cs.length)
      (parInit s₂ a cs.length) a x dt hkidsI
    obtain ⟨hsts, hpay, hrel⟩ := hPC
    have e₁ : exec (.par cs req) s₁ a x dt =
        (if req ≤ (countSucc (execPar cs 0 (parStats s₁ a cs.length) (parInit s₁ a cs.length) a x dt).1
            cs.length : Int) then
          (.success,
            ((execPar cs 0 (parStats s₁ a cs.length) (parInit s₁ a cs.length) a x dt).2.1.setStats a
              (execPar cs 0 (parStats s₁ a cs.length) (parInit s₁ a cs.length) a x dt).1).eraseStats a,
            (execPar cs 0 (parStats s₁ a cs.length) (parInit s₁ a cs.length) a x dt).2.2)
         else if (cs.length : Int) - req <
            (countFail (execPar cs 0 (parStats s₁ a cs.length) (parInit s₁ a cs.length) a x dt).1
              cs.length : Int) then
          (.failure,
            ((execPar cs 0 (parStats s₁ a cs.length) (parInit s₁ a cs.length) a x dt).2.1.setStats a
              (execPar cs 0 (parStats s₁ a cs.length) (parInit s₁ a cs.length) a x dt).1).eraseStats a,
            (execPar cs 0 (parStats s₁ a cs.length) (parInit s₁ a cs.length) a x dt).2.2)
         else
          (.running,
            (execPar cs 0 (parStats s₁ a cs.length) (parInit s₁ a cs.length) a x dt).2.1.setStats a
              (execPar cs 0 (parStats s₁ a cs.length) (parInit s₁ a cs.length) a x dt).1,
            (execPar cs 0 (parStats s₁ a cs.length) (parInit s₁ a cs.length) a x dt).2.2)) := rfl
    have e₂ : exec (.par cs req) s₂ a x dt =
        (if req ≤ (countSucc (execPar cs 0 (parStats s₂ a cs.length) (parInit s₂ a cs.length) a x dt).1
            cs.length : Int) then
          (.success,
            ((execPar cs 0 (parStats s₂ a cs.length) (parInit s₂ a cs.length) a x dt).2.1.setStats a
              (execPar cs 0 (parStats s₂ a cs.length) (parInit s₂ a cs.length) a x dt).1).eraseStats a,
            (execPar cs 0 (parStats s₂ a cs.length) (parInit s₂ a cs.length) a x dt).2.2)
         else if (cs.length : Int) - req <
            (countFail (execPar cs 0 (parStats s₂ a cs.length) (parInit s₂ a cs.length) a x dt).1
              cs.length : Int) then
          (.failure,
            ((execPar cs 0 (parStats s₂ a cs.length) (parInit s₂ a cs.length) a x dt).2.1.setStats a
              (execPar cs 0 (parStats s₂ a cs.length) (parInit s₂ a cs.length) a x dt).1).eraseStats a,
            (execPar cs 0 (parStats s₂ a cs.length) (parInit s₂ a cs.length) a x dt).2.2)
         else
          (.running,
            (execPar cs 0 (parStats s₂ a cs.length) (parInit s₂ a cs.length) a x dt).2.1.setStats a
              (execPar cs 0 (parStats s₂ a cs.length) (parInit s₂ a cs.length) a x dt).1,
            (execPar cs 0 (parStats s₂ a cs.length) (parInit s₂ a cs.length) a x dt).2.2)) := rfl
    rw [e₁, e₂, ← hP, ← hsts]
    have hrel2 : eqOnTs cs 0 a
        ((execPar cs 0 (parStats s₁ a cs.length) (parInit s₁ a cs.length) a x dt).2.1.setStats a
          (execPar cs 0 (parStats s₁ a cs.length) (parInit s₁ a cs.length) a x dt).1)
        ((execPar cs 0 (parStats s₁ a cs.length) (parInit s₂ a cs.length) a x dt).2.1.setStats a
          (execPar cs 0 (parStats s₁ a cs.length) (parInit s₁ a cs.length) a x dt).1) :=
      eqOnTs_congr_kids cs 0 a hrel (fun n _ => rfl) (fun n _ => rfl)
    split_ifs with h1 h2
    · exact ⟨rfl, hpay, by simp [StT.eraseStats, StT.statsM, aget_aerase_self],
        eqOnTs_congr_kids cs 0 a hrel2 (fun n _ => rfl) (fun n _ => rfl)⟩
    · exact ⟨rfl, hpay, by simp [StT.eraseStats, StT.statsM, aget_aerase_self],
        eqOnTs_congr_kids cs 0 a hrel2 (fun n _ => rfl) (fun n _ => rfl)⟩
    · exact ⟨rfl, hpay, by simp [aget_aset_self], hrel2⟩
  | inv c =>
    obtain ⟨hst, hpay, hrel⟩ := execCongr c (s₁.kid 0) (s₂.kid 0) a x dt h
    have e₁ : exec (.inv c) s₁ a x dt =
        (match (exec c (s₁.kid 0) a x dt).1 with
         | .running => (.running, s₁.setKid 0 (exec c (s₁.kid 0) a x dt).2.1,
             (exec c (s₁.kid 0) a x dt).2.2)
         | .success => (.failure, s₁.setKid 0 (exec c (s₁.kid 0) a x dt).2.1,
             (exec c (s₁.kid 0) a x dt).2.2)
         | .failure => (.success, s₁.setKid 0 (exec c (s₁.kid 0) a x dt).2.1,
             (exec c (s₁.kid 0) a x dt).2.2)) := rfl
    have e₂ : exec (.inv c) s₂ a x dt =
        (match (exec c (s₂.kid 0) a x dt).1 with
         | .running => (.running, s₂.setKid 0 (exec c (s₂.kid 0) a x dt).2.1,
             (exec c (s₂.kid 0) a x dt).2.2)
         | .success => (.failure, s₂.setKid 0 (exec c (s₂.kid 0) a x dt).2.1,
             (exec c (s₂.kid 0) a x dt).2.2)
         | .failure => (.success, s₂.setKid 0 (exec c (s₂.kid 0) a x dt).2.1,
             (exec c (s₂.kid 0) a x dt).2.2)) := rfl
    have hkid : eqOnT c a ((s₁.setKid 0 (exec c (s₁.kid 0) a x dt).2.1).kid 0)
        ((s₂.setKid 0 (exec c (s₂.kid 0) a x dt).2.1).kid 0) := by
      rw [kid_setKid, kid_setKid, if_pos rfl, if_pos rfl]
      exact hrel
    rw [e₁, e₂, ← hst]
    cases hr : (exec c (s₁.kid 0) a x dt).1
    · exact ⟨rfl, hpay, hkid⟩
    · exact ⟨rfl, hpay, hkid⟩
    · exact ⟨rfl, hpay, hkid⟩
  | cond p => exact ⟨rfl, rfl, trivial⟩
  | act fn en ex =>
    have hrun : aget s₁.runM a = aget s₂.runM a := h
    have e₁ : exec (.act fn en ex) s₁ a x dt =
        (match (fn a (if (aget s₁.runM a).getD false then x else optApp en a x) dt).1 with
         | .running => (.running, s₁.setRun a true,
             (fn a (if (aget s₁.runM a).getD false then x else optApp en a x) dt).2)
         | .success => (.success, (s₁.setRun a true).setRun a false,
             optApp ex a (fn a (if (aget s₁.runM a).getD false then x else optApp en a x) dt).2)
         | .failure => (.failure, (s₁.setRun a true).setRun a false,
             optApp ex a (fn a (if (aget s₁.runM a).getD false then x else optApp en a x) dt).2)) := rfl
    have e₂ : exec (.act fn en ex) s₂ a x dt =
        (match (fn a (if (aget s₁.runM a).getD false then x else optApp en a x) dt).1 with
         | .running => (.running, s₂.setRun a true,
             (fn a (if (aget s₁.runM a).getD false then x else optApp en a x) dt).2)
         | .success => (.success, (s₂.setRun a true).setRun a false,
             optApp ex a (fn a (if (aget s₁.runM a).getD false then x else optApp en a x) dt).2)
         | .failure => (.failure, (s₂.setRun a true).setRun a false,
             optApp ex a (fn a (if (aget s₁.runM a).getD false then x else optApp en a x) dt).2)) := by
      rw [hrun]
      rfl
    rw [e₁, e₂]
    cases hr : (fn a (if (aget s₁.runM a).getD false then x else optApp en a x) dt).1
    · refine ⟨rfl, rfl, ?_⟩
      show aget (aset (aset s₁.runM a true) a false) a =
        aget (aset (aset s₂.runM a true) a false) a
      rw [aget_aset_self, aget_aset_self]
    · refine ⟨rfl, rfl, ?_⟩
      show aget (aset (aset s₁.runM a true) a false) a =
        aget (aset (aset s₂.runM a true) a false) a
      rw [aget_aset_self, aget_aset_self]
    · refine ⟨rfl, rfl, ?_⟩
      show aget (aset s₁.runM a true) a = aget (aset s₂.runM a true) a
      rw [aget_aset_self, aget_aset_self]
  | repeatUF c =>
    obtain ⟨hst, hpay, hrel⟩ := execCongr c (s₁.kid 0) (s₂.kid 0) a x dt h
    have e₁ : exec (.repeatUF c) s₁ a x dt =
        (match (exec c (s₁.kid 0) a x dt).1 with
         | .failure => (.failure, s₁.setKid 0 (exec c (s₁.kid 0) a x dt).2.1,
             (exec c (s₁.kid 0) a x dt).2.2)
         | .success => (.running,
             s₁.setKid 0 (rst c (exec c (s₁.kid 0) a x dt).2.1 a (exec c (s₁.kid 0) a x dt).2.2).1,
             (rst c (exec c (s₁.kid 0) a x dt).2.1 a (exec c (s₁.kid 0) a x dt).2.2).2)
         | .running => (.running, s₁.setKid 0 (exec c (s₁.kid 0) a x dt).2.1,
             (exec c (s₁.kid 0) a x dt).2.2)) := rfl
    have e₂ : exec (.repeatUF c) s₂ a x dt =
        (match (exec c (s₂.kid 0) a x dt).1 with
         | .failure => (.failure, s₂.setKid 0 (exec c (s₂.kid 0) a x dt).2.1,
             (exec c (s₂.kid 0) a x dt).2.2)
         | .success => (.running,
             s₂.setKid 0 (rst c (exec c (s₂.kid 0) a x dt).2.1 a (exec c (s₂.kid 0) a x dt).2.2).1,
             (rst c (exec c (s₂.kid 0) a x dt).2.1 a (exec c (s₂.kid 0) a x dt).2.2).2)
         | .running => (.running, s₂.setKid 0 (exec c (s₂.kid 0) a x dt).2.1,
             (exec c (s₂.kid 0) a x dt).2.2)) := rfl
    have hkid : eqOnT c a ((s₁.setKid 0 (exec c (s₁.kid 0) a x dt).2.1).kid 0)
        ((s₂.setKid 0 (exec c (s₂.kid 0) a x dt).2.1).kid 0) := by
      rw [kid_setKid, kid_setKid, if_pos rfl, if_pos rfl]
      exact hrel
    obtain ⟨hrpay, hrrel⟩ := rstCongr c (exec c (s₁.kid 0) a x dt).2.1
      (exec c (s₂.kid 0) a x dt).2.1 a (exec c (s₁.kid 0) a x dt).2.2 hrel
    have hswap : (rst c (exec c (s₂.kid 0) a x dt).2.1 a (exec c (s₁.kid 0) a x dt).2.2) =
        (rst c (exec c (s₂.kid 0) a x dt).2.1 a (exec c (s₂.kid 0) a x dt).2.2) := by
      rw [hpay]
    have hrpay2 : (rst c (exec c (s₁.kid 0) a x dt).2.1 a (exec c (s₁.kid 0) a x dt).2.2).2 =
        (rst c (exec c (s₂.kid 0) a x dt).2.1 a (exec c (s₂.kid 0) a x dt).2.2).2 := by
      rw [← hswap]
      exact hrpay
    have hrrel2 : eqOnT c a
        ((s₁.setKid 0 (rst c (exec c (s₁.kid 0) a x dt).2.1 a (exec c (s₁.kid 0) a x dt).2.2).1).kid 0)
        ((s₂.setKid 0 (rst c (exec c (s₂.kid 0) a x dt).2.1 a (exec c (s₂.kid 0) a x dt).2.2).1).kid 0) := by
      rw [kid_setKid, kid_setKid, if_pos rfl, if_pos rfl, ← hswap]
      exact hrrel
    rw [e₁, e₂, ← hst]
    cases hr : (exec c (s₁.kid 0) a x dt).1
    · exact ⟨rfl, hrpay2, hrrel2⟩
    · exact ⟨rfl, hpay, hkid⟩
    · exact ⟨rfl, hpay, hkid⟩
  | wait d =>
    have hel : aget s₁.elapM a = aget s₂.elapM a := h
    have hE : aget (waitInit s₁ a).elapM a = aget (waitInit s₂ a).elapM a := by
      rw [aget_waitInit, aget_waitInit, hel]
    have e₁ : exec (.wait d) s₁ a x dt =
        (if d ≤ (aget (waitInit s₁ a).elapM a).getD 0 + dt then
          (.success, ((waitInit s₁ a).setElap a
            ((aget (waitInit s₁ a).elapM a).getD 0 + dt)).eraseElap a, x)
         else
          (.running, (waitInit s₁ a).setElap a
            ((aget (waitInit s₁ a).elapM a).getD 0 + dt), x)) := rfl
    have e₂ : exec (.wait d) s₂ a x dt =
        (if d ≤ (aget (waitInit s₁ a).elapM a).getD 0 + dt then
          (.success, ((waitInit s₂ a).setElap a
            ((aget (waitInit s₁ a).elapM a).getD 0 + dt)).eraseElap a, x)
         else
          (.running, (waitInit s₂ a).setElap a
            ((aget (waitInit s₁ a).elapM a).getD 0 + dt), x)) := by
      rw [hE]
      rfl
    rw [e₁, e₂]
    split_ifs with h1
    · refine ⟨rfl, rfl, ?_⟩
      show aget (aerase (aset (waitInit s₁ a).elapM a ((aget (waitInit s₁ a).elapM a).getD 0 + dt)) a) a =
        aget (aerase (aset (waitInit s₂ a).elapM a ((aget (waitInit s₁ a).elapM a).getD 0 + dt)) a) a
      rw [aget_aerase_self, aget_aerase_self]
    · refine ⟨rfl, rfl, ?_⟩
      show aget (aset (waitInit s₁ a).elapM a ((aget (waitInit s₁ a).elapM a).getD 0 + dt)) a =
        aget (aset (waitInit s₂ a).elapM a ((aget (waitInit s₁ a).elapM a).getD 0 + dt)) a
      rw [aget_aset_self, aget_aset_self]

/-- Congruence for the single-child dispatch of `Sequence`/`Selector`. -/
theorem execChildAtCongr {K σ : Type} [LinearOrderedAddCommGroup K]
    (cs : BTs K σ) (n : Nat) (c₁ c₂ : StT K) (a : String) (x : σ) (dt : K)
    (h : ∀ cb, cs.get n = some cb → eqOnT cb a c₁ c₂) :
    (execChildAt cs n c₁ a x dt).1 = (execChildAt cs n c₂ a x dt).1 ∧
    (execChildAt cs n c₁ a x dt).2.2 = (execChildAt cs n c₂ a x dt).2.2 ∧
    (∀ cb, cs.get n = some cb →
      eqOnT cb a (execChildAt cs n c₁ a x dt).2.1 (execChildAt cs n c₂ a x dt).2.1) := by
  cases cs with
  | nil =>
    refine ⟨rfl, rfl, ?_⟩
    intro cb hcb
    cases hcb
  | cons c t =>
    cases n with
    | zero =>
      obtain ⟨hst, hpay, hrel⟩ := execCongr c c₁ c₂ a x dt (h c rfl)
      refine ⟨hst, hpay, ?_⟩
      intro cb hcb
      have hcb2 : c = cb := Option.some.inj hcb
      rw [← hcb2]
      exact hrel
    | succ m =>
      exact execChildAtCongr t m c₁ c₂ a x dt (fun cb hcb => h cb hcb)

/-- Congruence for the child sweep of `Parallel`. -/
theorem execParCongr {K σ : Type} [LinearOrderedAddCommGroup K]
    (cs : BTs K σ) (i : Nat) (sts : List Status) (s₁ s₂ : StT K) (a : String) (x : σ) (dt : K)
    (h : eqOnTs cs i a s₁ s₂) :
    (execPar cs i sts s₁ a x dt).1 = (execPar cs i sts s₂ a x dt).1 ∧
    (execPar cs i sts s₁ a x dt).2.2 = (execPar cs i sts s₂ a x dt).2.2 ∧
    eqOnTs cs i a (execPar cs i sts s₁ a x dt).2.1 (execPar cs i sts s₂ a x dt).2.1 := by
  cases cs with
  | nil => exact ⟨rfl, rfl, trivial⟩
  | cons c t =>
    obtain ⟨hc, ht⟩ := h
    simp only [execPar]
    rcases hi : sts.get? i with _ | s
    · obtain ⟨h1, h2, h3⟩ := execParCongr t (i + 1) sts s₁ s₂ a x dt ht
      have hkid : eqOnT c a ((execPar t (i + 1) sts s₁ a x dt).2.1.kid i)
          ((execPar t (i + 1) sts s₂ a x dt).2.1.kid i) := by
        rw [execPar_kid_lt t (i + 1) sts s₁ a x dt i (Nat.lt_succ_self i),
          execPar_kid_lt t (i + 1) sts s₂ a x dt i (Nat.lt_succ_self i)]
        exact hc
      exact ⟨h1, h2, hkid, h3⟩
    · cases s
      · obtain ⟨h1, h2, h3⟩ := execParCongr t (i + 1) sts s₁ s₂ a x dt ht
        have hkid : eqOnT c a ((execPar t (i + 1) sts s₁ a x dt).2.1.kid i)
            ((execPar t (i + 1) sts s₂ a x dt).2.1.kid i) := by
          rw [execPar_kid_lt t (i + 1) sts s₁ a x dt i (Nat.lt_succ_self i),
            execPar_kid_lt t (i + 1) sts s₂ a x dt i (Nat.lt_succ_self i)]
          exact hc
        exact ⟨h1, h2, hkid, h3⟩
      · obtain ⟨h1, h2, h3⟩ := execParCongr t (i + 1) sts s₁ s₂ a x dt ht
        have hkid : eqOnT c a ((execPar t (i + 1) sts s₁ a x dt).2.1.kid i)
            ((execPar t (i + 1) sts s₂ a x dt).2.1.kid i) := by
          rw [execPar_kid_lt t (i + 1) sts s₁ a x dt i (Nat.lt_succ_self i),
            execPar_kid_lt t (i + 1) sts s₂ a x dt i (Nat.lt_succ_self i)]
          exact hc
        exact ⟨h1, h2, hkid, h3⟩
      · obtain ⟨hst, hpay, hrel⟩ := execCongr c (s₁.kid i) (s₂.kid i) a x dt hc
        have hts : eqOnTs t (i + 1) a (s₁.setKid i (exec c (s₁.kid i) a x dt).2.1)
            (s₂.setKid i (exec c (s₂.kid i) a x dt).2.1) := by
          refine eqOnTs_congr_kids t (i + 1) a ht ?_ ?_
          · intro m hm
            rw [kid_setKid, if_neg (by omega)]
          · intro m hm
            rw [kid_setKid, if_neg (by omega)]
        obtain ⟨h1, h2, h3⟩ := execParCongr t (i + 1) (sts.set i (exec c (s₁.kid i) a x dt).1)
          (s₁.setKid i (exec c (s₁.kid i) a x dt).2.1)
          (s₂.setKid i (exec c (s₂.kid i) a x dt).2.1) a (exec c (s₁.kid i) a x dt).2.2 dt hts
        have hkid : eqOnT c a
            ((execPar t (i + 1) (sts.set i (exec c (s₁.kid i) a x dt).1)
              (s₁.setKid i (exec c (s₁.kid i) a x dt).2.1) a (exec c (s₁.kid i) a x dt).2.2 dt).2.1.kid i)
            ((execPar t (i + 1) (sts.set i (exec c (s₁.kid i) a x dt).1)
              (s₂.setKid i (exec c (s₂.kid i) a x dt).2.1) a (exec c (s₁.kid i) a x dt).2.2 dt).2.1.kid i) := by
          rw [execPar_kid_lt _ _ _ _ _ _ _ i (Nat.lt_succ_self i),
            execPar_kid_lt _ _ _ _ _ _ _ i (Nat.lt_succ_self i),
            kid_setKid, kid_setKid, if_pos rfl, if_pos rfl]
          exact hrel
        rw [← hst, ← hpay]
        exact ⟨h1, h2, hkid, h3⟩

/-- Congruence for `reset`. -/
theorem rstCongr {K σ : Type} [LinearOrderedAddCommGroup K]
    (t : BT K σ) (s₁ s₂ : StT K) (a : String) (x : σ)
    (h : eqOnT t a s₁ s₂) :
    (rst t s₁ a x).2 = (rst t s₂ a x).2 ∧
    eqOnT t a (rst t s₁ a x).1 (rst t s₂ a x).1 := by
  cases t with
  | seq cs =>
    obtain ⟨hidx, hkids⟩ := h
    have hkids2 : eqOnTs cs 0 a (s₁.eraseIdx a) (s₂.eraseIdx a) :=
      eqOnTs_congr_kids cs 0 a hkids (fun n _ => rfl) (fun n _ => rfl)
    obtain ⟨h1, h2⟩ := rstListCongr cs 0 (s₁.eraseIdx a) (s₂.eraseIdx a) a x hkids2
    refine ⟨h1, ?_, h2⟩
    show aget (rstList cs 0 (s₁.eraseIdx a) a x).1.idxM a =
      aget (rstList cs 0 (s₂.eraseIdx a) a x).1.idxM a
    rw [(rstList_maps cs 0 (s₁.eraseIdx a) a x).1, (rstList_maps cs 0 (s₂.eraseIdx a) a x).1]
    show aget (aerase s₁.idxM a) a = aget (aerase s₂.idxM a) a
    rw [aget_aerase_self, aget_aerase_self]
  | sel cs =>
    obtain ⟨hidx, hkids⟩ := h
    have hkids2 : eqOnTs cs 0 a (s₁.eraseIdx a) (s₂.eraseIdx a) :=
      eqOnTs_congr_kids cs 0 a hkids (fun n _ => rfl) (fun n _ => rfl)
    obtain ⟨h1, h2⟩ := rstListCongr cs 0 (s₁.eraseIdx a) (s₂.eraseIdx a) a x hkids2
    refine ⟨h1, ?_, h2⟩
    show aget (rstList cs 0 (s₁.eraseIdx a) a x).1.idxM a =
      aget (rstList cs 0 (s₂.eraseIdx a) a x).1.idxM a
    rw [(rstList_maps cs 0 (s₁.eraseIdx a) a x).1, (rstList_maps cs 0 (s₂.eraseIdx a) a x).1]
    show aget (aerase s₁.idxM a) a = aget (aerase s₂.idxM a) a
    rw [aget_aerase_self, aget_aerase_self]
  | par cs req =>
    obtain ⟨hstats, hkids⟩ := h
    have hkids2 : eqOnTs cs 0 a (s₁.eraseStats a) (s₂.eraseStats a) :=
      eqOnTs_congr_kids cs 0 a hkids (fun n _ => rfl) (fun n _ => rfl)
    obtain ⟨h1, h2⟩ := rstListCongr cs 0 (s₁.eraseStats a) (s₂.eraseStats a) a x hkids2
    refine ⟨h1, ?_, h2⟩
    show aget (rstList cs 0 (s₁.eraseStats a) a x).1.statsM a =
      aget (rstList cs 0 (s₂.eraseStats a) a x).1.statsM a
    rw [(rstList_maps cs 0 (s₁.eraseStats a) a x).2.2.1,
      (rstList_maps cs 0 (s₂.eraseStats a) a x).2.2.1]
    show aget (aerase s₁.statsM a) a = aget (aerase s₂.statsM a) a
    rw [aget_aerase_self, aget_aerase_self]
  | inv c =>
    obtain ⟨h1, h2⟩ := rstCongr c (s₁.kid 0) (s₂.kid 0) a x h
    refine ⟨h1, ?_⟩
    show eqOnT c a ((s₁.setKid 0 (rst c (s₁.kid 0) a x).1).kid 0)
      ((s₂.setKid 0 (rst c (s₂.kid 0) a x).1).kid 0)
    rw [kid_setKid, kid_setKid, if_pos rfl, if_pos rfl]
    exact h2
  | cond p => exact ⟨rfl, trivial⟩
  | act fn en ex =>
    have hrun : aget s₁.runM a = aget s₂.runM a := h
    refine ⟨?_, ?_⟩
    · show (if (aget s₁.runM a).getD false then optApp ex a x else x) =
        (if (aget s₂.runM a).getD false then optApp ex a x else x)
      rw [hrun]
    · show aget (aerase s₁.runM a) a = aget (aerase s₂.runM a) a
      rw [aget_aerase_self, aget_aerase_self]
  | repeatUF c =>
    obtain ⟨h1, h2⟩ := rstCongr c (s₁.kid 0) (s₂.kid 0) a x h
    refine ⟨h1, ?_⟩
    show eqOnT c a ((s₁.setKid 0 (rst c (s₁.kid 0) a x).1).kid 0)
      ((s₂.setKid 0 (rst c (s₂.kid 0) a x).1).kid 0)
    rw [kid_setKid, kid_setKid, if_pos rfl, if_pos rfl]
    exact h2
  | wait d =>
    refine ⟨rfl, ?_⟩
    show aget (aerase s₁.elapM a) a = aget (aerase s₂.elapM a) a
    rw [aget_aerase_self, aget_aerase_self]

/-- Congruence for the recursive child resets. -/
theorem rstListCongr {K σ : Type} [LinearOrderedAddCommGroup K]
    (cs : BTs K σ) (i : Nat) (s₁ s₂ : StT K) (a : String) (x : σ)
    (h : eqOnTs cs i a s₁ s₂) :
    (rstList cs i s₁ a x).2 = (rstList cs i s₂ a x).2 ∧
    eqOnTs cs i a (rstList cs i s₁ a x).1 (rstList cs i s₂ a x).1 := by
  cases cs with
  | nil => exact ⟨rfl, trivial⟩
  | cons c t =>
    obtain ⟨hc, ht⟩ := h
    obtain ⟨h1, h2⟩ := rstCongr c (s₁.kid i) (s₂.kid i) a x hc
    have hts : eqOnTs t (i + 1) a (s₁.setKid i (rst c (s₁.kid i) a x).1)
        (s₂.setKid i (rst c (s₂.kid i) a x).1) := by
      refine eqOnTs_congr_kids t (i + 1) a ht ?_ ?_
      · intro m hm
        rw [kid_setKid, if_neg (by omega)]
      · intro m hm
        rw [kid_setKid, if_neg (by omega)]
    obtain ⟨h3, h4⟩ := rstListCongr t (i + 1) (s₁.setKid i (rst c (s₁.kid i) a x).1)
      (s₂.setKid i (rst c (s₂.kid i) a x).1) a (rst c (s₁.kid i) a x).2 hts
    have e₁ : rstList (.cons c t) i s₁ a x =
        rstList t (i + 1) (s₁.setKid i (rst c (s₁.kid i) a x).1) a (rst c (s₁.kid i) a x).2 := rfl
    have e₂ : rstList (.cons c t) i s₂ a x =
        rstList t (i + 1) (s₂.setKid i (rst c (s₂.kid i) a x).1) a (rst c (s₂.kid i) a x).2 := rfl
    rw [e₁, e₂, ← h1]
    have hkid : eqOnT c a
        ((rstList t (i + 1) (s₁.setKid i (rst c (s₁.kid i) a x).1) a (rst c (s₁.kid i) a x).2).1.kid i)
        ((rstList t (i + 1) (s₂.setKid i (rst c (s₂.kid i) a x).1) a (rst c (s₁.kid i) a x).2).1.kid i) := by
      rw [rstList_kid_lt _ _ _ _ _ i (Nat.lt_succ_self i),
        rstList_kid_lt _ _ _ _ _ i (Nat.lt_succ_self i),
        kid_setKid, kid_setKid, if_pos rfl, if_pos rfl]
      exact h2
    exact ⟨h3, hkid, h4⟩
end

mutual
/-- `reset(agent)` erases all state the tree keeps for that agent: afterwards
the agent's view of the tree state equals the fresh state. -/
theorem rstErases {K σ : Type} [LinearOrderedAddCommGroup K]
    (t : BT K σ) (st : StT K) (a : String) (x : σ) :
    eqOnT t a (rst t st a x).1 StT.empty := by
  cases t with
  | seq cs =>
    refine ⟨?_, rstListErases cs 0 (st.eraseIdx a) a x⟩
    show aget (rstList cs 0 (st.eraseIdx a) a x).1.idxM a = aget StT.empty.idxM a
    rw [(rstList_maps cs 0 (st.eraseIdx a) a x).1]
    show aget (aerase st.idxM a) a = none
    rw [aget_aerase_self]
  | sel cs =>
    refine ⟨?_, rstListErases cs 0 (st.eraseIdx a) a x⟩
    show aget (rstList cs 0 (st.eraseIdx a) a x).1.idxM a = aget StT.empty.idxM a
    rw [(rstList_maps cs 0 (st.eraseIdx a) a x).1]
    show aget (aerase st.idxM a) a = none
    rw [aget_aerase_self]
  | par cs req =>
    refine ⟨?_, rstListErases cs 0 (st.eraseStats a) a x⟩
    show aget (rstList cs 0 (st.eraseStats a) a x).1.statsM a = aget StT.empty.statsM a
    rw [(rstList_maps cs 0 (st.eraseStats a) a x).2.2.1]
    show aget (aerase st.statsM a) a = none
    rw [aget_aerase_self]
  | inv c =>
    show eqOnT c a ((st.setKid 0 (rst c (st.kid 0) a x).1).kid 0) (StT.empty.kid 0)
    rw [kid_setKid, if_pos rfl, kid_empty]
    exact rstErases c (st.kid 0) a x
  | cond p => trivial
  | act fn en ex =>
    show aget (aerase st.runM a) a = aget StT.empty.runM a
    rw [aget_aerase_self]
    rfl
  | repeatUF c =>
    show eqOnT c a ((st.setKid 0 (rst c (st.kid 0) a x).1).kid 0) (StT.empty.kid 0)
    rw [kid_setKid, if_pos rfl, kid_empty]
    exact rstErases c (st.kid 0) a x
  | wait d =>
    show aget (aerase st.elapM a) a = aget StT.empty.elapM a
    rw [aget_aerase_self]
    rfl

theorem rstListErases {K σ : Type} [LinearOrderedAddCommGroup K]
    (cs : BTs K σ) (i : Nat) (st : StT K) (a : String) (x : σ) :
    eqOnTs cs i a (rstList cs i st a x).1 StT.empty := by
  cases cs with
  | nil => trivial
  | cons c t =>
    refine ⟨?_, ?_⟩
    · show eqOnT c a ((rstList t (i + 1) (st.setKid i (rst c (st.kid i) a x).1) a
        (rst c (st.kid i) a x).2).1.kid i) (StT.empty.kid i)
      rw [rstList_kid_lt _ _ _ _ _ i (Nat.lt_succ_self i), kid_setKid, if_pos rfl, kid_empty]
      exact rstErases c (st.kid i) a x
    · exact rstListErases t (i + 1) (st.setKid i (rst c (st.kid i) a x).1) a
        (rst c (st.kid i) a x).2
end

mutual
/-- `reset(a)` does not change any node state keyed to a different agent. -/
theorem rstKeeps {K σ : Type} [LinearOrderedAddCommGroup K]
    (t : BT K σ) (st : StT K) (a b : String) (x : σ) (hab : b ≠ a) :
    eqOnT t b (rst t st a x).1 st := by
  cases t with
  | seq cs =>
    refine ⟨?_, ?_⟩
    · show aget (rstList cs 0 (st.eraseIdx a) a x).1.idxM b = aget st.idxM b
      rw [(rstList_maps cs 0 (st.eraseIdx a) a x).1]
      show aget (aerase st.idxM a) b = aget st.idxM b
      exact aget_aerase_ne st.idxM a b hab
    · exact eqOnTs_congr_kids cs 0 b (rstListKeeps cs 0 (st.eraseIdx a) a b x hab)
        (fun n _ => rfl) (fun n _ => rfl)
  | sel cs =>
    refine ⟨?_, ?_⟩
    · show aget (rstList cs 0 (st.eraseIdx a) a x).1.idxM b = aget st.idxM b
      rw [(rstList_maps cs 0 (st.eraseIdx a) a x).1]
      show aget (aerase st.idxM a) b = aget st.idxM b
      exact aget_aerase_ne st.idxM a b hab
    · exact eqOnTs_congr_kids cs 0 b (rstListKeeps cs 0 (st.eraseIdx a) a b x hab)
        (fun n _ => rfl) (fun n _ => rfl)
  | par cs req =>
    refine ⟨?_, ?_⟩
    · show aget (rstList cs 0 (st.eraseStats a) a x).1.statsM b = aget st.statsM b
      rw [(rstList_maps cs 0 (st.eraseStats a) a x).2.2.1]
      show aget (aerase st.statsM a) b = aget st.statsM b
      exact aget_aerase_ne st.statsM a b hab
    · exact eqOnTs_congr_kids cs 0 b (rstListKeeps cs 0 (st.eraseStats a) a b x hab)
        (fun n _ => rfl) (fun n _ => rfl)
  | inv c =>
    show eqOnT c b ((st.setKid 0 (rst c (st.kid 0) a x).1).kid 0) (st.kid 0)
    rw [kid_setKid, if_pos rfl]
    exact rstKeeps c (st.kid 0) a b x hab
  | cond p => trivial
  | act fn en ex =>
    show aget (aerase st.runM a) b = aget st.runM b
    exact aget_aerase_ne st.runM a b hab
  | repeatUF c =>
    show eqOnT c b ((st.setKid 0 (rst c (st.kid 0) a x).1).kid 0) (st.kid 0)
    rw [kid_setKid, if_pos rfl]
    exact rstKeeps c (st.kid 0) a b x hab
  | wait d =>
    show aget (aerase st.elapM a) b = aget st.elapM b
    exact aget_aerase_ne st.elapM a b hab

theorem rstListKeeps {K σ : Type} [LinearOrderedAddCommGroup K]
    (cs : BTs K σ) (i : Nat) (st : StT K) (a b : String) (x : σ) (hab : b ≠ a) :
    eqOnTs cs i b (rstList cs i st a x).1 st := by
  cases cs with
  | nil => trivial
  | cons c t =>
    refine ⟨?_, ?_⟩
    · show eqOnT c b ((rstList t (i + 1) (st.setKid i (rst c (st.kid i) a x).1) a
        (rst c (st.kid i) a x).2).1.kid i) (st.kid i)
      rw [rstList_kid_lt _ _ _ _ _ i (Nat.lt_succ_self i), kid_setKid, if_pos rfl]
      exact rstKeeps c (st.kid i) a b x hab
    · refine eqOnTs_congr_kids t (i + 1) b
        (rstListKeeps t (i + 1) (st.setKid i (rst c (st.kid i) a x).1) a b
          (rst c (st.kid i) a x).2 hab) (fun n _ => rfl) ?_
      intro n hn
      rw [kid_setKid, if_neg (by omega)]
end

/-- Claim C2: after `reset(a)` the agent has no residual node-keyed state
anywhere in the tree (child index, elapsed-wait timer, active flag, status
vector); the next `execute(a, dt)` returns the same status and has the same
payload and state effects as a first-ever execution for `a` (an execution
from the fresh state); and the reset changes no state keyed to any other
agent sharing the same tree instance. -/
theorem c2_reset_first_ever {K σ : Type} [LinearOrderedAddCommGroup K]
    (t : BT K σ) (st : StT K) (a : String) (x : σ) :
    eqOnT t a (rst t st a x).1 StT.empty ∧
    (∀ b, b ≠ a → eqOnT t b (rst t st a x).1 st) ∧
    (∀ (y : σ) (dt : K),
      (exec t (rst t st a x).1 a y dt).1 = (exec t StT.empty a y dt).1 ∧
      (exec t (rst t st a x).1 a y dt).2.2 = (exec t StT.empty a y dt).2.2 ∧
      eqOnT t a (exec t (rst t st a x).1 a y dt).2.1 (exec t StT.empty a y dt).2.1) :=
  ⟨rstErases t st a x,
   fun b hb => rstKeeps t st a b x hb,
   fun y dt => execCongr t (rst t st a x).1 StT.empty a y dt (rstErases t st a x)⟩

/-- Witness tree and state for C2: a two-second wait with partial elapsed time
recorded for agents a and b. -/
def stC2 : StT ℤ :=
  (StT.empty.setElap "a" 1).setElap "b" 1

/-- Witness for C2 at a concrete input: after resetting agent a on a Wait
node, agent b keeps its timer, and the next tick for a behaves like a first
tick (Running rather than completing from the stale timer). -/
theorem c2_reset_first_ever_witness :
    eqOnT (K := ℤ) (σ := Unit) (.wait 2) "b" (rst (K := ℤ) (σ := Unit) (.wait 2) stC2 "a" ()).1 stC2 ∧
    (exec (K := ℤ) (σ := Unit) (.wait 2) (rst (K := ℤ) (σ := Unit) (.wait 2) stC2 "a" ()).1
      "a" () 1).1 = (exec (K := ℤ) (σ := Unit) (.wait 2) .empty "a" () 1).1 := by
  have h := c2_reset_first_ever (K := ℤ) (σ := Unit) (.wait 2) stC2 "a" ()
  exact ⟨h.2.1 "b" (by decide), (h.2.2 () 1).1⟩

/-- 3D vector (`[number, number, number]` in the source). -/
structure Vec3 (K : Type) where
  x : K
  y : K
  z : K
deriving DecidableEq, Repr

/-- The external math functions the source calls on `Math`; passing them as a
record keeps the embedding computable and lets theorems instantiate
`Real.sqrt` and friends where the geometry matters. -/
structure ExtMath (K : Type) where
  sqrt : K → K
  atan2 : K → K → K
  cos : K → K
  sin : K → K
  pi : K

/-- The transform of the external game object: position and optional rotation. -/
structure TransformM (K : Type) where
  position : Vec3 K
  rotation : Option (Vec3 K)
deriving DecidableEq

/-- The non-owning game object reference (its transform may be absent). -/
structure GameObjectM (K : Type) where
  transform : Option (TransformM K)
deriving DecidableEq

/-- interface AgentConfig. -/
structure AgentConfigM (K : Type) where
  speed : K
  turnSpeed : K
  acceleration : K
  stoppingDistance : K
  obstacleAvoidanceRadius : K
  maxSlopeAngle : K
  targetTagToChase : Option String := none
  targetTagToFlee : Option String := none
  patrolPoints : Option (List (Vec3 K)) := none
  detectionRadius : Option K := none
  fieldOfView : Option K := none
  hearingRadius : Option K := none
deriving DecidableEq

/-- class Agent (the behavior tree reference is held by the orchestrator in
this embedding; `randSeq` is the pre-sampled stream standing in for the
outcomes of `Math.random`). -/
structure AgentM (K : Type) where
  id : String
  gameObject : GameObjectM K
  config : AgentConfigM K
  path : List (Vec3 K)
  currentPathIndex : Nat
  currentTarget : Option (Vec3 K)
  velocity : Vec3 K
  blackboard : List (String × K)
  randSeq : List K
deriving DecidableEq

def AgentM.setPath {K : Type} (ag : AgentM K) (p : List (Vec3 K)) : AgentM K :=
  { ag with path := p, currentPathIndex := 0 }

def AgentM.setTarget {K : Type} (ag : AgentM K) (t : Option (Vec3 K)) : AgentM K :=
  { ag with currentTarget := t }

def AgentM.setBlackboardValue {K : Type} (ag : AgentM K) (k : String) (v : K) : AgentM K :=
  { ag with blackboard := aset ag.blackboard k v }

def AgentM.getBlackboardValue {K : Type} (ag : AgentM K) (k : String) : Option K :=
  aget ag.blackboard k

def AgentM.hasBlackboardValue {K : Type} (ag : AgentM K) (k : String) : Bool :=
  (aget ag.blackboard k).isSome

def AgentM.clearBlackboardValue {K : Type} (ag : AgentM K) (k : String) : AgentM K :=
  { ag with blackboard := aerase ag.blackboard k }

/-- JS `Math.trunc` (round toward zero). -/
def jsTrunc {K : Type} [LinearOrderedField K] [FloorRing K] (y : K) : Int :=
  if y < 0 then -(Int.floor (-y)) else Int.floor y

/-- The JS `%` operator on numbers: remainder with the sign of the dividend. -/
def jsMod {K : Type} [LinearOrderedField K] [FloorRing K] (a n : K) : K :=
  a - n * (jsTrunc (a / n) : K)

/-- JS `Math.sign` (zero maps to zero). -/
def jsSign {K : Type} [LinearOrderedField K] (a : K) : K :=
  if 0 < a then 1 else if a < 0 then -1 else 0

/-- Agent.getAngleDifference: signed shortest angular difference in degrees. -/
def getAngleDifference {K : Type} [LinearOrderedField K] [FloorRing K] (a b : K) : K :=
  let d₁ := jsMod (b - a) 360
  let d₂ := if 180 < d₁ then d₁ - 360 else d₁
  if d₂ < -180 then d₂ + 360 else d₂

/-- Agent.moveTowards(target, deltaTime): returns the arrival flag and the
updated agent (velocity, position, yaw). -/
def moveTowards {K : Type} [LinearOrderedField K] [FloorRing K] (em : ExtMath K)
    (ag : AgentM K) (target : Vec3 K) (dt : K) : Bool × AgentM K :=
  match ag.gameObject.transform with
  | none => (false, ag)
  | some tr =>
    let dx := target.x - tr.position.x
    let dy := target.y - tr.position.y
    let dz := target.z - tr.position.z
    let distance := em.sqrt (dx * dx + dy * dy + dz * dz)
    if distance ≤ ag.config.stoppingDistance then
      (true, { ag with velocity := ⟨0, 0, 0⟩ })
    else
      let desired : Vec3 K := ⟨dx / distance * ag.config.speed,
        dy / distance * ag.config.speed, dz / distance * ag.config.speed⟩
      let v : Vec3 K :=
        ⟨ag.velocity.x + (desired.x - ag.velocity.x) * ag.config.acceleration * dt,
         ag.velocity.y + (desired.y - ag.velocity.y) * ag.config.acceleration * dt,
         ag.velocity.z + (desired.z - ag.velocity.z) * ag.config.acceleration * dt⟩
      let newPos : Vec3 K := ⟨tr.position.x + v.x * dt, tr.position.y + v.y * dt,
        tr.position.z + v.z * dt⟩
      let newRot : Option (Vec3 K) :=
        if 1 / 1000 < |v.x| ∨ 1 / 1000 < |v.z| then
          let targetRotY := em.atan2 v.x v.z * (180 / em.pi)
          let currentRotY := (tr.rotation.map Vec3.y).getD 0
          let angleDiff := getAngleDifference currentRotY targetRotY
          let maxTurn := ag.config.turnSpeed * dt
          let turnAmount := min |angleDiff| maxTurn * jsSign angleDiff
          some ⟨(tr.rotation.map Vec3.x).getD 0, currentRotY + turnAmount,
            (tr.rotation.map Vec3.z).getD 0⟩
        else tr.rotation
      (false, { ag with velocity := v, gameObject := ⟨some ⟨newPos, newRot⟩⟩ })

/-- Agent.followPath(deltaTime).  `none` models the TypeError the source would
raise when the cursor is out of range with a nonempty path and a live
transform (moveTowards would then read `undefined[0]`); with no transform,
moveTowards bails out before touching the waypoint, hence `some (false, ag)`. -/
def followPath {K : Type} [LinearOrderedField K] [FloorRing K] (em : ExtMath K)
    (ag : AgentM K) (dt : K) : Option (Bool × AgentM K) :=
  if ag.path.isEmpty then some (true, ag)
  else
    match ag.path.get? ag.currentPathIndex with
    | some wp =>
      let r := moveTowards em ag wp dt
      if r.1 then
        if ag.path.length ≤ r.2.currentPathIndex + 1 then
          some (true, { r.2 with path := [], currentPathIndex := 0 })
        else
          some (false, { r.2 with currentPathIndex := r.2.currentPathIndex + 1 })
      else some (false, r.2)
    | none =>
      match ag.gameObject.transform with
      | none => some (false, ag)
      | some _ => none

/-- Squared displacement `dx*dx + dy*dy + dz*dz` as computed by the source. -/
def sqDist {K : Type} [LinearOrderedCommRing K] (target pos : Vec3 K) : K :=
  (target.x - pos.x) * (target.x - pos.x) + (target.y - pos.y) * (target.y - pos.y) +
    (target.z - pos.z) * (target.z - pos.z)

/-- The desired velocity of `moveTowards`: unit direction times speed. -/
def mtDesired {K : Type} [LinearOrderedField K] (em : ExtMath K) (target pos : Vec3 K)
    (speed : K) : Vec3 K :=
  ⟨(target.x - pos.x) / em.sqrt (sqDist target pos) * speed,
   (target.y - pos.y) / em.sqrt (sqDist target pos) * speed,
   (target.z - pos.z) / em.sqrt (sqDist target pos) * speed⟩

/-- The first-order lag blend `velocity + (desired - velocity) * acceleration * dt`. -/
def mtBlend {K : Type} [LinearOrderedField K] (v desired : Vec3 K) (acc dt : K) : Vec3 K :=
  ⟨v.x + (desired.x - v.x) * acc * dt,
   v.y + (desired.y - v.y) * acc * dt,
   v.z + (desired.z - v.z) * acc * dt⟩

theorem blend_between {K : Type} [LinearOrderedField K] (v d acc dt : K)
    (h0 : 0 ≤ acc * dt) (h1 : acc * dt ≤ 1) :
    |v + (d - v) * acc * dt - d| ≤ |v - d| ∧ 0 ≤ (v + (d - v) * acc * dt - d) * (v - d) := by
  have he : v + (d - v) * acc * dt - d = (v - d) * (1 - acc * dt) := by ring
  constructor
  · rw [he, abs_mul, abs_of_nonneg (by linarith : (0 : K) ≤ 1 - acc * dt)]
    exact mul_le_of_le_one_right (abs_nonneg (v - d)) (by linarith)
  · rw [he, show (v - d) * (1 - acc * dt) * (v - d) = (v - d) * (v - d) * (1 - acc * dt) by ring]
    exact mul_nonneg (mul_self_nonneg (v - d)) (by linarith)

/-- Claim C7: `moveTowards` semantics.  With a live transform: if the distance
to the target is at most `stoppingDistance` the velocity is zeroed and arrival
is reported true in the same call; otherwise the velocity is blended toward
the desired velocity by `velocity += (desired - velocity) * acceleration * dt`
(so that for `0 ≤ acceleration * dt ≤ 1` each component moves toward and
never past the desired component), the position is integrated by
`velocity * dt`, and false is returned. -/
theorem c7_moveTowards_semantics {K : Type} [LinearOrderedField K] [FloorRing K]
    (em : ExtMath K) (ag : AgentM K) (target : Vec3 K) (dt : K) (tr : TransformM K)
    (htr : ag.gameObject.transform = some tr) :
    (em.sqrt (sqDist target tr.position) ≤ ag.config.stoppingDistance →
      moveTowards em ag target dt = (true, { ag with velocity := ⟨0, 0, 0⟩ })) ∧
    (¬ em.sqrt (sqDist target tr.position) ≤ ag.config.stoppingDistance →
      (moveTowards em ag target dt).1 = false ∧
      (moveTowards em ag target dt).2.velocity =
        mtBlend ag.velocity (mtDesired em target tr.position ag.config.speed)
          ag.config.acceleration dt ∧
      ((moveTowards em ag target dt).2.gameObject.transform.map TransformM.position) =
        some ⟨tr.position.x +
            (mtBlend ag.velocity (mtDesired em target tr.position ag.config.speed)
              ag.config.acceleration dt).x * dt,
          tr.position.y +
            (mtBlend ag.velocity (mtDesired em target tr.position ag.config.speed)
              ag.config.acceleration dt).y * dt,
          tr.position.z +
            (mtBlend ag.velocity (mtDesired em target tr.position ag.config.speed)
              ag.config.acceleration dt).z * dt⟩ ∧
      (0 ≤ ag.config.acceleration * dt → ag.config.acceleration * dt ≤ 1 →
        (|(moveTowards em ag target dt).2.velocity.x -
            (mtDesired em target tr.position ag.config.speed).x| ≤
          |ag.velocity.x - (mtDesired em target tr.position ag.config.speed).x| ∧
         0 ≤ ((moveTowards em ag target dt).2.velocity.x -
            (mtDesired em target tr.position ag.config.speed).x) *
          (ag.velocity.x - (mtDesired em target tr.position ag.config.speed).x)) ∧
        (|(moveTowards em ag target dt).2.velocity.y -
            (mtDesired em target tr.position ag.config.speed).y| ≤
          |ag.velocity.y - (mtDesired em target tr.position ag.config.speed).y| ∧
         0 ≤ ((moveTowards em ag target dt).2.velocity.y -
            (mtDesired em target tr.position ag.config.speed).y) *
          (ag.velocity.y - (mtDesired em target tr.position ag.config.speed).y)) ∧
        (|(moveTowards em ag target dt).2.velocity.z -
            (mtDesired em target tr.position ag.config.speed).z| ≤
          |ag.velocity.z - (mtDesired em target tr.position ag.config.speed).z| ∧
         0 ≤ ((moveTowards em ag target dt).2.velocity.z -
            (mtDesired em target tr.position ag.config.speed).z) *
          (ag.velocity.z - (mtDesired em target tr.position ag.config.speed).z)))) := by
  have e0 : moveTowards em ag target dt =
      (match ag.gameObject.transform with
       | none => (false, ag)
       | some tr₂ =>
         let dx := target.x - tr₂.position.x
         let dy := target.y - tr₂.position.y
         let dz := target.z - tr₂.position.z
         let distance := em.sqrt (dx * dx + dy * dy + dz * dz)
         if distance ≤ ag.config.stoppingDistance then
           (true, { ag with velocity := ⟨0, 0, 0⟩ })
         else
           let desired : Vec3 K := ⟨dx / distance * ag.config.speed,
             dy / distance * ag.config.speed, dz / distance * ag.config.speed⟩
           let v : Vec3 K :=
             ⟨ag.velocity.x + (desired.x - ag.velocity.x) * ag.config.acceleration * dt,
              ag.velocity.y + (desired.y - ag.velocity.y) * ag.config.acceleration * dt,
              ag.velocity.z + (desired.z - ag.velocity.z) * ag.config.acceleration * dt⟩
           let newPos : Vec3 K := ⟨tr₂.position.x + v.x * dt, tr₂.position.y + v.y * dt,
             tr₂.position.z + v.z * dt⟩
           let newRot : Option (Vec3 K) :=
             if 1 / 1000 < |v.x| ∨ 1 / 1000 < |v.z| then
               let targetRotY := em.atan2 v.x v.z * (180 / em.pi)
               let currentRotY := (tr₂.rotation.map Vec3.y).getD 0
               let angleDiff := getAngleDifference currentRotY targetRotY
               let maxTurn := ag.config.turnSpeed * dt
               let turnAmount := min |angleDiff| maxTurn * jsSign angleDiff
               some ⟨(tr₂.rotation.map Vec3.x).getD 0, currentRotY + turnAmount,
                 (tr₂.rotation.map Vec3.z).getD 0⟩
             else tr₂.rotation
           (false, { ag with velocity := v, gameObject := ⟨some ⟨newPos, newRot⟩⟩ })) := rfl
  rw [htr] at e0
  simp only at e0
  constructor
  · intro hnear
    rw [e0, if_pos (by exact hnear)]
  · intro hfar
    rw [e0, if_neg (by exact hfar)]
    refine ⟨rfl, rfl, rfl, ?_⟩
    · intro h0 h1
      refine ⟨?_, ?_, ?_⟩
      · exact blend_between ag.velocity.x (mtDesired em target tr.position ag.config.speed).x
          ag.config.acceleration dt h0 h1
      · exact blend_between ag.velocity.y (mtDesired em target tr.position ag.config.speed).y
          ag.config.acceleration dt h0 h1
      · exact blend_between ag.velocity.z (mtDesired em target tr.position ag.config.speed).z
          ag.config.acceleration dt h0 h1

/-- Witness math table: a square root defined on the inputs the witness hits. -/
def emW : ExtMath ℚ :=
  ⟨fun q => if q = 9 then 3 else 0, fun _ _ => 0, fun _ => 0, fun _ => 0, 3⟩

/-- Witness configuration for the locomotion claims. -/
def cfgC7 : AgentConfigM ℚ :=
  { speed := 2, turnSpeed := 90, acceleration := 1, stoppingDistance := 1,
    obstacleAvoidanceRadius := 0, maxSlopeAngle := 0 }

/-- Witness agent at the origin with zero velocity. -/
def agC7 : AgentM ℚ :=
  { id := "a", gameObject := ⟨some ⟨⟨0, 0, 0⟩, none⟩⟩, config := cfgC7, path := [],
    currentPathIndex := 0, currentTarget := none, velocity := ⟨0, 0, 0⟩,
    blackboard := [], randSeq := [] }

/-- Witness for C7 at a concrete input: target at distance 3 with stopping
distance 1, so the call does not arrive and the x velocity moves toward the
desired velocity. -/
theorem c7_moveTowards_semantics_witness :
    (moveTowards emW agC7 ⟨3, 0, 0⟩ (1/2)).1 = false ∧
    |(moveTowards emW agC7 ⟨3, 0, 0⟩ (1/2)).2.velocity.x -
        (mtDesired emW ⟨3, 0, 0⟩ (⟨0, 0, 0⟩ : Vec3 ℚ) agC7.config.speed).x| ≤
      |agC7.velocity.x - (mtDesired emW ⟨3, 0, 0⟩ (⟨0, 0, 0⟩ : Vec3 ℚ) agC7.config.speed).x| := by
  have h := (c7_moveTowards_semantics emW agC7 ⟨3, 0, 0⟩ (1/2) ⟨⟨0, 0, 0⟩, none⟩ rfl).2
    (by norm_num [sqDist, emW, agC7, cfgC7])
  exact ⟨h.1, ((h.2.2.2 (by norm_num [agC7, cfgC7]) (by norm_num [agC7, cfgC7])).1).1⟩

/-- Claim C8: `followPath` semantics.  An empty path reports completion
immediately; otherwise the waypoint at the cursor is handed to `moveTowards`;
on arrival the cursor advances, and when the advanced cursor reaches the path
length (in particular when exactly one waypoint remained) the path is
cleared, the cursor reset to 0, and completion reported true in the same
call; in every other case the call reports false. -/
theorem c8_followPath_semantics {K : Type} [LinearOrderedField K] [FloorRing K]
    (em : ExtMath K) (ag : AgentM K) (dt : K) :
    (ag.path = [] → followPath em ag dt = some (true, ag)) ∧
    (∀ wp, ag.path.get? ag.currentPathIndex = some wp →
      ((moveTowards em ag wp dt).1 = true →
        (ag.path.length ≤ (moveTowards em ag wp dt).2.currentPathIndex + 1 →
          followPath em ag dt = some (true,
            { (moveTowards em ag wp dt).2 with path := [], currentPathIndex := 0 })) ∧
        ((moveTowards em ag wp dt).2.currentPathIndex + 1 < ag.path.length →
          followPath em ag dt = some (false,
            { (moveTowards em ag wp dt).2 with
              currentPathIndex := (moveTowards em ag wp dt).2.currentPathIndex + 1 }))) ∧
      ((moveTowards em ag wp dt).1 = false →
        followPath em ag dt = some (false, (moveTowards em ag wp dt).2))) := by
  constructor
  · intro hp
    simp [followPath, hp]
  · intro wp hget
    have hne : ag.path.isEmpty = false := by
      cases hp : ag.path with
      | nil =>
        rw [hp] at hget
        cases hget
      | cons h t => rfl
    have e : followPath em ag dt =
        (if (moveTowards em ag wp dt).1 then
          if ag.path.length ≤ (moveTowards em ag wp dt).2.currentPathIndex + 1 then
            some (true, { (moveTowards em ag wp dt).2 with path := [], currentPathIndex := 0 })
          else
            some (false, { (moveTowards em ag wp dt).2 with
              currentPathIndex := (moveTowards em ag wp dt).2.currentPathIndex + 1 })
         else some (false, (moveTowards em ag wp dt).2)) := by
      unfold followPath
      rw [hne, hget]
      rfl
    refine ⟨?_, ?_⟩
    · intro harr
      rw [harr] at e
      constructor
      · intro hlen
        rw [e, if_pos rfl, if_pos hlen]
      · intro hlen
        rw [e, if_pos rfl, if_neg (not_le.mpr hlen)]
    · intro harr
      rw [harr] at e
      rw [e]
      rfl

/-- Witness configuration with a large stopping distance so one call arrives. -/
def cfgC8 : AgentConfigM ℚ :=
  { cfgC7 with stoppingDistance := 5 }

/-- Witness agent with exactly one remaining waypoint. -/
def agC8 : AgentM ℚ :=
  { agC7 with config := cfgC8, path := [⟨3, 0, 0⟩] }

/-- Witness for C8 at a concrete input: one remaining waypoint within stopping
distance, so the same call clears the path, resets the cursor and reports
completion. -/
theorem c8_followPath_semantics_witness :
    agC8.path.get? agC8.currentPathIndex = some ⟨3, 0, 0⟩ ∧
    followPath emW agC8 1 = some (true,
      { (moveTowards emW agC8 ⟨3, 0, 0⟩ 1).2 with path := [], currentPathIndex := 0 }) := by
  have hmv : moveTowards emW agC8 ⟨3, 0, 0⟩ 1 = (true, { agC8 with velocity := ⟨0, 0, 0⟩ }) := by
    norm_num [moveTowards, emW, agC8, agC7, cfgC8, cfgC7]
  have hmv1 : (moveTowards emW agC8 ⟨3, 0, 0⟩ 1).1 = true := by rw [hmv]
  have hlen : agC8.path.length ≤ (moveTowards emW agC8 ⟨3, 0, 0⟩ 1).2.currentPathIndex + 1 := by
    rw [hmv]
    norm_num [agC8, agC7]
  exact ⟨rfl, (((c8_followPath_semantics emW agC8 1).2 ⟨3, 0, 0⟩ rfl).1 hmv1).1 hlen⟩

/-- class NavMeshNode: id, position, outgoing adjacency (`Map` nodeId to cost). -/
structure NavMeshNode (K : Type) where
  id : Nat
  position : Vec3 K
  connections : List (Nat × K)
deriving DecidableEq, Repr

def NavMeshNode.addConnection {K : Type} (n : NavMeshNode K) (nodeId : Nat) (cost : K) :
    NavMeshNode K :=
  { n with connections := aset n.connections nodeId cost }

/-- class NavMesh: vertex list, triangle indices and the node map. -/
structure NavMesh (K : Type) where
  vertices : List (Vec3 K)
  indices : List (List Nat)
  nodes : List (Nat × NavMeshNode K)
deriving DecidableEq

def NavMesh.addNode {K : Type} (m : NavMesh K) (i : Nat) (pos : Vec3 K) : NavMesh K :=
  { m with nodes := aset m.nodes i ⟨i, pos, []⟩, vertices := m.vertices ++ [pos] }

/-- NavMesh.connectNodes: connect two registered nodes at Euclidean cost; on a
missing endpoint it logs an error (the returned flag) and leaves the mesh
unchanged.  The second update reads the mesh again so that the JS aliasing of
`fromNode`/`toNode` on a self loop is reproduced. -/
def NavMesh.connectNodes {K : Type} [LinearOrderedCommRing K] (em : ExtMath K)
    (m : NavMesh K) (fromId toId : Nat) (bidirectional : Bool := true) : NavMesh K × Bool :=
  match aget m.nodes fromId, aget m.nodes toId with
  | some fromNode, some toNode =>
    let cost := em.sqrt (sqDist toNode.position fromNode.position)
    let m₂ := { m with nodes := aset m.nodes fromId (fromNode.addConnection toId cost) }
    if bidirectional then
      match aget m₂.nodes toId with
      | some toNode₂ =>
        ({ m₂ with nodes := aset m₂.nodes toId (toNode₂.addConnection fromId cost) }, false)
      | none => (m₂, false)
    else (m₂, false)
  | _, _ => (m, true)

/-- NavMesh.heuristic(a, b): Euclidean distance (the source computes `b - a`). -/
def NavMesh.heuristic {K : Type} [LinearOrderedCommRing K] (em : ExtMath K)
    (a b : Vec3 K) : K :=
  em.sqrt (sqDist b a)

/-- Linear scan of getClosestNode: keeps the first strictly closer node. -/
def NavMesh.getClosestNode {K : Type} [LinearOrderedCommRing K] (em : ExtMath K)
    (m : NavMesh K) (position : Vec3 K) : Option (NavMeshNode K) :=
  (m.nodes.foldl (fun acc e =>
    let d := em.sqrt (sqDist e.2.position position)
    match acc with
    | none => some (e.2, d)
    | some (_, bd) => if d < bd then some (e.2, d) else acc) none).map Prod.fst

/-- NavMesh.getClosestPoint: nearest node position, origin on an empty mesh. -/
def NavMesh.getClosestPoint {K : Type} [LinearOrderedCommRing K] (em : ExtMath K)
    (m : NavMesh K) (position : Vec3 K) : Vec3 K :=
  match NavMesh.getClosestNode em m position with
  | some n => n.position
  | none => ⟨0, 0, 0⟩

/-- NavMesh.getRandomPoint, with the `Math.random` draw passed in as `r`
(`Math.floor(random * length)` picks the index). -/
def NavMesh.getRandomPoint {K : Type} [LinearOrderedField K] [FloorRing K] (m : NavMesh K)
    (r : K) : Vec3 K :=
  if m.nodes.length = 0 then ⟨0, 0, 0⟩
  else
    match aget m.nodes (((m.nodes.map Prod.fst).get? (jsTrunc (r * m.nodes.length)).toNat).getD 0) with
    | some n => n.position
    | none => ⟨0, 0, 0⟩

/-- The default node standing in for the non-null assertion
`this.nodes.get(id)!` (never reached on well-formed meshes). -/
def defaultNode {K : Type} [LinearOrderedCommRing K] : NavMeshNode K :=
  ⟨0, ⟨0, 0, 0⟩, []⟩

def posOf {K : Type} [LinearOrderedCommRing K] (m : NavMesh K) (nid : Nat) : Vec3 K :=
  ((aget m.nodes nid).getD defaultNode).position

/-- The comparison `score < (map.get(x) ?? Infinity)` with absence as infinity. -/
def optLT {K : Type} [LinearOrderedCommRing K] : Option K → Option K → Bool
  | some a, some b => decide (a < b)
  | some _, none => true
  | none, _ => false

/-- The linear minimum scan over the open set (first minimum wins). -/
def scanMin {K : Type} [LinearOrderedCommRing K] (fScore : List (Nat × K)) :
    List Nat → Nat → Option K → Nat
  | [], cur, _ => cur
  | nid :: t, cur, lowest =>
    if optLT (aget fScore nid) lowest then scanMin fScore t nid (aget fScore nid)
    else scanMin fScore t cur lowest

/-- The A* search state: open set and the cameFrom/gScore/fScore maps. -/
structure AState (K : Type) where
  openSet : List Nat
  cameFrom : List (Nat × Nat)
  gScore : List (Nat × K)
  fScore : List (Nat × K)
deriving DecidableEq

/-- One pass of `currentNode.connections.forEach(...)`: relax each outgoing
edge of `current`, recording predecessor and improved scores and pushing
newly discovered neighbors. -/
def relaxAll {K : Type} [LinearOrderedCommRing K] (em : ExtMath K) (m : NavMesh K)
    (endPos : Vec3 K) (current : Nat) : List (Nat × K) → AState K → AState K
  | [], st => st
  | (neighborId, cost) :: t, st =>
    match aget st.gScore current with
    | none => relaxAll em m endPos current t st
    | some gc =>
      if optLT (some (gc + cost)) (aget st.gScore neighborId) then
        relaxAll em m endPos current t
          { openSet := if st.openSet.contains neighborId then st.openSet
              else st.openSet ++ [neighborId],
            cameFrom := aset st.cameFrom neighborId current,
            gScore := aset st.gScore neighborId (gc + cost),
            fScore := aset st.fScore neighborId
              (gc + cost + NavMesh.heuristic em (posOf m neighborId) endPos) }
      else relaxAll em m endPos current t st

/-- NavMesh.reconstructPath: walk predecessor links back to the start (the
fuel bounds the walk; on well-formed searches the chain is acyclic and
shorter than the fuel). -/
def reconstructPath {K : Type} [LinearOrderedCommRing K] (m : NavMesh K)
    (cameFrom : List (Nat × Nat)) : Nat → Nat → List (Vec3 K)
  | 0, cur => [posOf m cur]
  | fuel + 1, cur =>
    match aget cameFrom cur with
    | none => [posOf m cur]
    | some prev => reconstructPath m cameFrom fuel prev ++ [posOf m cur]

/-- The `while (openSet.length > 0)` loop of `findPath` with explicit fuel
(one unit per iteration; `nodes.length + 1` suffices on meshes whose costs
make the Euclidean heuristic consistent, as proved below). -/
def astarLoop {K : Type} [LinearOrderedCommRing K] (em : ExtMath K) (m : NavMesh K)
    (endNode : NavMeshNode K) : Nat → AState K → List (Vec3 K)
  | 0, _ => []
  | fuel + 1, st =>
    match st.openSet with
    | [] => []
    | o₀ :: rest =>
      let current := scanMin st.fScore rest o₀ (aget st.fScore o₀)
      if current = endNode.id then
        reconstructPath m st.cameFrom (st.cameFrom.length + 1) current
      else
        let st₂ := { st with openSet := st.openSet.erase current }
        let st₃ := relaxAll em m endNode.position current
          ((aget m.nodes current).getD defaultNode).connections st₂
        astarLoop em m endNode fuel st₃

/-- NavMesh.findPath: resolve both endpoints to nearest nodes and run A*. -/
def NavMesh.findPath {K : Type} [LinearOrderedCommRing K] (em : ExtMath K) (m : NavMesh K)
    (startPosition endPosition : Vec3 K) : List (Vec3 K) :=
  match NavMesh.getClosestNode em m startPosition, NavMesh.getClosestNode em m endPosition with
  | some startNode, some endNode =>
    astarLoop em m endNode (m.nodes.length + 1)
      { openSet := [startNode.id],
        cameFrom := [],
        gScore := [(startNode.id, 0)],
        fScore := [(startNode.id, NavMesh.heuristic em startNode.position endNode.position)] }
  | _, _ => []

/-- Witness math table over the integers. -/
def emW2 : ExtMath ℤ :=
  ⟨fun q => if q = 0 then 0 else if q = 25 then 5 else if q = 100 then 10 else 0,
   fun _ _ => 0, fun _ => 0, fun _ => 0, 3⟩

/-- Claim C9: `connectNodes` with a nonexistent endpoint id reports the error
(the returned flag models the `console.error`) and aborts, leaving the graph
completely unchanged. -/
theorem c9_connectNodes_missing {K : Type} [LinearOrderedCommRing K] (em : ExtMath K)
    (m : NavMesh K) (fromId toId : Nat) (b : Bool)
    (h : aget m.nodes fromId = none ∨ aget m.nodes toId = none) :
    NavMesh.connectNodes em m fromId toId b = (m, true) := by
  unfold NavMesh.connectNodes
  cases h₁ : aget m.nodes fromId with
  | none =>
    cases h₂ : aget m.nodes toId with
    | none => rfl
    | some tn => rfl
  | some fn =>
    cases h₂ : aget m.nodes toId with
    | none => rfl
    | some tn =>
      exfalso
      rcases h with hc | hc
      · rw [h₁] at hc
        cases hc
      · rw [h₂] at hc
        cases hc

/-- Witness for C9 at a concrete input: connecting nodes on the empty mesh. -/
theorem c9_connectNodes_missing_witness :
    aget (({ vertices := [], indices := [], nodes := [] } : NavMesh ℤ)).nodes 0 = none ∧
    NavMesh.connectNodes emW2 { vertices := [], indices := [], nodes := [] } 0 1 true =
      ({ vertices := [], indices := [], nodes := [] }, true) := by
  refine ⟨rfl, ?_⟩
  exact c9_connectNodes_missing emW2 _ 0 1 true (Or.inl rfl)


/-- class AISystem (the singleton): agent registry and optional mesh. -/
structure AISystemM (K : Type) where
  agents : List (String × AgentM K)
  navigationMesh : Option (NavMesh K)
  isInitialized : Bool
deriving DecidableEq

/-- AISystem.createAgent: construct and register an agent. -/
def AISystemM.createAgent {K : Type} [LinearOrderedCommRing K] (sys : AISystemM K)
    (id : String) (go : GameObjectM K) (cfg : AgentConfigM K) : AgentM K × AISystemM K :=
  let agent : AgentM K := ⟨id, go, cfg, [], 0, none, ⟨0, 0, 0⟩, [], []⟩
  (agent, { sys with agents := aset sys.agents id agent })

/-- AISystem.removeAgent: `this.agents.delete(id)` and nothing else.  The
signature makes the claim-relevant fact visible: the method receives no
reference to any behavior tree state, so node-keyed entries for the removed
id cannot be touched. -/
def AISystemM.removeAgent {K : Type} (sys : AISystemM K) (id : String) : AISystemM K :=
  { sys with agents := aerase sys.agents id }

def AISystemM.getAgent {K : Type} (sys : AISystemM K) (id : String) : Option (AgentM K) :=
  aget sys.agents id

/-- Witness/failing-input material for C5: a two-condition Sequence mid-run
for agent a1. -/
def tC5 : BT ℤ Unit :=
  .seq (.cons (.cond (fun _ _ => true)) (.cons (.cond (fun _ _ => false)) .nil))

/-- A zeroed configuration for scenario agents. -/
def cfgZero : AgentConfigM ℤ :=
  { speed := 0, turnSpeed := 0, acceleration := 0, stoppingDistance := 0,
    obstacleAvoidanceRadius := 0, maxSlopeAngle := 0 }

/-- The registered agent for the C5 scenario. -/
def agA1 : AgentM ℤ :=
  { id := "a1", gameObject := ⟨none⟩, config := cfgZero,
    path := [], currentPathIndex := 0, currentTarget := none, velocity := ⟨0, 0, 0⟩,
    blackboard := [], randSeq := [] }

/-- The orchestrator state for the C5 scenario. -/
def sysC5 : AISystemM ℤ :=
  { agents := [("a1", agA1)], navigationMesh := none, isInitialized := true }

/-- Claim C5 (failing input): after one tick of a shared Sequence for agent
a1, `removeAgent("a1")` empties the registry entry (so the blackboard owned by
the Agent object is discarded), but the node-keyed child index for "a1"
persists inside the tree state, because `removeAgent` only deletes the map
entry and never touches behavior-node state. -/
theorem c5_removeAgent_leaves_node_state :
    aget ((sysC5.removeAgent "a1").agents) "a1" = none ∧
    aget (exec tC5 .empty "a1" () (1 : ℤ)).2.1.idxM "a1" = some 1 := by
  constructor
  · decide
  · decide

/-- Blackboard numbers used as array indices (`points[index]` on a JS number). -/
def bbNat {K : Type} [LinearOrderedField K] [FloorRing K] (index : K) : Nat :=
  (jsTrunc index).toNat

/-- Draw one `Math.random()` outcome from the agent carried stream. -/
def takeRand {K : Type} [Zero K] (ag : AgentM K) : K × AgentM K :=
  (ag.randSeq.headD 0, { ag with randSeq := ag.randSeq.tail })

/-- The followPath call inside a factory closure; the `none` (JS exception)
case cannot arise from the paths the factories install, and is modelled as a
no-op tick. -/
def followPathD {K : Type} [LinearOrderedField K] [FloorRing K] (em : ExtMath K)
    (ag : AgentM K) (dt : K) : Bool × AgentM K :=
  (followPath em ag dt).getD (false, ag)

/-- The tail of the patrol closure after the index checks: follow the path and
retarget on completion (the stale local `index` is used, as in the source). -/
def patrolAfter {K : Type} [LinearOrderedField K] [FloorRing K] (em : ExtMath K)
    (points : List (Vec3 K)) (loop : Bool) (ag : AgentM K) (index : K) (dt : K) :
    Status × AgentM K :=
  let r := followPathD em ag dt
  if r.1 then
    let ag₂ := r.2.setBlackboardValue "patrolIndex" (index + 1)
    if index + 1 < (points.length : K) then
      (Status.running, ag₂.setPath [points.getD (bbNat (index + 1)) ⟨0, 0, 0⟩])
    else if loop then
      (Status.running, (ag₂.setBlackboardValue "patrolIndex" 0).setPath
        [points.getD 0 ⟨0, 0, 0⟩])
    else (Status.success, ag₂)
  else (Status.running, r.2)

/-- The patrol closure (`points[...]` out of range is modelled by the origin
default; it is only reachable with an empty `points` list). -/
def patrolFn {K : Type} [LinearOrderedField K] [FloorRing K] (em : ExtMath K)
    (points : List (Vec3 K)) (loop : Bool) : String → AgentM K → K → Status × AgentM K :=
  fun _ ag dt =>
    let ag₁ := if ag.hasBlackboardValue "patrolIndex" then ag
      else ag.setBlackboardValue "patrolIndex" 0
    let index := (aget ag₁.blackboard "patrolIndex").getD 0
    if (points.length : K) ≤ index then
      if loop then
        patrolAfter em points loop
          ((ag₁.setBlackboardValue "patrolIndex" 0).setPath [points.getD 0 ⟨0, 0, 0⟩]) index dt
      else (Status.success, ag₁)
    else
      let tgt := points.getD (bbNat index) ⟨0, 0, 0⟩
      patrolAfter em points loop (if ag₁.path.isEmpty then ag₁.setPath [tgt] else ag₁) index dt

/-- The patrol onEnter hook. -/
def patrolEnter {K : Type} [LinearOrderedField K] (points : List (Vec3 K)) :
    String → AgentM K → AgentM K :=
  fun _ ag =>
    let ag₁ := ag.setBlackboardValue "patrolIndex" 0
    if 0 < points.length then ag₁.setPath [points.getD 0 ⟨0, 0, 0⟩] else ag₁

/-- The patrol onExit hook: clear only the path. -/
def patrolExit {K : Type} : String → AgentM K → AgentM K :=
  fun _ ag => ag.setPath []

/-- AISystem.createPatrolBehavior. -/
def createPatrolBehavior {K : Type} [LinearOrderedField K] [FloorRing K] (em : ExtMath K)
    (points : List (Vec3 K)) (loop : Bool := true) : BT K (AgentM K) :=
  .act (patrolFn em points loop) (some (patrolEnter points)) (some patrolExit)

/-- The follow-and-report tail of the chase closure. -/
def chaseFollow {K : Type} [LinearOrderedField K] [FloorRing K] (em : ExtMath K)
    (ag : AgentM K) (dt : K) : Status × AgentM K :=
  let r := followPathD em ag dt
  ((if r.2.currentTarget.isSome then Status.running else Status.success), r.2)

/-- The chase closure; `nav` is the navigation mesh the captured singleton
holds at execution time. -/
def chaseFn {K : Type} [LinearOrderedField K] [FloorRing K] (em : ExtMath K)
    (nav : Option (NavMesh K)) (targetSelector : AgentM K → Option (Vec3 K))
    (updateRate : K) : String → AgentM K → K → Status × AgentM K :=
  fun _ ag dt =>
    let ag₁ := if ag.hasBlackboardValue "chaseTimer" then ag
      else ag.setBlackboardValue "chaseTimer" 0
    let timer := (aget ag₁.blackboard "chaseTimer").getD 0 + dt
    let ag₂ := ag₁.setBlackboardValue "chaseTimer" timer
    if updateRate ≤ timer then
      let ag₃ := ag₂.setBlackboardValue "chaseTimer" 0
      match targetSelector ag₃ with
      | none => (Status.failure, ag₃)
      | some tp =>
        let ag₄ := ag₃.setTarget (some tp)
        let ag₅ :=
          match nav, ag₄.gameObject.transform with
          | some mesh, some tr =>
            let path := NavMesh.findPath em mesh tr.position tp
            if 0 < path.length then ag₄.setPath path else ag₄.setPath [tp]
          | _, _ => ag₄.setPath [tp]
        chaseFollow em ag₅ dt
    else chaseFollow em ag₂ dt

/-- The chase onEnter hook. -/
def chaseEnter {K : Type} [LinearOrderedField K] : String → AgentM K → AgentM K :=
  fun _ ag => ag.setBlackboardValue "chaseTimer" 0

/-- The chase onExit hook: clear path, target and the chase timer key. -/
def chaseExit {K : Type} : String → AgentM K → AgentM K :=
  fun _ ag => ((ag.setPath []).setTarget none).clearBlackboardValue "chaseTimer"

/-- AISystem.createChaseBehavior. -/
def createChaseBehavior {K : Type} [LinearOrderedField K] [FloorRing K] (em : ExtMath K)
    (nav : Option (NavMesh K)) (targetSelector : AgentM K → Option (Vec3 K))
    (updateRate : K := 1 / 2) : BT K (AgentM K) :=
  .act (chaseFn em nav targetSelector updateRate) (some chaseEnter) (some chaseExit)

/-- The wander closure: retarget when the path is exhausted; no hooks. -/
def wanderFn {K : Type} [LinearOrderedField K] [FloorRing K] (em : ExtMath K)
    (nav : Option (NavMesh K)) (radius minDistance : K) :
    String → AgentM K → K → Status × AgentM K :=
  fun _ ag dt =>
    let c := if ag.path.isEmpty then (true, ag) else followPathD em ag dt
    if c.1 then
      let currentPosition :=
        match c.2.gameObject.transform with
        | some tr => tr.position
        | none => (⟨0, 0, 0⟩ : Vec3 K)
      match nav with
      | some mesh =>
        let r := takeRand c.2
        (Status.running, r.2.setPath [NavMesh.getRandomPoint mesh r.1])
      | none =>
        let r₁ := takeRand c.2
        let r₂ := takeRand r₁.2
        let angle := r₁.1 * em.pi * 2
        let dist := minDistance + r₂.1 * (radius - minDistance)
        (Status.running, r₂.2.setPath
          [⟨currentPosition.x + em.cos angle * dist, currentPosition.y,
            currentPosition.z + em.sin angle * dist⟩])
    else (Status.running, c.2)

/-- AISystem.createWanderBehavior: a bare Action with no hooks. -/
def createWanderBehavior {K : Type} [LinearOrderedField K] [FloorRing K] (em : ExtMath K)
    (nav : Option (NavMesh K)) (radius : K := 10) (minDistance : K := 5) : BT K (AgentM K) :=
  .act (wanderFn em nav radius minDistance) none none

/-- The flee closure; no hooks. -/
def fleeFn {K : Type} [LinearOrderedField K] [FloorRing K] (em : ExtMath K)
    (nav : Option (NavMesh K)) (targetSelector : AgentM K → Option (Vec3 K))
    (fleeDistance : K) : String → AgentM K → K → Status × AgentM K :=
  fun _ ag dt =>
    match targetSelector ag with
    | none => (Status.success, ag)
    | some tp =>
      match ag.gameObject.transform with
      | none => (Status.failure, ag)
      | some tr =>
        let distance := em.sqrt (sqDist tr.position tp)
        if fleeDistance ≤ distance then (Status.success, ag)
        else
          let fleeTarget : Vec3 K :=
            ⟨tr.position.x + (tr.position.x - tp.x) / distance * fleeDistance,
             tr.position.y + (tr.position.y - tp.y) / distance * fleeDistance,
             tr.position.z + (tr.position.z - tp.z) / distance * fleeDistance⟩
          let ag₂ :=
            match nav with
            | some mesh => ag.setPath [NavMesh.getClosestPoint em mesh fleeTarget]
            | none => ag.setPath [fleeTarget]
          let r := followPathD em ag₂ dt
          (Status.running, r.2)

/-- AISystem.createFleeFromBehavior: a bare Action with no hooks. -/
def createFleeFromBehavior {K : Type} [LinearOrderedField K] [FloorRing K] (em : ExtMath K)
    (nav : Option (NavMesh K)) (targetSelector : AgentM K → Option (Vec3 K))
    (fleeDistance : K := 20) : BT K (AgentM K) :=
  .act (fleeFn em nav targetSelector fleeDistance) none none

/-- Counterexample agent for C6: no transform, so the patrol tick stays
Running without arithmetic on positions. -/
def agC6 : AgentM ℚ :=
  { agC7 with gameObject := ⟨none⟩ }

/-- The patrol node of the C6 counterexample. -/
def tC6 : BT ℚ (AgentM ℚ) :=
  createPatrolBehavior emW [⟨10, 0, 0⟩] true

/-- Counterexample to C6 as stated: run the patrol behavior once (it
establishes the `patrolIndex` blackboard key and a path and stays Running),
then reset it; the onExit hook clears the path, but the blackboard key
established by the behavior is still on the agent. -/
theorem c6_counterexample_patrol_key_persists :
    aget (rst tC6 (exec tC6 .empty "a" agC6 1).2.1 "a" (exec tC6 .empty "a" agC6 1).2.2).2.blackboard
      "patrolIndex" = some 0 ∧
    (rst tC6 (exec tC6 .empty "a" agC6 1).2.1 "a" (exec tC6 .empty "a" agC6 1).2.2).2.path = [] := by
  constructor
  · decide
  · decide

/-- Claim C6 (amended): each factory returns a single Action node; patrol and
chase carry onEnter/onExit hooks, wander and flee carry none.  The chase
hooks tear down everything the behavior established (path, target and the
chaseTimer key); the patrol onExit clears the path but leaves the
patrolIndex blackboard key on the agent; and resetting a wander or flee node
never changes the agent payload at all, so their paths persist. -/
theorem c6_factory_hooks_amended {K : Type} [LinearOrderedField K] [FloorRing K] :
    (∀ (em : ExtMath K) points loop, createPatrolBehavior em points loop =
      .act (patrolFn em points loop) (some (patrolEnter points)) (some patrolExit)) ∧
    (∀ (em : ExtMath K) nav sel rate, createChaseBehavior em nav sel rate =
      .act (chaseFn em nav sel rate) (some chaseEnter) (some chaseExit)) ∧
    (∀ (em : ExtMath K) nav radius minD, createWanderBehavior em nav radius minD =
      .act (wanderFn em nav radius minD) none none) ∧
    (∀ (em : ExtMath K) nav sel fd, createFleeFromBehavior em nav sel fd =
      .act (fleeFn em nav sel fd) none none) ∧
    (∀ (em : ExtMath K) nav sel rate (st : StT K) a (x : AgentM K),
      (aget st.runM a).getD false = true →
      (rst (createChaseBehavior em nav sel rate) st a x).2.path = [] ∧
      (rst (createChaseBehavior em nav sel rate) st a x).2.currentTarget = none ∧
      aget (rst (createChaseBehavior em nav sel rate) st a x).2.blackboard "chaseTimer" = none) ∧
    (∀ (em : ExtMath K) points loop (st : StT K) a (x : AgentM K),
      (aget st.runM a).getD false = true →
      (rst (createPatrolBehavior em points loop) st a x).2.path = [] ∧
      aget (rst (createPatrolBehavior em points loop) st a x).2.blackboard "patrolIndex" =
        aget x.blackboard "patrolIndex") ∧
    (∀ (em : ExtMath K) nav radius minD (st : StT K) a (x : AgentM K),
      (rst (createWanderBehavior em nav radius minD) st a x).2 = x) ∧
    (∀ (em : ExtMath K) nav sel fd (st : StT K) a (x : AgentM K),
      (rst (createFleeFromBehavior em nav sel fd) st a x).2 = x) := by
  refine ⟨fun _ _ _ => rfl, fun _ _ _ _ => rfl, fun _ _ _ _ => rfl, fun _ _ _ _ => rfl,
    ?_, ?_, ?_, ?_⟩
  · intro em nav sel rate st a x h
    have e : (rst (createChaseBehavior em nav sel rate) st a x).2 =
        if (aget st.runM a).getD false then chaseExit a x else x := rfl
    rw [e, h, if_pos rfl]
    exact ⟨rfl, rfl, aget_aerase_self _ _⟩
  · intro em points loop st a x h
    have e : (rst (createPatrolBehavior em points loop) st a x).2 =
        if (aget st.runM a).getD false then patrolExit a x else x := rfl
    rw [e, h, if_pos rfl]
    exact ⟨rfl, rfl⟩
  · intro em nav radius minD st a x
    have e : (rst (createWanderBehavior em nav radius minD) st a x).2 =
        if (aget st.runM a).getD false then x else x := rfl
    rw [e, ite_self]
  · intro em nav sel fd st a x
    have e : (rst (createFleeFromBehavior em nav sel fd) st a x).2 =
        if (aget st.runM a).getD false then x else x := rfl
    rw [e, ite_self]

/-- Witness for the amended C6 at a concrete input: resetting an active chase
node clears its path. -/
theorem c6_factory_hooks_amended_witness :
    (aget ((StT.empty : StT ℚ).setRun "a" true).runM "a").getD false = true ∧
    (rst (createChaseBehavior emW none (fun _ => none) (1/2))
      ((StT.empty : StT ℚ).setRun "a" true) "a" agC6).2.path = [] := by
  have h := (c6_factory_hooks_amended (K := ℚ)).2.2.2.2.1 emW none (fun _ => none) (1/2)
    ((StT.empty : StT ℚ).setRun "a" true) "a" agC6 (by decide)
  exact ⟨by decide, h.1⟩

theorem aget_mem {κ β : Type} [DecidableEq κ] {l : List (κ × β)} {k : κ} {v : β}
    (h : aget l k = some v) : (k, v) ∈ l := by
  induction l with
  | nil => cases h
  | cons hd t ih =>
    obtain ⟨k₁, v₁⟩ := hd
    by_cases hk : k₁ = k
    · subst hk
      rw [aget, if_pos rfl] at h
      cases h
      exact List.mem_cons_self _ _
    · rw [aget, if_neg hk] at h
      exact List.mem_cons_of_mem _ (ih h)

theorem aget_isSome_of_mem {κ β : Type} [DecidableEq κ] {l : List (κ × β)} {k : κ} {v : β}
    (h : (k, v) ∈ l) : (aget l k).isSome := by
  induction l with
  | nil => cases h
  | cons hd t ih =>
    obtain ⟨k₁, v₁⟩ := hd
    rcases List.mem_cons.mp h with he | ht
    · cases he
      simp [aget]
    · by_cases hk : k₁ = k
      · simp [aget, hk]
      · rw [aget, if_neg hk]
        exact ih ht

theorem aget_eq_of_mem_nodup {κ β : Type} [DecidableEq κ] {l : List (κ × β)} {k : κ} {v : β}
    (hn : (l.map Prod.fst).Nodup) (h : (k, v) ∈ l) : aget l k = some v := by
  induction l with
  | nil => cases h
  | cons hd t ih =>
    obtain ⟨k₁, v₁⟩ := hd
    rcases List.mem_cons.mp h with he | ht
    · cases he
      simp [aget]
    · by_cases hk : k₁ = k
      · subst hk
        exfalso
        have : k₁ ∈ t.map Prod.fst := List.mem_map.mpr ⟨(k₁, v), ht, rfl⟩
        exact (List.nodup_cons.mp hn).1 this
      · rw [aget, if_neg hk]
        exact ih (List.nodup_cons.mp hn).2 ht

theorem aget_mem_keys {κ β : Type} [DecidableEq κ] {l : List (κ × β)} {k : κ}
    (h : (aget l k).isSome) : k ∈ l.map Prod.fst := by
  rcases Option.isSome_iff_exists.mp h with ⟨v, hv⟩
  exact List.mem_map.mpr ⟨(k, v), aget_mem hv, rfl⟩

/-- A directed edge of the mesh with its stored cost. -/
def Edge {K : Type} [LinearOrderedCommRing K] (m : NavMesh K) (u v : Nat) (c : K) : Prop :=
  ∃ n, aget m.nodes u = some n ∧ aget n.connections v = some c

/-- A nonempty list of node ids forming a walk along mesh edges. -/
def walkOK {K : Type} [LinearOrderedCommRing K] (m : NavMesh K) : List Nat → Prop
  | [] => False
  | [u] => (aget m.nodes u).isSome
  | u :: v :: t => (∃ c, Edge m u v c) ∧ walkOK m (v :: t)

/-- The cost of a walk: the sum of the stored costs of its edges. -/
def walkCost {K : Type} [LinearOrderedCommRing K] (m : NavMesh K) : List Nat → K
  | [] => 0
  | [_] => 0
  | u :: v :: t =>
    (aget ((aget m.nodes u).getD defaultNode).connections v).getD 0 + walkCost m (v :: t)

/-- Well-formedness of a mesh reachable through the construction API. -/
structure MeshWF {K : Type} [LinearOrderedCommRing K] (m : NavMesh K) : Prop where
  nodup : (m.nodes.map Prod.fst).Nodup
  keyed : ∀ p ∈ m.nodes, p.2.id = p.1
  connNodup : ∀ p ∈ m.nodes, (p.2.connections.map Prod.fst).Nodup
  closed : ∀ p ∈ m.nodes, ∀ q ∈ p.2.connections, (aget m.nodes q.1).isSome

theorem edge_cost_eq {K : Type} [LinearOrderedCommRing K] {m : NavMesh K} {u v : Nat} {c : K}
    (h : Edge m u v c) :
    (aget ((aget m.nodes u).getD defaultNode).connections v).getD 0 = c := by
  obtain ⟨n, hn, hc⟩ := h
  rw [hn]
  show (aget n.connections v).getD 0 = c
  rw [hc]
  rfl

theorem edge_target_some {K : Type} [LinearOrderedCommRing K] {m : NavMesh K} {u v : Nat} {c : K}
    (wf : MeshWF m) (h : Edge m u v c) : (aget m.nodes v).isSome := by
  obtain ⟨n, hn, hc⟩ := h
  exact wf.closed (u, n) (aget_mem hn) (v, c) (aget_mem hc)

theorem walkOK_head_some {K : Type} [LinearOrderedCommRing K] {m : NavMesh K} {ids : List Nat}
    (h : walkOK m ids) : ∃ u t, ids = u :: t ∧ (aget m.nodes u).isSome := by
  match ids with
  | [] => cases h
  | [u] => exact ⟨u, [], rfl, h⟩
  | u :: v :: t =>
    obtain ⟨⟨c, n, hn, _⟩, _⟩ := h
    exact ⟨u, v :: t, rfl, by rw [hn]; rfl⟩

theorem walkCost_append {K : Type} [LinearOrderedCommRing K] (m : NavMesh K)
    (xs : List Nat) (y : Nat) (ys : List Nat) :
    walkCost m (xs ++ y :: ys) = walkCost m (xs ++ [y]) + walkCost m (y :: ys) := by
  induction xs with
  | nil =>
    show walkCost m (y :: ys) = walkCost m [y] + walkCost m (y :: ys)
    rw [show walkCost m [y] = 0 from rfl]
    ring
  | cons x t ih =>
    cases t with
    | nil =>
      show walkCost m (x :: y :: ys) = walkCost m (x :: [y]) + walkCost m (y :: ys)
      rw [walkCost, walkCost]
      cases ys with
      | nil => simp [walkCost]
      | cons b bs =>
        rw [show walkCost m [y] = 0 from rfl]
        ring
    | cons x₂ t₂ =>
      show walkCost m (x :: x₂ :: (t₂ ++ y :: ys)) =
        walkCost m (x :: x₂ :: (t₂ ++ [y])) + walkCost m (y :: ys)
      rw [walkCost, walkCost]
      have := ih
      rw [show (x₂ :: t₂) ++ y :: ys = x₂ :: (t₂ ++ y :: ys) from rfl] at this
      rw [show (x₂ :: t₂) ++ [y] = x₂ :: (t₂ ++ [y]) from rfl] at this
      rw [this]
      ring

theorem walkOK_append_left {K : Type} [LinearOrderedCommRing K] {m : NavMesh K}
    {xs : List Nat} {y : Nat} {ys : List Nat}
    (h : walkOK m (xs ++ y :: ys)) : walkOK m (xs ++ [y]) := by
  induction xs with
  | nil =>
    cases ys with
    | nil => exact h
    | cons b bs =>
      obtain ⟨⟨c, hc⟩, _⟩ := h
      obtain ⟨n, hn, _⟩ := hc
      show (aget m.nodes y).isSome
      rw [hn]
      rfl
  | cons x t ih =>
    cases t with
    | nil =>
      obtain ⟨he, ht⟩ := h
      exact ⟨he, ih ht⟩
    | cons x₂ t₂ =>
      obtain ⟨he, ht⟩ := h
      exact ⟨he, ih ht⟩

theorem walkOK_append_right {K : Type} [LinearOrderedCommRing K] {m : NavMesh K}
    {xs : List Nat} {y : Nat} {ys : List Nat}
    (h : walkOK m (xs ++ y :: ys)) : walkOK m (y :: ys) := by
  induction xs with
  | nil => exact h
  | cons x t ih =>
    cases t with
    | nil => exact ih h.2
    | cons x₂ t₂ => exact ih h.2

/-- Predecessor chains of the `cameFrom` map: the id lists that
`reconstructPath` walks, from the start id to a vertex. -/
inductive Chain (cf : List (Nat × Nat)) (s : Nat) : Nat → List Nat → Prop where
  | base : Chain cf s s [s]
  | step {v prev : Nat} {ids : List Nat} (h : aget cf v = some prev)
      (hc : Chain cf s prev ids) : Chain cf s v (ids ++ [v])

theorem chain_ne_nil {cf : List (Nat × Nat)} {s v : Nat} {ids : List Nat}
    (hch : Chain cf s v ids) : ids ≠ [] := by
  cases hch with
  | base => simp
  | step h hc => simp

theorem chain_last {cf : List (Nat × Nat)} {s v : Nat} {ids : List Nat}
    (hch : Chain cf s v ids) : ids.getLast? = some v := by
  cases hch with
  | base => rfl
  | step h hc => simp [List.getLast?_concat]

theorem chain_head {cf : List (Nat × Nat)} {s v : Nat} {ids : List Nat}
    (hch : Chain cf s v ids) : ids.head? = some s := by
  induction hch with
  | base => rfl
  | step h hc ih =>
    rcases hc with _ | _ <;> simpa using ih

theorem chain_mem_self {cf : List (Nat × Nat)} {s v : Nat} {ids : List Nat}
    (hch : Chain cf s v ids) : v ∈ ids := by
  cases hch with
  | base => simp
  | step h hc => simp

theorem chain_sub_cf {cf : List (Nat × Nat)} {s v : Nat} {ids : List Nat}
    (hch : Chain cf s v ids) : ∀ x ∈ ids, x = s ∨ (aget cf x).isSome := by
  induction hch with
  | base => intro x hx; left; simpa using hx
  | @step v₁ prev₁ ids₁ h hc ih =>
    intro x hx
    rcases List.mem_append.mp hx with hx₁ | hx₂
    · exact ih x hx₁
    · right
      have hxe : x = v₁ := by simpa using hx₂
      rw [hxe, h]
      rfl

/-- `reconstructPath` returns exactly the chain (as positions) whenever the
fuel covers the chain length and the start has no predecessor link. -/
theorem reconstruct_of_chain {K : Type} [LinearOrderedCommRing K] (m : NavMesh K)
    {cf : List (Nat × Nat)} {s v : Nat} {ids : List Nat}
    (hs : aget cf s = none) (hch : Chain cf s v ids) :
    ∀ fuel, ids.length ≤ fuel + 1 →
      reconstructPath m cf fuel v = ids.map (posOf m) := by
  induction hch with
  | base =>
    intro fuel _
    cases fuel with
    | zero => rfl
    | succ f => simp [reconstructPath, hs]
  | @step v₁ prev₁ ids₁ h hc ih =>
    intro fuel hlen
    cases fuel with
    | zero =>
      exfalso
      have hl : ids₁.length + 1 ≤ 1 := by simpa using hlen
      have hnil : ids₁ = [] := List.length_eq_zero.mp (by omega)
      exact chain_ne_nil hc hnil
    | succ f =>
      show reconstructPath m cf (f + 1) v₁ = _
      rw [show reconstructPath m cf (f + 1) v₁ =
        (match aget cf v₁ with
         | none => [posOf m v₁]
         | some prev => reconstructPath m cf f prev ++ [posOf m v₁]) from rfl, h]
      show reconstructPath m cf f prev₁ ++ [posOf m v₁] = List.map (posOf m) (ids₁ ++ [v₁])
      rw [ih f (by simp at hlen; omega)]
      simp

theorem nodup_subset_length {l l₂ : List Nat} (hn : l.Nodup) (hsub : ∀ x ∈ l, x ∈ l₂) :
    l.length ≤ l₂.length := by
  calc l.length = l.toFinset.card := (List.toFinset_card_of_nodup hn).symm
  _ ≤ l₂.toFinset.card :=
      Finset.card_le_card (fun x hx => List.mem_toFinset.mpr (hsub x (List.mem_toFinset.mp hx)))
  _ ≤ l₂.length := l₂.toFinset_card_le

theorem length_le_filter_ne {s : Nat} {ids : List Nat} (hn : ids.Nodup) :
    ids.length ≤ (ids.filter (fun x => decide (x ≠ s))).length + 1 := by
  induction ids with
  | nil => simp
  | cons a t ih =>
    have hn₂ := List.nodup_cons.mp hn
    by_cases ha : a = s
    · subst ha
      have hft : t.filter (fun x => decide (x ≠ a)) = t :=
        List.filter_eq_self.mpr (fun x hx => by
          simp only [decide_eq_true_eq]
          intro hxa
          exact hn₂.1 (hxa ▸ hx))
      rw [List.filter_cons]
      simp only [decide_eq_true_eq]
      rw [if_neg (by simp)]
      rw [hft]
      simp
    · rw [List.filter_cons, if_pos (by simp [ha])]
      have := ih hn₂.2
      simp only [List.length_cons]
      omega

/-- A nodup chain is no longer than the `cameFrom` map plus the start. -/
theorem chain_length_le {cf : List (Nat × Nat)} {s v : Nat} {ids : List Nat}
    (hch : Chain cf s v ids) (hn : ids.Nodup) : ids.length ≤ cf.length + 1 := by
  have h₁ := length_le_filter_ne (s := s) hn
  have h₂ : (ids.filter (fun x => decide (x ≠ s))).length ≤ cf.length := by
    have hlen : (ids.filter (fun x => decide (x ≠ s))).length ≤ (cf.map Prod.fst).length :=
      nodup_subset_length (hn.filter (fun x => decide (x ≠ s)))
      (fun x hx => by
        have hm := List.mem_filter.mp hx
        have hxs : x ≠ s := by simpa using hm.2
        rcases chain_sub_cf hch x hm.1 with he | hk
        · exact absurd he hxs
        · exact aget_mem_keys hk)
    simpa using hlen
  omega

/-- Chains whose links each carry an edge with gScore slack are walks whose
cost is bounded by the endpoint gScore. -/
theorem chain_walk {K : Type} [LinearOrderedCommRing K] {m : NavMesh K}
    {cf : List (Nat × Nat)} {s v : Nat} {ids : List Nat} {gs : List (Nat × K)}
    (hch : Chain cf s v ids)
    (hstart : aget gs s = some 0)
    (hsKey : (aget m.nodes s).isSome)
    (wf : MeshWF m)
    (hlink : ∀ y u, aget cf y = some u →
      ∃ c gu gy, Edge m u y c ∧ aget gs u = some gu ∧ aget gs y = some gy ∧ gu + c ≤ gy) :
    walkOK m ids ∧ ∀ gv, aget gs v = some gv → walkCost m ids ≤ gv := by
  induction hch with
  | base =>
    refine ⟨hsKey, ?_⟩
    intro gv hgv
    rw [hstart] at hgv
    cases hgv
    exact le_of_eq rfl
  | @step v₁ prev₁ ids₁ h hc ih =>
    obtain ⟨c, gu, gy, hedge, hgu, hgy, hle⟩ := hlink _ _ h
    obtain ⟨hwalk, hcost⟩ := ih
    have hlast := chain_last hc
    have hident : ids₁ = ids₁.dropLast ++ [prev₁] := by
      have hne := chain_ne_nil hc
      conv_lhs => rw [← List.dropLast_append_getLast hne]
      rw [List.getLast?_eq_getLast _ hne] at hlast
      rw [Option.some_inj.mp hlast]
    constructor
    · rw [hident]
      rw [hident] at hwalk
      clear hcost hident hlast
      revert hwalk
      generalize ids₁.dropLast = pre
      induction pre with
      | nil =>
        intro _
        exact ⟨⟨c, hedge⟩, edge_target_some wf hedge⟩
      | cons a t ihp =>
        intro hw
        cases t with
        | nil => exact ⟨hw.1, ihp hw.2⟩
        | cons b bs => exact ⟨hw.1, ihp hw.2⟩
    · intro gv hgv
      rw [hgy] at hgv
      cases hgv
      have hsplit : walkCost m (ids₁ ++ [v₁]) = walkCost m ids₁ + c := by
        conv_lhs => rw [hident]
        rw [show ids₁.dropLast ++ [prev₁] ++ [v₁] = ids₁.dropLast ++ prev₁ :: [v₁] by simp]
        rw [walkCost_append m ids₁.dropLast prev₁ [v₁]]
        rw [← hident]
        have hcv : walkCost m [prev₁, v₁] = c := by
          show (aget ((aget m.nodes prev₁).getD defaultNode).connections v₁).getD 0 +
            walkCost m [v₁] = c
          rw [edge_cost_eq hedge]
          show c + 0 = c
          ring
        rw [hcv]
      rw [hsplit]
      have hcu := hcost gu hgu
      linarith

theorem optLT_irrefl {K : Type} [LinearOrderedCommRing K] (a : Option K) :
    optLT a a = false := by
  cases a <;> simp [optLT]

theorem optLT_false_trans {K : Type} [LinearOrderedCommRing K] {a b c : Option K}
    (h₁ : optLT a b = false) (h₂ : optLT b c = false) : optLT a c = false := by
  cases a <;> cases b <;> cases c <;> simp_all [optLT] <;> linarith

theorem optLT_false_of_lt {K : Type} [LinearOrderedCommRing K] {a b c : Option K}
    (h₁ : optLT b a = true) (h₂ : optLT b c = false) : optLT a c = false := by
  cases a <;> cases b <;> cases c <;> simp_all [optLT] <;> linarith

/-- The open-set scan returns a member of the scanned list on which no
scanned fScore is strictly smaller (absence counting as infinity). -/
theorem scanMin_spec {K : Type} [LinearOrderedCommRing K] (fs : List (Nat × K)) :
    ∀ (l : List Nat) (cur : Nat),
      scanMin fs l cur (aget fs cur) ∈ cur :: l ∧
      ∀ v ∈ cur :: l, optLT (aget fs v) (aget fs (scanMin fs l cur (aget fs cur))) = false := by
  intro l
  induction l with
  | nil =>
    intro cur
    refine ⟨by simp [scanMin], ?_⟩
    intro v hv
    have : v = cur := by simpa using hv
    subst this
    exact optLT_irrefl _
  | cons nid t ih =>
    intro cur
    by_cases hb : optLT (aget fs nid) (aget fs cur) = true
    · have he : scanMin fs (nid :: t) cur (aget fs cur) = scanMin fs t nid (aget fs nid) := by
        rw [scanMin, if_pos hb]
      obtain ⟨hmem, hmin⟩ := ih nid
      refine ⟨?_, ?_⟩
      · rw [he]
        rcases List.mem_cons.mp hmem with h₁ | h₂
        · rw [h₁]
          simp
        · exact List.mem_cons.mpr (Or.inr (List.mem_cons_of_mem _ h₂))
      · intro v hv
        rw [he]
        rcases List.mem_cons.mp hv with h₁ | h₂
        · subst h₁
          exact optLT_false_of_lt hb (hmin nid (List.mem_cons_self _ _))
        · exact hmin v h₂
    · have hb₂ : optLT (aget fs nid) (aget fs cur) = false := by
        revert hb
        cases optLT (aget fs nid) (aget fs cur) <;> simp
      have he : scanMin fs (nid :: t) cur (aget fs cur) = scanMin fs t cur (aget fs cur) := by
        rw [scanMin, if_neg hb]
      obtain ⟨hmem, hmin⟩ := ih cur
      refine ⟨?_, ?_⟩
      · rw [he]
        rcases List.mem_cons.mp hmem with h₁ | h₂
        · rw [h₁]
          simp
        · exact List.mem_cons.mpr (Or.inr (List.mem_cons_of_mem _ h₂))
      · intro v hv
        rw [he]
        rcases List.mem_cons.mp hv with h₁ | h₂
        · subst h₁
          exact hmin v (List.mem_cons_self _ _)
        · rcases List.mem_cons.mp h₂ with h₃ | h₄
          · subst h₃
            exact optLT_false_trans hb₂ (hmin cur (List.mem_cons_self _ _))
          · exact hmin v (List.mem_cons_of_mem _ h₄)

/-- The heuristic of a node id toward the goal node. -/
def hfun {K : Type} [LinearOrderedCommRing K] (em : ExtMath K) (m : NavMesh K)
    (endN : NavMeshNode K) (v : Nat) : K :=
  NavMesh.heuristic em (posOf m v) endN.position

theorem getLast_decomp {α : Type} {l : List α} {p : α} (hl : l.getLast? = some p) :
    l = l.dropLast ++ [p] := by
  have hne : l ≠ [] := by
    intro h
    rw [h] at hl
    cases hl
  conv_lhs => rw [← List.dropLast_append_getLast hne]
  rw [List.getLast?_eq_getLast _ hne] at hl
  rw [Option.some_inj.mp hl]

theorem walkCost_concat {K : Type} [LinearOrderedCommRing K] {m : NavMesh K}
    {l : List Nat} {p v : Nat} {c : K}
    (hl : l.getLast? = some p) (he : Edge m p v c) :
    walkCost m (l ++ [v]) = walkCost m l + c := by
  have hident := getLast_decomp hl
  conv_lhs => rw [hident]
  rw [show l.dropLast ++ [p] ++ [v] = l.dropLast ++ p :: [v] by simp]
  rw [walkCost_append m l.dropLast p [v]]
  rw [← hident]
  have hcv : walkCost m [p, v] = c := by
    show (aget ((aget m.nodes p).getD defaultNode).connections v).getD 0 + walkCost m [v] = c
    rw [edge_cost_eq he]
    show c + 0 = c
    ring
  rw [hcv]

theorem walkOK_concat {K : Type} [LinearOrderedCommRing K] {m : NavMesh K}
    {l : List Nat} {p v : Nat} {c : K} :
    walkOK m l → l.getLast? = some p → Edge m p v c → (aget m.nodes v).isSome →
    walkOK m (l ++ [v]) := by
  induction l with
  | nil => intro _ hl; cases hl
  | cons a t ih =>
    intro hok hl he hv
    cases t with
    | nil =>
      have hp : a = p := by simpa using hl
      subst hp
      exact ⟨⟨c, he⟩, hv⟩
    | cons b bs =>
      have hl₂ : (b :: bs).getLast? = some p := by
        rw [← hl]
        simp [List.getLast?_cons_cons]
      exact ⟨hok.1, ih hok.2 hl₂ he hv⟩

theorem walk_adj {K : Type} [LinearOrderedCommRing K] {m : NavMesh K}
    {l : List Nat} {x : Nat} :
    walkOK m (l ++ [x]) → l ≠ [] → ∃ p, l.getLast? = some p ∧ ∃ c, Edge m p x c := by
  induction l with
  | nil => intro _ h; exact absurd rfl h
  | cons a t ih =>
    intro hok _
    cases t with
    | nil => exact ⟨a, rfl, hok.1⟩
    | cons b bs =>
      obtain ⟨p, hp, hc⟩ := ih hok.2 (by simp)
      refine ⟨p, ?_, hc⟩
      rw [← hp]
      simp [List.getLast?_cons_cons]

theorem first_not {P : Nat → Prop} [DecidablePred P] :
    ∀ {l : List Nat}, (∃ x ∈ l, ¬ P x) →
      ∃ pre x suf, l = pre ++ x :: suf ∧ (∀ y ∈ pre, P y) ∧ ¬ P x := by
  intro l
  induction l with
  | nil => intro h; simp at h
  | cons a t ih =>
    intro h
    by_cases ha : P a
    · have ht : ∃ x ∈ t, ¬ P x := by
        obtain ⟨x, hx, hnx⟩ := h
        rcases List.mem_cons.mp hx with he | hm
        · exact absurd (he ▸ ha) hnx
        · exact ⟨x, hm, hnx⟩
      obtain ⟨pre, x, suf, hl, hpre, hnx⟩ := ih ht
      exact ⟨a :: pre, x, suf, by rw [hl]; rfl,
        fun y hy => by
          rcases List.mem_cons.mp hy with he | hm
          · exact he ▸ ha
          · exact hpre y hm, hnx⟩
    · exact ⟨[], a, t, rfl, by simp, ha⟩

/-- Along a walk the heuristic telescopes against the edge costs whenever the
heuristic is consistent for every edge. -/
theorem walk_telescope {K : Type} [LinearOrderedCommRing K] {em : ExtMath K}
    {m : NavMesh K} {endN : NavMeshNode K}
    (hcons : ∀ u v c, Edge m u v c → hfun em m endN u ≤ c + hfun em m endN v) :
    ∀ (suf : List Nat) (x cur : Nat), walkOK m (x :: suf) →
      (x :: suf).getLast? = some cur →
      hfun em m endN x ≤ walkCost m (x :: suf) + hfun em m endN cur := by
  intro suf
  induction suf with
  | nil =>
    intro x cur _ hl
    have hx : x = cur := by simpa using hl
    subst hx
    have h0 : walkCost m [x] = 0 := rfl
    rw [h0]
    simp
  | cons y t ih =>
    intro x cur hok hl
    obtain ⟨⟨c, he⟩, hok₂⟩ := hok
    have h₁ := hcons x y c he
    have h₂ := ih y cur hok₂ (by rw [← hl]; simp [List.getLast?_cons_cons])
    have hcost : walkCost m (x :: y :: t) = c + walkCost m (y :: t) := by
      show (aget ((aget m.nodes x).getD defaultNode).connections y).getD 0 +
        walkCost m (y :: t) = c + walkCost m (y :: t)
      rw [edge_cost_eq he]
    rw [hcost]
    linarith

/-- A forward sequence of predecessor links from `a` down to `v`. -/
def LinkSeq (cf : List (Nat × Nat)) : Nat → List Nat → Nat → Prop
  | a, [], v => a = v
  | a, x :: t, v => aget cf x = some a ∧ LinkSeq cf x t v

theorem linkseq_concat {cf : List (Nat × Nat)} :
    ∀ {l : List Nat} {a b v : Nat}, LinkSeq cf a l b → aget cf v = some b →
      LinkSeq cf a (l ++ [v]) v := by
  intro l
  induction l with
  | nil =>
    intro a b v hl hv
    have : a = b := hl
    subst this
    exact ⟨hv, rfl⟩
  | cons x t ih =>
    intro a b v hl hv
    exact ⟨hl.1, ih hl.2 hv⟩

theorem chain_glue {cf : List (Nat × Nat)} {s : Nat} :
    ∀ {suf : List Nat} {nb v : Nat} {ids : List Nat},
      Chain cf s nb ids → LinkSeq cf nb suf v → Chain cf s v (ids ++ suf) := by
  intro suf
  induction suf with
  | nil =>
    intro nb v ids hch hl
    have : nb = v := hl
    subst this
    simpa using hch
  | cons x t ih =>
    intro nb v ids hch hl
    have hx : Chain cf s x (ids ++ [x]) := Chain.step hl.1 hch
    have := ih hx hl.2
    simpa using this

theorem chain_decompose {cf : List (Nat × Nat)} {s : Nat} :
    ∀ {v : Nat} {ids : List Nat}, Chain cf s v ids → ∀ {nb : Nat}, nb ∈ ids →
      ∃ pre suf, ids = pre ++ nb :: suf ∧ Chain cf s nb (pre ++ [nb]) ∧ LinkSeq cf nb suf v := by
  intro v ids hch
  induction hch with
  | base =>
    intro nb hnb
    have : nb = s := by simpa using hnb
    subst this
    exact ⟨[], [], rfl, Chain.base, rfl⟩
  | @step v₁ prev₁ ids₁ h hc ih =>
    intro nb hnb
    rcases List.mem_append.mp hnb with hm | hm
    · obtain ⟨pre, suf, hid, hcpre, hls⟩ := ih hm
      refine ⟨pre, suf ++ [v₁], by rw [hid]; simp, hcpre, ?_⟩
      exact linkseq_concat hls h
    · have : nb = v₁ := by simpa using hm
      subst this
      exact ⟨ids₁, [], by simp, Chain.step h hc, rfl⟩

theorem linkseq_congr {cf cf₂ : List (Nat × Nat)} :
    ∀ {l : List Nat} {a v : Nat}, LinkSeq cf a l v →
      (∀ x ∈ l, aget cf₂ x = aget cf x) → LinkSeq cf₂ a l v := by
  intro l
  induction l with
  | nil => intro a v hl _; exact hl
  | cons x t ih =>
    intro a v hl hcong
    exact ⟨(hcong x (by simp)).trans hl.1,
      ih hl.2 (fun y hy => hcong y (List.mem_cons_of_mem _ hy))⟩

theorem chain_congr_links {cf cf₂ : List (Nat × Nat)} {s : Nat} :
    ∀ {v : Nat} {ids : List Nat}, Chain cf s v ids →
      (∀ x ∈ ids, aget cf₂ x = aget cf x) → Chain cf₂ s v ids := by
  intro v ids hch
  induction hch with
  | base => intro _; exact Chain.base
  | @step v₁ prev₁ ids₁ h hc ih =>
    intro hcong
    refine Chain.step ?_ (ih (fun x hx => hcong x (List.mem_append.mpr (Or.inl hx))))
    rw [hcong v₁ (by simp), h]

/-- Along a chain with slack-carrying links and nonnegative costs, every
member has a gScore bounded by the endpoint gScore. -/
theorem chain_gmono {K : Type} [LinearOrderedCommRing K] {m : NavMesh K}
    {cf : List (Nat × Nat)} {gs : List (Nat × K)} {s : Nat}
    (hnn : ∀ u v c, Edge m u v c → 0 ≤ c)
    (hlink : ∀ y u, aget cf y = some u → ∃ c gu gy, Edge m u y c ∧
      aget gs u = some gu ∧ aget gs y = some gy ∧ gu + c ≤ gy) :
    ∀ {v : Nat} {ids : List Nat}, Chain cf s v ids → ∀ {gv : K}, aget gs v = some gv →
      ∀ x ∈ ids, ∃ gx, aget gs x = some gx ∧ gx ≤ gv := by
  intro v ids hch
  induction hch with
  | base =>
    intro gv hgv x hx
    have : x = s := by simpa using hx
    subst this
    exact ⟨gv, hgv, le_refl _⟩
  | @step v₁ prev₁ ids₁ h hc ih =>
    intro gv hgv x hx
    obtain ⟨c, gu, gy, he, hgu, hgy, hle⟩ := hlink _ _ h
    have hgve : gv = gy := by
      rw [hgy] at hgv
      exact (Option.some_inj.mp hgv).symm
    rcases List.mem_append.mp hx with hm | hm
    · obtain ⟨gx, hgx, hxle⟩ := ih hgu x hm
      refine ⟨gx, hgx, ?_⟩
      rw [hgve]
      have hc := hnn _ _ _ he
      linarith
    · have hx₁ : x = v₁ := by simpa using hm
      subst hx₁
      exact ⟨gv, by rw [hgve]; exact hgy, le_refl _⟩

/-- Along a link sequence (with slack and nonnegative costs) gScores are
nondecreasing from the head. -/
theorem linkseq_gmono {K : Type} [LinearOrderedCommRing K] {m : NavMesh K}
    {cf : List (Nat × Nat)} {gs : List (Nat × K)}
    (hnn : ∀ u v c, Edge m u v c → 0 ≤ c)
    (hlink : ∀ y u, aget cf y = some u → ∃ c gu gy, Edge m u y c ∧
      aget gs u = some gu ∧ aget gs y = some gy ∧ gu + c ≤ gy) :
    ∀ {l : List Nat} {a v : Nat}, LinkSeq cf a l v → ∀ {ga : K}, aget gs a = some ga →
      ∀ x ∈ l, ∃ gx, aget gs x = some gx ∧ ga ≤ gx := by
  intro l
  induction l with
  | nil => intro a v _ ga _ x hx; cases hx
  | cons y t ih =>
    intro a v hl ga hga x hx
    obtain ⟨hy, hrest⟩ := hl
    obtain ⟨c, gu, gy, he, hgu, hgy, hle⟩ := hlink _ _ hy
    have hgae : ga = gu := by
      rw [hgu] at hga
      exact (Option.some_inj.mp hga).symm
    subst hgae
    have hay : ga ≤ gy := by have := hnn _ _ _ he; linarith
    rcases List.mem_cons.mp hx with hm | hm
    · subst hm
      exact ⟨gy, hgy, hay⟩
    · obtain ⟨gx, hgx, hxle⟩ := ih hrest hgy x hm
      exact ⟨gx, hgx, le_trans hay hxle⟩

/-- The A* loop invariant over the explicit search state and the ghost list
of settled (popped) vertices. -/
structure ACore {K : Type} [LinearOrderedCommRing K] (em : ExtMath K) (m : NavMesh K)
    (endN : NavMeshNode K) (s : Nat) (st : AState K) (done : List Nat) : Prop where
  openNodup : st.openSet.Nodup
  openKeys : ∀ v ∈ st.openSet, (aget m.nodes v).isSome
  doneKeys : ∀ v ∈ done, (aget m.nodes v).isSome
  doneNodup : done.Nodup
  doneOpen : ∀ v ∈ done, v ∉ st.openSet
  startG : aget st.gScore s = some 0
  sKey : (aget m.nodes s).isSome
  openG : ∀ v ∈ st.openSet, (aget st.gScore v).isSome
  gMem : ∀ v, (aget st.gScore v).isSome → v ∈ done ∨ v ∈ st.openSet
  gNonneg : ∀ v g, aget st.gScore v = some g → 0 ≤ g
  fVal : ∀ v g, aget st.gScore v = some g →
    aget st.fScore v = some (g + hfun em m endN v)
  cfStart : aget st.cameFrom s = none
  cfLink : ∀ v u, aget st.cameFrom v = some u → ∃ c gu gv, Edge m u v c ∧
    aget st.gScore u = some gu ∧ aget st.gScore v = some gv ∧ gu + c ≤ gv
  chain : ∀ v, (aget st.gScore v).isSome →
    ∃ ids, Chain st.cameFrom s v ids ∧ ids.Nodup
  doneLB : ∀ v ∈ done, ∀ g, aget st.gScore v = some g → ∀ ids, walkOK m ids →
    ids.head? = some s → ids.getLast? = some v → g ≤ walkCost m ids
  doneG : ∀ v ∈ done, (aget st.gScore v).isSome

/-- Every settled vertex has all its outgoing edges relaxed, except those of
`cur` still pending in the current forEach pass. -/
def RelaxedX {K : Type} [LinearOrderedCommRing K] (m : NavMesh K) (gs : List (Nat × K))
    (done : List Nat) (cur : Nat) (pending : List (Nat × K)) : Prop :=
  ∀ v ∈ done, ∀ u c, Edge m v u c → (v = cur → (u, c) ∉ pending) →
    ∃ gv gu, aget gs v = some gv ∧ aget gs u = some gu ∧ gu ≤ gv + c

/-- Every settled vertex has all its outgoing edges relaxed. -/
def Relaxed {K : Type} [LinearOrderedCommRing K] (m : NavMesh K) (gs : List (Nat × K))
    (done : List Nat) : Prop :=
  ∀ v ∈ done, ∀ u c, Edge m v u c →
    ∃ gv gu, aget gs v = some gv ∧ aget gs u = some gu ∧ gu ≤ gv + c

theorem getLast_append_right {α : Type} (l₁ : List α) {l₂ : List α} (h : l₂ ≠ []) :
    (l₁ ++ l₂).getLast? = l₂.getLast? := by
  induction l₁ with
  | nil => rfl
  | cons a t ih =>
    show (a :: (t ++ l₂)).getLast? = l₂.getLast?
    have hne : t ++ l₂ ≠ [] := by
      intro hc
      exact h (List.append_eq_nil.mp hc).2
    cases he : t ++ l₂ with
    | nil => exact absurd he hne
    | cons b bs =>
      rw [List.getLast?_cons_cons, ← he, ih]

/-- When a vertex of minimal fScore is popped from the open set, its gScore
is a lower bound on the cost of every walk from the start to it (the
consistent-heuristic A* argument). -/
theorem popLB {K : Type} [LinearOrderedCommRing K] {em : ExtMath K} {m : NavMesh K}
    {endN : NavMeshNode K} {s : Nat}
    (hnn : ∀ u v c, Edge m u v c → 0 ≤ c)
    (hcons : ∀ u v c, Edge m u v c → hfun em m endN u ≤ c + hfun em m endN v)
    {st : AState K} {done : List Nat} {cur : Nat}
    (hA : ACore em m endN s st done) (hR : Relaxed m st.gScore done)
    (hcur : cur ∈ st.openSet)
    (hmin : ∀ v ∈ st.openSet, optLT (aget st.fScore v) (aget st.fScore cur) = false)
    {g : K} (hg : aget st.gScore cur = some g) :
    ∀ ids, walkOK m ids → ids.head? = some s → ids.getLast? = some cur →
      g ≤ walkCost m ids := by
  intro ids hok hh hl
  by_cases hall : ∀ x ∈ ids, x ∈ done
  · exfalso
    have hcm : cur ∈ ids := by
      rw [getLast_decomp hl]
      simp
    exact hA.doneOpen cur (hall cur hcm) hcur
  · push_neg at hall
    obtain ⟨pre, x, suf, hsplit, hpre, hx⟩ := first_not (P := fun y => y ∈ done) hall
    have hokx : walkOK m (pre ++ [x]) := walkOK_append_left (hsplit ▸ hok)
    have hkey : ∃ gx, aget st.gScore x = some gx ∧ x ∈ st.openSet ∧
        gx ≤ walkCost m (pre ++ [x]) := by
      cases pre with
      | nil =>
        have hxs : x = s := by
          rw [hsplit] at hh
          simpa using hh
        subst hxs
        refine ⟨0, hA.startG, ?_, le_of_eq rfl⟩
        rcases hA.gMem x (by rw [hA.startG]; rfl) with hd | ho
        · exact absurd hd hx
        · exact ho
      | cons p₀ pre₂ =>
        obtain ⟨w, hw, c, hedge⟩ := walk_adj hokx (by simp)
        have hwdone : w ∈ done := hpre w (by rw [getLast_decomp hw]; simp)
        obtain ⟨gw, gx, hgw, hgx, hslack⟩ := hR w hwdone x c hedge
        have hxopen : x ∈ st.openSet := by
          rcases hA.gMem x (by rw [hgx]; rfl) with hd | ho
          · exact absurd hd hx
          · exact ho
        have hwpre : walkOK m (p₀ :: pre₂) := by
          have hid : p₀ :: pre₂ = (p₀ :: pre₂).dropLast ++ [w] := getLast_decomp hw
          have : walkOK m (((p₀ :: pre₂).dropLast ++ [w]) ++ [x]) := by rw [← hid]; exact hokx
          rw [hid]
          exact walkOK_append_left (by
            rw [show (p₀ :: pre₂).dropLast ++ [w] ++ [x] =
              (p₀ :: pre₂).dropLast ++ w :: [x] by simp] at this
            exact this)
        have hhead : p₀ = s := by
          rw [hsplit] at hh
          simpa using hh
        have hLB := hA.doneLB w hwdone gw hgw (p₀ :: pre₂) hwpre
          (by rw [hhead]; rfl) hw
        have hcc : walkCost m ((p₀ :: pre₂) ++ [x]) = walkCost m (p₀ :: pre₂) + c :=
          walkCost_concat hw hedge
        exact ⟨gx, hgx, hxopen, by rw [hcc]; linarith⟩
    obtain ⟨gx, hgx, hxopen, hbound⟩ := hkey
    have hfx := hA.fVal x gx hgx
    have hfc := hA.fVal cur g hg
    have hm := hmin x hxopen
    rw [hfx, hfc] at hm
    have hle : g + hfun em m endN cur ≤ gx + hfun em m endN x := by
      have : ¬ (gx + hfun em m endN x < g + hfun em m endN cur) := by
        intro hlt
        rw [show optLT (some (gx + hfun em m endN x)) (some (g + hfun em m endN cur)) =
          decide (gx + hfun em m endN x < g + hfun em m endN cur) from rfl] at hm
        rw [decide_eq_true hlt] at hm
        cases hm
      linarith [not_lt.mp this]
    have hoksuf : walkOK m (x :: suf) := walkOK_append_right (hsplit ▸ hok)
    have hlsuf : (x :: suf).getLast? = some cur := by
      rw [hsplit] at hl
      rw [← hl, getLast_append_right pre (by simp)]
    have htel := walk_telescope hcons suf x cur hoksuf hlsuf
    have hcost : walkCost m ids = walkCost m (pre ++ [x]) + walkCost m (x :: suf) := by
      rw [hsplit]
      exact walkCost_append m pre x suf
    rw [hcost]
    linarith

theorem head_append_left {α : Type} {l : List α} (l₂ : List α) (h : l ≠ []) :
    (l ++ l₂).head? = l.head? := by
  cases l with
  | nil => exact absurd rfl h
  | cons a t => rfl

theorem edge_unique {K : Type} [LinearOrderedCommRing K] {m : NavMesh K} {u v : Nat}
    {c₁ c₂ : K} (h₁ : Edge m u v c₁) (h₂ : Edge m u v c₂) : c₁ = c₂ := by
  obtain ⟨n₁, hn₁, hc₁⟩ := h₁
  obtain ⟨n₂, hn₂, hc₂⟩ := h₂
  rw [hn₁] at hn₂
  cases Option.some_inj.mp hn₂
  rw [hc₁] at hc₂
  exact Option.some_inj.mp hc₂

/-- An improvement can never reach a settled vertex: its gScore is already a
lower bound on all walk costs, and the relaxing vertex witnesses a cheaper
walk. -/
theorem done_no_improve {K : Type} [LinearOrderedCommRing K] {em : ExtMath K}
    {m : NavMesh K} {endN : NavMeshNode K} {s : Nat} (wf : MeshWF m)
    {st : AState K} {done : List Nat}
    (hA : ACore em m endN s st done) {cur : Nat} (hcd : cur ∈ done)
    {nb : Nat} {c gc : K} (hedge : Edge m cur nb c)
    (hgc : aget st.gScore cur = some gc)
    (hnbd : nb ∈ done)
    (himp : optLT (some (gc + c)) (aget st.gScore nb) = true) : False := by
  obtain ⟨ids, hch, hnd⟩ := hA.chain cur (by rw [hgc]; rfl)
  obtain ⟨hwalk, hcost⟩ := chain_walk hch hA.startG hA.sKey wf hA.cfLink
  have hc := hcost gc hgc
  obtain ⟨gnb, hgnb⟩ := Option.isSome_iff_exists.mp (hA.doneG nb hnbd)
  rw [hgnb] at himp
  have hlt : gc + c < gnb := of_decide_eq_true himp
  have hW₂ : walkOK m (ids ++ [nb]) :=
    walkOK_concat hwalk (chain_last hch) hedge (edge_target_some wf hedge)
  have hLB := hA.doneLB nb hnbd gnb hgnb (ids ++ [nb]) hW₂
    (by rw [head_append_left _ (chain_ne_nil hch)]; exact chain_head hch)
    (by simp)
  have hcc : walkCost m (ids ++ [nb]) = walkCost m ids + c :=
    walkCost_concat (chain_last hch) hedge
  rw [hcc] at hLB
  linarith

/-- The state update performed by one improving relaxation. -/
def relaxStep {K : Type} [LinearOrderedCommRing K] (em : ExtMath K) (m : NavMesh K)
    (endPos : Vec3 K) (st : AState K) (cur nb : Nat) (gc c : K) : AState K :=
  { openSet := if st.openSet.contains nb then st.openSet else st.openSet ++ [nb],
    cameFrom := aset st.cameFrom nb cur,
    gScore := aset st.gScore nb (gc + c),
    fScore := aset st.fScore nb (gc + c + NavMesh.heuristic em (posOf m nb) endPos) }

/-- One improving relaxation preserves the A* invariant. -/
theorem relaxStep_ACore {K : Type} [LinearOrderedCommRing K] {em : ExtMath K}
    {m : NavMesh K} {endN : NavMeshNode K} {s : Nat} (wf : MeshWF m)
    (hnn : ∀ u v c, Edge m u v c → 0 ≤ c)
    {st : AState K} {done : List Nat} {cur nb : Nat} {c gc : K}
    (hA : ACore em m endN s st done) (hcd : cur ∈ done)
    (hedge : Edge m cur nb c)
    (hgc : aget st.gScore cur = some gc)
    (himp : optLT (some (gc + c)) (aget st.gScore nb) = true) :
    ACore em m endN s (relaxStep em m endN.position st cur nb gc c) done := by
  have hcnn : 0 ≤ c := hnn _ _ _ hedge
  have himp₂ : ∀ g₀, aget st.gScore nb = some g₀ → gc + c < g₀ := by
    intro g₀ h₀
    rw [h₀] at himp
    exact of_decide_eq_true himp
  have hnbd : nb ∉ done := fun hin => done_no_improve wf hA hcd hedge hgc hin himp
  have hnbcur : nb ≠ cur := by
    intro he
    have := himp₂ gc (he ▸ hgc)
    linarith
  have hnbs : nb ≠ s := by
    intro he
    have h₀ := himp₂ 0 (he ▸ hA.startG)
    have := hA.gNonneg cur gc hgc
    linarith
  have hmemo : ∀ v, v ∈ (relaxStep em m endN.position st cur nb gc c).openSet ↔
      v ∈ st.openSet ∨ v = nb := by
    intro v
    show v ∈ (if st.openSet.contains nb then st.openSet else st.openSet ++ [nb]) ↔ _
    by_cases hP : st.openSet.contains nb = true
    · rw [if_pos hP]
      constructor
      · exact fun h => Or.inl h
      · rintro (h | h)
        · exact h
        · exact h ▸ List.elem_iff.mp hP
    · rw [if_neg hP]
      constructor
      · intro h
        rcases List.mem_append.mp h with h₁ | h₂
        · exact Or.inl h₁
        · exact Or.inr (by simpa using h₂)
      · rintro (h | h)
        · exact List.mem_append.mpr (Or.inl h)
        · exact List.mem_append.mpr (Or.inr (by simp [h]))
  have hnbopen : nb ∉ st.openSet → st.openSet.contains nb = false := by
    intro h
    cases hP : st.openSet.contains nb
    · rfl
    · exact absurd (List.elem_iff.mp hP) h
  have hgnew : aget (relaxStep em m endN.position st cur nb gc c).gScore nb = some (gc + c) :=
    aget_aset_self _ _ _
  have hgold : ∀ v, v ≠ nb →
      aget (relaxStep em m endN.position st cur nb gc c).gScore v = aget st.gScore v :=
    fun v hv => aget_aset_ne _ _ _ _ hv
  have hchaincur : ∃ ids, Chain st.cameFrom s cur ids ∧ ids.Nodup ∧ nb ∉ ids := by
    obtain ⟨ids, hch, hnd⟩ := hA.chain cur (by rw [hgc]; rfl)
    refine ⟨ids, hch, hnd, ?_⟩
    intro hin
    obtain ⟨gx, hgx, hle⟩ := chain_gmono hnn hA.cfLink hch hgc nb hin
    have := himp₂ gx hgx
    linarith
  refine ⟨?_, ?_, hA.doneKeys, hA.doneNodup, ?_, ?_, hA.sKey, ?_, ?_, ?_, ?_, ?_, ?_, ?_, ?_, ?_⟩
  · -- openNodup
    show (if st.openSet.contains nb then st.openSet else st.openSet ++ [nb]).Nodup
    by_cases hP : st.openSet.contains nb = true
    · rw [if_pos hP]
      exact hA.openNodup
    · rw [if_neg hP]
      refine List.nodup_append.mpr ⟨hA.openNodup, by simp, ?_⟩
      intro a ha hb
      have hae : a = nb := by simpa using hb
      subst hae
      exact hP (List.elem_iff.mpr ha)
  · -- openKeys
    intro v hv
    rcases (hmemo v).mp hv with h | h
    · exact hA.openKeys v h
    · exact h ▸ edge_target_some wf hedge
  · -- doneOpen
    intro v hv hvo
    rcases (hmemo v).mp hvo with h | h
    · exact hA.doneOpen v hv h
    · exact hnbd (h ▸ hv)
  · -- startG
    show aget (aset st.gScore nb (gc + c)) s = some 0
    rw [aget_aset_ne _ _ _ _ (fun hc₂ => hnbs hc₂.symm)]
    exact hA.startG
  · -- openG
    intro v hv
    by_cases hvnb : v = nb
    · rw [hvnb, hgnew]
      rfl
    · rw [hgold v hvnb]
      rcases (hmemo v).mp hv with h | h
      · exact hA.openG v h
      · exact absurd h hvnb
  · -- gMem
    intro v hv
    by_cases hvnb : v = nb
    · exact Or.inr ((hmemo v).mpr (Or.inr hvnb))
    · rw [hgold v hvnb] at hv
      rcases hA.gMem v hv with h | h
      · exact Or.inl h
      · exact Or.inr ((hmemo v).mpr (Or.inl h))
  · -- gNonneg
    intro v g hg
    by_cases hvnb : v = nb
    · rw [hvnb, hgnew] at hg
      cases hg
      have := hA.gNonneg cur gc hgc
      linarith
    · rw [hgold v hvnb] at hg
      exact hA.gNonneg v g hg
  · -- fVal
    intro v g hg
    by_cases hvnb : v = nb
    · subst hvnb
      rw [hgnew] at hg
      cases hg
      show aget (aset st.fScore v (gc + c + NavMesh.heuristic em (posOf m v) endN.position))
        v = _
      rw [aget_aset_self]
      rfl
    · rw [hgold v hvnb] at hg
      show aget (aset st.fScore nb (gc + c + NavMesh.heuristic em (posOf m nb) endN.position))
        v = _
      rw [aget_aset_ne _ _ _ _ hvnb]
      exact hA.fVal v g hg
  · -- cfStart
    show aget (aset st.cameFrom nb cur) s = none
    rw [aget_aset_ne _ _ _ _ (fun hc₂ => hnbs hc₂.symm)]
    exact hA.cfStart
  · -- cfLink
    intro v u hvu
    by_cases hvnb : v = nb
    · rw [show aget (relaxStep em m endN.position st cur nb gc c).cameFrom v =
        aget (aset st.cameFrom nb cur) v from rfl, hvnb, aget_aset_self] at hvu
      have hucur : u = cur := (Option.some_inj.mp hvu).symm
      exact ⟨c, gc, gc + c, by rw [hucur, hvnb]; exact hedge,
        by rw [hucur, hgold cur hnbcur.symm]; exact hgc,
        by rw [hvnb]; exact hgnew, le_refl _⟩
    · rw [show aget (relaxStep em m endN.position st cur nb gc c).cameFrom v =
        aget (aset st.cameFrom nb cur) v from rfl, aget_aset_ne _ _ _ _ hvnb] at hvu
      obtain ⟨c₀, gu₀, gv₀, he₀, hgu₀, hgv₀, hs₀⟩ := hA.cfLink v u hvu
      by_cases hunb : u = nb
      · subst hunb
        have hlt := himp₂ gu₀ hgu₀
        exact ⟨c₀, gc + c, gv₀, he₀, hgnew, by rw [hgold v hvnb]; exact hgv₀, by linarith⟩
      · exact ⟨c₀, gu₀, gv₀, he₀, by rw [hgold u hunb]; exact hgu₀,
          by rw [hgold v hvnb]; exact hgv₀, hs₀⟩
  · -- chain
    intro v hv
    obtain ⟨idc, hchc, hndc, hnbc⟩ := hchaincur
    have hcfc : ∀ x, x ≠ nb →
        aget (relaxStep em m endN.position st cur nb gc c).cameFrom x = aget st.cameFrom x :=
      fun x hx => aget_aset_ne _ _ _ _ hx
    have hchc₂ : Chain (relaxStep em m endN.position st cur nb gc c).cameFrom s cur idc :=
      chain_congr_links hchc (fun x hx => hcfc x (fun he => hnbc (he ▸ hx)))
    have hcfnb : aget (relaxStep em m endN.position st cur nb gc c).cameFrom nb = some cur :=
      aget_aset_self _ _ _
    have hchainnb : Chain (relaxStep em m endN.position st cur nb gc c).cameFrom s nb
        (idc ++ [nb]) ∧ (idc ++ [nb]).Nodup := by
      refine ⟨Chain.step hcfnb hchc₂, ?_⟩
      exact List.nodup_append.mpr ⟨hndc, by simp, by
        intro a ha hb
        have : a = nb := by simpa using hb
        exact hnbc (this ▸ ha)⟩
    by_cases hvnb : v = nb
    · rw [hvnb]
      exact ⟨idc ++ [nb], hchainnb.1, hchainnb.2⟩
    · rw [hgold v hvnb] at hv
      obtain ⟨idv, hchv, hndv⟩ := hA.chain v hv
      by_cases hnbv : nb ∈ idv
      · -- rebuild the chain through the improved vertex
        obtain ⟨gv₀, hgv₀⟩ := Option.isSome_iff_exists.mp hv
        obtain ⟨gnb₀, hgnb₀, hnble⟩ := chain_gmono hnn hA.cfLink hchv hgv₀ nb hnbv
        have hltnb := himp₂ gnb₀ hgnb₀
        obtain ⟨pre, suf, hidv, hchpre, hls⟩ := chain_decompose hchv hnbv
        have hnbsuf : nb ∉ suf := by
          have := hidv ▸ hndv
          have h₂ := (List.nodup_append.mp this).2.1
          exact (List.nodup_cons.mp h₂).1
        have hsufnd : suf.Nodup := by
          have := hidv ▸ hndv
          have h₂ := (List.nodup_append.mp this).2.1
          exact (List.nodup_cons.mp h₂).2
        have hls₂ : LinkSeq (relaxStep em m endN.position st cur nb gc c).cameFrom nb suf v :=
          linkseq_congr hls (fun x hx => hcfc x (fun he => hnbsuf (he ▸ hx)))
        refine ⟨(idc ++ [nb]) ++ suf, chain_glue hchainnb.1 hls₂, ?_⟩
        refine List.nodup_append.mpr ⟨hchainnb.2, hsufnd, ?_⟩
        intro a ha hb
        rcases List.mem_append.mp ha with h₁ | h₂
        · obtain ⟨ga, hga, hgale⟩ := chain_gmono hnn hA.cfLink hchc hgc a h₁
          obtain ⟨gb, hgb, hnbgb⟩ := linkseq_gmono hnn hA.cfLink hls hgnb₀ a hb
          rw [hga] at hgb
          cases Option.some_inj.mp hgb
          linarith
        · have : a = nb := by simpa using h₂
          exact hnbsuf (this ▸ hb)
      · exact ⟨idv, chain_congr_links hchv
          (fun x hx => hcfc x (fun he => hnbv (he ▸ hx))), hndv⟩
  · -- doneLB
    intro v hv g hg
    have hvnb : v ≠ nb := fun he => hnbd (he ▸ hv)
    rw [hgold v hvnb] at hg
    exact hA.doneLB v hv g hg
  · -- doneG
    intro v hv
    have hvnb : v ≠ nb := fun he => hnbd (he ▸ hv)
    rw [hgold v hvnb]
    exact hA.doneG v hv

/-- The whole relaxation pass over the popped vertex's connection list
preserves the invariant and fully relaxes the settled set. -/
theorem relax_preserve {K : Type} [LinearOrderedCommRing K] {em : ExtMath K}
    {m : NavMesh K} {endN : NavMeshNode K} {s : Nat} (wf : MeshWF m)
    (hnn : ∀ u v c, Edge m u v c → 0 ≤ c) :
    ∀ (conns : List (Nat × K)) (st : AState K) (done : List Nat) (cur : Nat),
      ACore em m endN s st done →
      RelaxedX m st.gScore done cur conns →
      cur ∈ done →
      (∀ p ∈ conns, Edge m cur p.1 p.2) →
      ACore em m endN s (relaxAll em m endN.position cur conns st) done ∧
      Relaxed m (relaxAll em m endN.position cur conns st).gScore done := by
  intro conns
  induction conns with
  | nil =>
    intro st done cur hA hRX hcd _
    refine ⟨hA, ?_⟩
    intro v hv u c he
    exact hRX v hv u c he (fun _ => List.not_mem_nil _)
  | cons hd t ih =>
    intro st done cur hA hRX hcd hedges
    obtain ⟨nb, c⟩ := hd
    have hedge : Edge m cur nb c := hedges (nb, c) (List.mem_cons_self _ _)
    rcases hgcv : aget st.gScore cur with _ | gc
    · exfalso
      have hds := hA.doneG cur hcd
      rw [hgcv] at hds
      simp at hds
    · by_cases himp : optLT (some (gc + c)) (aget st.gScore nb) = true
      · have himp₂ : ∀ g₀, aget st.gScore nb = some g₀ → gc + c < g₀ := by
          intro g₀ h₀
          rw [h₀] at himp
          exact of_decide_eq_true himp
        have heq : relaxAll em m endN.position cur ((nb, c) :: t) st =
            relaxAll em m endN.position cur t
              (relaxStep em m endN.position st cur nb gc c) := by
          show (match aget st.gScore cur with
            | none => relaxAll em m endN.position cur t st
            | some gc =>
              if optLT (some (gc + c)) (aget st.gScore nb) then
                relaxAll em m endN.position cur t
                  { openSet := if st.openSet.contains nb then st.openSet
                      else st.openSet ++ [nb],
                    cameFrom := aset st.cameFrom nb cur,
                    gScore := aset st.gScore nb (gc + c),
                    fScore := aset st.fScore nb
                      (gc + c + NavMesh.heuristic em (posOf m nb) endN.position) }
              else relaxAll em m endN.position cur t st) = _
          rw [hgcv]
          show (if optLT (some (gc + c)) (aget st.gScore nb) then
              relaxAll em m endN.position cur t
                (relaxStep em m endN.position st cur nb gc c)
            else relaxAll em m endN.position cur t st) = _
          rw [if_pos himp]
        rw [heq]
        have hA₂ := relaxStep_ACore wf hnn hA hcd hedge hgcv himp
        have hnbd : nb ∉ done := fun hin => done_no_improve wf hA hcd hedge hgcv hin himp
        have hnbcur : nb ≠ cur := by
          intro he
          have hlt := himp₂ gc (he ▸ hgcv)
          have := hnn _ _ _ hedge
          linarith
        have hgold : ∀ x, x ≠ nb →
            aget (relaxStep em m endN.position st cur nb gc c).gScore x = aget st.gScore x :=
          fun x hx => aget_aset_ne _ _ _ _ hx
        have hRX₂ : RelaxedX m (relaxStep em m endN.position st cur nb gc c).gScore
            done cur t := by
          intro v hv u c₀ he₀ hcond
          have hvnb : v ≠ nb := fun he => hnbd (he ▸ hv)
          by_cases hu : v = cur ∧ u = nb
          · obtain ⟨hvc, hun⟩ := hu
            rw [hvc, hun] at he₀
            have hc₀ : c₀ = c := edge_unique he₀ hedge
            refine ⟨gc, gc + c, ?_, ?_, ?_⟩
            · rw [hvc, hgold cur hnbcur.symm]
              exact hgcv
            · rw [hun]
              exact aget_aset_self _ _ _
            · rw [hc₀]
          · have hcond₂ : v = cur → (u, c₀) ∉ (nb, c) :: t := by
              intro hvc hmem
              have hune : u ≠ nb := fun hun => hu ⟨hvc, hun⟩
              rcases List.mem_cons.mp hmem with hh | hh
              · exact hune (congrArg Prod.fst hh)
              · exact hcond hvc hh
            obtain ⟨gv₀, gu₀, hgv₀, hgu₀, hs₀⟩ := hRX v hv u c₀ he₀ hcond₂
            by_cases hun : u = nb
            · have hlt := himp₂ gu₀ (hun ▸ hgu₀)
              exact ⟨gv₀, gc + c, by rw [hgold v hvnb]; exact hgv₀,
                by rw [hun]; exact aget_aset_self _ _ _, by linarith⟩
            · exact ⟨gv₀, gu₀, by rw [hgold v hvnb]; exact hgv₀,
                by rw [hgold u hun]; exact hgu₀, hs₀⟩
        exact ih (relaxStep em m endN.position st cur nb gc c) done cur hA₂ hRX₂ hcd
          (fun p hp => hedges p (List.mem_cons_of_mem _ hp))
      · have heq : relaxAll em m endN.position cur ((nb, c) :: t) st =
            relaxAll em m endN.position cur t st := by
          show (match aget st.gScore cur with
            | none => relaxAll em m endN.position cur t st
            | some gc =>
              if optLT (some (gc + c)) (aget st.gScore nb) then
                relaxAll em m endN.position cur t
                  { openSet := if st.openSet.contains nb then st.openSet
                      else st.openSet ++ [nb],
                    cameFrom := aset st.cameFrom nb cur,
                    gScore := aset st.gScore nb (gc + c),
                    fScore := aset st.fScore nb
                      (gc + c + NavMesh.heuristic em (posOf m nb) endN.position) }
              else relaxAll em m endN.position cur t st) = _
          rw [hgcv]
          show (if optLT (some (gc + c)) (aget st.gScore nb) then
              relaxAll em m endN.position cur t
                (relaxStep em m endN.position st cur nb gc c)
            else relaxAll em m endN.position cur t st) = _
          rw [if_neg himp]
        rw [heq]
        have hRX₂ : RelaxedX m st.gScore done cur t := by
          intro v hv u c₀ he₀ hcond
          by_cases hu : v = cur ∧ u = nb
          · obtain ⟨hvc, hun⟩ := hu
            rw [hvc, hun] at he₀
            have hc₀ : c₀ = c := edge_unique he₀ hedge
            rcases hnb : aget st.gScore nb with _ | gnb
            · exfalso
              apply himp
              rw [hnb]
              rfl
            · have hle : gnb ≤ gc + c := by
                by_contra hgt
                apply himp
                rw [hnb]
                exact decide_eq_true (by linarith)
              exact ⟨gc, gnb, by rw [hvc]; exact hgcv, by rw [hun]; exact hnb,
                by rw [hc₀]; linarith⟩
          · have hcond₂ : v = cur → (u, c₀) ∉ (nb, c) :: t := by
              intro hvc hmem
              have hune : u ≠ nb := fun hun => hu ⟨hvc, hun⟩
              rcases List.mem_cons.mp hmem with hh | hh
              · exact hune (congrArg Prod.fst hh)
              · exact hcond hvc hh
            exact hRX v hv u c₀ he₀ hcond₂
        exact ih st done cur hA hRX₂ hcd (fun p hp => hedges p (List.mem_cons_of_mem _ hp))

/-- Correctness of the bounded A* loop: with the invariant holding and
enough fuel, it returns a minimal-cost walk to the goal node (as positions),
or the empty list exactly when no walk exists. -/
theorem astar_correct {K : Type} [LinearOrderedCommRing K] {em : ExtMath K} {m : NavMesh K}
    {endN : NavMeshNode K} {s : Nat} (wf : MeshWF m)
    (hnn : ∀ u v c, Edge m u v c → 0 ≤ c)
    (hcons : ∀ u v c, Edge m u v c → hfun em m endN u ≤ c + hfun em m endN v) :
    ∀ (fuel : Nat) (st : AState K) (done : List Nat),
      ACore em m endN s st done →
      Relaxed m st.gScore done →
      endN.id ∉ done →
      m.nodes.length + 1 ≤ fuel + done.length →
      (∃ ids, walkOK m ids ∧ ids.head? = some s ∧ ids.getLast? = some endN.id ∧
        astarLoop em m endN fuel st = ids.map (posOf m) ∧
        ∀ ids₂, walkOK m ids₂ → ids₂.head? = some s → ids₂.getLast? = some endN.id →
          walkCost m ids ≤ walkCost m ids₂)
      ∨ (astarLoop em m endN fuel st = [] ∧
        ¬ ∃ ids₂, walkOK m ids₂ ∧ ids₂.head? = some s ∧ ids₂.getLast? = some endN.id) := by
  intro fuel
  induction fuel with
  | zero =>
    intro st done hA hR hend hfuel
    exfalso
    have hdl : done.length ≤ m.nodes.length := by
      have := nodup_subset_length hA.doneNodup
        (fun x hx => aget_mem_keys (hA.doneKeys x hx))
      simpa using this
    omega
  | succ fuel ih =>
    intro st done hA hR hend hfuel
    obtain ⟨os, cf, gs, fs⟩ := st
    cases os with
    | nil =>
      right
      refine ⟨rfl, ?_⟩
      rintro ⟨ids, hok, hh, hl⟩
      have hsdone : s ∈ done := by
        rcases hA.gMem s (by rw [hA.startG]; rfl) with h | h
        · exact h
        · exact absurd h (List.not_mem_nil _)
      have hendmem : endN.id ∈ ids := by
        rw [getLast_decomp hl]
        simp
      obtain ⟨pre, x, suf, hsplit, hpre, hx⟩ := first_not (P := fun y => y ∈ done)
        ⟨endN.id, hendmem, hend⟩
      cases pre with
      | nil =>
        have hxs : x = s := by
          rw [hsplit] at hh
          simpa using hh
        exact hx (hxs ▸ hsdone)
      | cons p₀ pre₂ =>
        obtain ⟨w, hw, c, hedge⟩ := walk_adj (walkOK_append_left (hsplit ▸ hok)) (by simp)
        have hwdone : w ∈ done := hpre w (by rw [getLast_decomp hw]; simp)
        obtain ⟨gw, gx, hgw, hgx, hsl⟩ := hR w hwdone x c hedge
        rcases hA.gMem x (by rw [hgx]; rfl) with h | h
        · exact hx h
        · exact absurd h (List.not_mem_nil _)
    | cons o₀ rest =>
      obtain ⟨hcmem, hcmin⟩ := scanMin_spec fs rest o₀
      set cur := scanMin fs rest o₀ (aget fs o₀) with hcur
      have hcopen : cur ∈ (⟨o₀ :: rest, cf, gs, fs⟩ : AState K).openSet := hcmem
      have hminf : ∀ v ∈ (⟨o₀ :: rest, cf, gs, fs⟩ : AState K).openSet,
          optLT (aget fs v) (aget fs cur) = false := hcmin
      obtain ⟨g, hg⟩ := Option.isSome_iff_exists.mp (hA.openG cur hcopen)
      have hpop := popLB hnn hcons hA hR hcopen hminf hg
      by_cases hce : cur = endN.id
      · left
        obtain ⟨ids, hch, hnd⟩ := hA.chain cur (by rw [hg]; rfl)
        obtain ⟨hwalk, hcost⟩ := chain_walk hch hA.startG hA.sKey wf hA.cfLink
        have hcb := hcost g hg
        refine ⟨ids, hwalk, chain_head hch, by rw [← hce]; exact chain_last hch, ?_, ?_⟩
        · have hrec := reconstruct_of_chain m hA.cfStart hch (cf.length + 1)
            (le_trans (chain_length_le hch hnd) (by
              show cf.length + 1 ≤ cf.length + 1 + 1
              omega))
          show (if cur = endN.id then reconstructPath m cf (cf.length + 1) cur
            else astarLoop em m endN fuel (relaxAll em m endN.position cur
              ((aget m.nodes cur).getD defaultNode).connections
              ⟨(o₀ :: rest).erase cur, cf, gs, fs⟩)) = ids.map (posOf m)
          rw [if_pos hce]
          exact hrec
        · intro ids₂ hok₂ hh₂ hl₂
          have hb := hpop ids₂ hok₂ hh₂ (by rw [hce]; exact hl₂)
          linarith
      · have hcurdone : cur ∉ done := fun hin => hA.doneOpen cur hin hcopen
        obtain ⟨nd, hnode⟩ := Option.isSome_iff_exists.mp (hA.openKeys cur hcopen)
        have hedges : ∀ p ∈ ((aget m.nodes cur).getD defaultNode).connections,
            Edge m cur p.1 p.2 := by
          intro p hp
          obtain ⟨u, c⟩ := p
          rw [hnode] at hp
          exact ⟨nd, hnode, aget_eq_of_mem_nodup
            (wf.connNodup (cur, nd) (aget_mem hnode)) hp⟩
        have hA₂ : ACore em m endN s (⟨(o₀ :: rest).erase cur, cf, gs, fs⟩ : AState K)
            (done ++ [cur]) := by
          refine ⟨hA.openNodup.erase cur, ?_, ?_, ?_, ?_, hA.startG, hA.sKey, ?_, ?_,
            hA.gNonneg, hA.fVal, hA.cfStart, hA.cfLink, hA.chain, ?_, ?_⟩
          · intro v hv
            exact hA.openKeys v (List.mem_of_mem_erase hv)
          · intro v hv
            rcases List.mem_append.mp hv with h | h
            · exact hA.doneKeys v h
            · have : v = cur := by simpa using h
              exact this ▸ hA.openKeys cur hcopen
          · refine List.nodup_append.mpr ⟨hA.doneNodup, by simp, ?_⟩
            intro a ha hb
            have : a = cur := by simpa using hb
            exact hcurdone (this ▸ ha)
          · intro v hv hvo
            rcases List.mem_append.mp hv with h | h
            · exact hA.doneOpen v h (List.mem_of_mem_erase hvo)
            · have he : v = cur := by simpa using h
              rw [he] at hvo
              exact hA.openNodup.not_mem_erase hvo
          · intro v hv
            exact hA.openG v (List.mem_of_mem_erase hv)
          · intro v hv
            rcases hA.gMem v hv with h | h
            · exact Or.inl (List.mem_append.mpr (Or.inl h))
            · by_cases hvc : v = cur
              · exact Or.inl (List.mem_append.mpr (Or.inr (by simp [hvc])))
              · exact Or.inr ((List.mem_erase_of_ne hvc).mpr h)
          · intro v hv g₀ hg₀
            rcases List.mem_append.mp hv with h | h
            · exact hA.doneLB v h g₀ hg₀
            · have he : v = cur := by simpa using h
              subst he
              rw [hg] at hg₀
              cases hg₀
              exact hpop
          · intro v hv
            rcases List.mem_append.mp hv with h | h
            · exact hA.doneG v h
            · have he : v = cur := by simpa using h
              rw [he, hg]
              rfl
        have hRX₂ : RelaxedX m gs (done ++ [cur]) cur
            ((aget m.nodes cur).getD defaultNode).connections := by
          intro v hv u c he₀ hcond
          rcases List.mem_append.mp hv with h | h
          · exact hR v h u c he₀
          · have hvc : v = cur := by simpa using h
            exfalso
            apply hcond hvc
            obtain ⟨n₂, hn₂, hc₂⟩ := he₀
            rw [hvc] at hn₂
            rw [hnode] at hn₂
            cases Option.some_inj.mp hn₂
            rw [hnode]
            exact aget_mem hc₂
        obtain ⟨hA₃, hR₃⟩ := relax_preserve wf hnn
          ((aget m.nodes cur).getD defaultNode).connections
          (⟨(o₀ :: rest).erase cur, cf, gs, fs⟩ : AState K) (done ++ [cur]) cur
          hA₂ hRX₂ (List.mem_append.mpr (Or.inr (List.mem_singleton_self cur))) hedges
        have hend₂ : endN.id ∉ done ++ [cur] := by
          intro hin
          rcases List.mem_append.mp hin with h | h
          · exact hend h
          · have he : endN.id = cur := by simpa using h
            exact hce he.symm
        have hfuel₂ : m.nodes.length + 1 ≤ fuel + (done ++ [cur]).length := by
          rw [List.length_append]
          simp only [List.length_cons, List.length_nil]
          omega
        have hstep : astarLoop em m endN (fuel + 1) (⟨o₀ :: rest, cf, gs, fs⟩ : AState K) =
            astarLoop em m endN fuel (relaxAll em m endN.position cur
              ((aget m.nodes cur).getD defaultNode).connections
              ⟨(o₀ :: rest).erase cur, cf, gs, fs⟩) := by
          show (if cur = endN.id then reconstructPath m cf (cf.length + 1) cur
            else astarLoop em m endN fuel (relaxAll em m endN.position cur
              ((aget m.nodes cur).getD defaultNode).connections
              ⟨(o₀ :: rest).erase cur, cf, gs, fs⟩)) = _
          rw [if_neg hce]
        rw [hstep]
        exact ih (relaxAll em m endN.position cur
          ((aget m.nodes cur).getD defaultNode).connections
          ⟨(o₀ :: rest).erase cur, cf, gs, fs⟩) (done ++ [cur]) hA₃ hR₃ hend₂ hfuel₂

/-- The accumulator step of `getClosestNode`, named for the fold lemmas. -/
def closestFold {K : Type} [LinearOrderedCommRing K] (em : ExtMath K) (p : Vec3 K)
    (acc : Option (NavMeshNode K × K)) (e : Nat × NavMeshNode K) :
    Option (NavMeshNode K × K) :=
  let d := em.sqrt (sqDist e.2.position p)
  match acc with
  | none => some (e.2, d)
  | some (_, bd) => if d < bd then some (e.2, d) else acc

theorem getClosest_eq {K : Type} [LinearOrderedCommRing K] (em : ExtMath K)
    (m : NavMesh K) (p : Vec3 K) :
    NavMesh.getClosestNode em m p = (m.nodes.foldl (closestFold em p) none).map Prod.fst := by
  unfold NavMesh.getClosestNode
  congr 1


theorem closest_fold_spec {K : Type} [LinearOrderedCommRing K] (em : ExtMath K) (p : Vec3 K) :
    ∀ (l : List (Nat × NavMeshNode K)) (acc : Option (NavMeshNode K × K)),
      (∀ pr, acc = some pr → pr.2 = em.sqrt (sqDist pr.1.position p)) →
      (l.foldl (closestFold em p) acc = none → acc = none ∧ l = []) ∧
      (∀ pr, l.foldl (closestFold em p) acc = some pr →
        pr.2 = em.sqrt (sqDist pr.1.position p) ∧
        (acc = some pr ∨ pr.1 ∈ l.map Prod.snd) ∧
        (∀ q ∈ l, pr.2 ≤ em.sqrt (sqDist q.2.position p)) ∧
        (∀ pr₀, acc = some pr₀ → pr.2 ≤ pr₀.2)) := by
  intro l
  induction l with
  | nil =>
    intro acc hacc
    refine ⟨fun h => ⟨h, rfl⟩, ?_⟩
    intro pr hpr
    refine ⟨hacc pr hpr, Or.inl hpr, by simp, ?_⟩
    intro pr₀ h₀
    have hpr₂ : acc = some pr := hpr
    rw [hpr₂] at h₀
    exact le_of_eq (congrArg Prod.snd (Option.some_inj.mp h₀))
  | cons e t ih =>
    intro acc hacc
    have hstep : (e :: t).foldl (closestFold em p) acc =
        t.foldl (closestFold em p) (closestFold em p acc e) := rfl
    have hacc₂ : ∀ pr, closestFold em p acc e = some pr →
        pr.2 = em.sqrt (sqDist pr.1.position p) := by
      intro pr hpr
      rcases acc with _ | ⟨n₀, bd⟩
      · have h₀ : some (e.2, em.sqrt (sqDist e.2.position p)) = some pr := hpr
        cases Option.some_inj.mp h₀
        rfl
      · have h₀ : (if em.sqrt (sqDist e.2.position p) < bd
            then some (e.2, em.sqrt (sqDist e.2.position p))
            else some (n₀, bd)) = some pr := hpr
        by_cases hlt : em.sqrt (sqDist e.2.position p) < bd
        · rw [if_pos hlt] at h₀
          cases Option.some_inj.mp h₀
          rfl
        · rw [if_neg hlt] at h₀
          cases Option.some_inj.mp h₀
          exact hacc (n₀, bd) rfl
    obtain ⟨ihn, ihs⟩ := ih (closestFold em p acc e) hacc₂
    refine ⟨?_, ?_⟩
    · intro h
      rw [hstep] at h
      obtain ⟨h₂, _⟩ := ihn h
      exfalso
      rcases acc with _ | ⟨n₀, bd⟩
      · have h₃ : some (e.2, em.sqrt (sqDist e.2.position p)) = none := h₂
        cases h₃
      · have h₃ : (if em.sqrt (sqDist e.2.position p) < bd
            then some (e.2, em.sqrt (sqDist e.2.position p))
            else some (n₀, bd)) = none := h₂
        by_cases hlt : em.sqrt (sqDist e.2.position p) < bd
        · rw [if_pos hlt] at h₃
          cases h₃
        · rw [if_neg hlt] at h₃
          cases h₃
    · intro pr hpr
      rw [hstep] at hpr
      obtain ⟨heq, hmem, hmin, hmono⟩ := ihs pr hpr
      refine ⟨heq, ?_, ?_, ?_⟩
      · rcases hmem with hm | hm
        · rcases acc with _ | ⟨n₀, bd⟩
          · have h₀ : some (e.2, em.sqrt (sqDist e.2.position p)) = some pr := hm
            cases Option.some_inj.mp h₀
            exact Or.inr (by simp)
          · have h₀ : (if em.sqrt (sqDist e.2.position p) < bd
                then some (e.2, em.sqrt (sqDist e.2.position p))
                else some (n₀, bd)) = some pr := hm
            by_cases hlt : em.sqrt (sqDist e.2.position p) < bd
            · rw [if_pos hlt] at h₀
              cases Option.some_inj.mp h₀
              exact Or.inr (by simp)
            · rw [if_neg hlt] at h₀
              exact Or.inl h₀
        · exact Or.inr (by
            simp only [List.map_cons]
            exact List.mem_cons_of_mem _ hm)
      · intro q hq
        rcases List.mem_cons.mp hq with hqe | hqt
        · subst hqe
          rcases acc with _ | ⟨n₀, bd⟩
          · exact hmono (q.2, em.sqrt (sqDist q.2.position p)) rfl
          · by_cases hlt : em.sqrt (sqDist q.2.position p) < bd
            · exact hmono (q.2, em.sqrt (sqDist q.2.position p)) (by
                show (if em.sqrt (sqDist q.2.position p) < bd
                  then some (q.2, em.sqrt (sqDist q.2.position p))
                  else some (n₀, bd)) = _
                rw [if_pos hlt])
            · have h₁ := hmono (n₀, bd) (by
                show (if em.sqrt (sqDist q.2.position p) < bd
                  then some (q.2, em.sqrt (sqDist q.2.position p))
                  else some (n₀, bd)) = _
                rw [if_neg hlt])
              have h₂ : bd ≤ em.sqrt (sqDist q.2.position p) := not_lt.mp hlt
              exact le_trans h₁ h₂
        · exact hmin q hqt
      · intro pr₀ h₀
        rcases acc with _ | ⟨n₀, bd⟩
        · cases h₀
        · have hpr₀ : pr₀ = (n₀, bd) := (Option.some_inj.mp h₀).symm
          subst hpr₀
          by_cases hlt : em.sqrt (sqDist e.2.position p) < bd
          · have h₁ := hmono (e.2, em.sqrt (sqDist e.2.position p)) (by
              show (if em.sqrt (sqDist e.2.position p) < bd
                then some (e.2, em.sqrt (sqDist e.2.position p))
                else some (n₀, bd)) = _
              rw [if_pos hlt])
            exact le_of_lt (lt_of_le_of_lt h₁ hlt)
          · exact hmono (n₀, bd) (by
              show (if em.sqrt (sqDist e.2.position p) < bd
                then some (e.2, em.sqrt (sqDist e.2.position p))
                else some (n₀, bd)) = _
              rw [if_neg hlt])

theorem getClosestNode_none {K : Type} [LinearOrderedCommRing K] (em : ExtMath K)
    (m : NavMesh K) (p : Vec3 K) (h : m.nodes = []) :
    NavMesh.getClosestNode em m p = none := by
  rw [getClosest_eq, h]
  rfl

theorem getClosestNode_some {K : Type} [LinearOrderedCommRing K] (em : ExtMath K)
    (m : NavMesh K) (p : Vec3 K) (h : m.nodes ≠ []) :
    ∃ n, NavMesh.getClosestNode em m p = some n := by
  rw [getClosest_eq]
  obtain ⟨hn, _⟩ := closest_fold_spec em p m.nodes none (fun pr hpr => by cases hpr)
  rcases hf : m.nodes.foldl (closestFold em p) none with _ | pr
  · exact absurd (hn hf).2 h
  · exact ⟨pr.1, rfl⟩

/-- `getClosestNode` returns a registered node whose distance to the query
point is minimal among all nodes. -/
theorem getClosestNode_spec {K : Type} [LinearOrderedCommRing K] (em : ExtMath K)
    (m : NavMesh K) (p : Vec3 K) (wf : MeshWF m) :
    ∀ n, NavMesh.getClosestNode em m p = some n →
      aget m.nodes n.id = some n ∧
      ∀ q ∈ m.nodes, em.sqrt (sqDist n.position p) ≤ em.sqrt (sqDist q.2.position p) := by
  intro n hn
  rw [getClosest_eq] at hn
  obtain ⟨pr, hf, hfst⟩ := Option.map_eq_some'.mp hn
  obtain ⟨_, hs⟩ := closest_fold_spec em p m.nodes none (fun pr hpr => by cases hpr)
  obtain ⟨heq, hmem, hmin, _⟩ := hs pr hf
  rcases hmem with hm | hm
  · cases hm
  · obtain ⟨q, hq, hq₂⟩ := List.mem_map.mp hm
    have hkeyed := wf.keyed q hq
    have hqn : q = (n.id, n) := by
      rcases q with ⟨k, nd⟩
      have h₁ : nd = n := by rw [← hfst, ← hq₂]
      subst h₁
      have hkeyed₂ : nd.id = k := hkeyed
      rw [hkeyed₂]
    constructor
    · exact aget_eq_of_mem_nodup wf.nodup (hqn ▸ hq)
    · intro q₂ hq₂₂
      have hb := hmin q₂ hq₂₂
      rw [heq, hfst] at hb
      exact hb

theorem aget_single {K : Type} {β : Type} [DecidableEq K] (k v : K) (x : β) :
    aget [(k, x)] v = if k = v then some x else none := rfl

/-- The full `findPath` run: with both endpoints resolved, either a minimal
walk is returned as positions, or the empty list exactly when no walk
connects the two resolved nodes. -/
theorem findPath_correct {K : Type} [LinearOrderedCommRing K] {em : ExtMath K}
    {m : NavMesh K} {sp ep : Vec3 K} {sn en : NavMeshNode K} (wf : MeshWF m)
    (hsn : NavMesh.getClosestNode em m sp = some sn)
    (hen : NavMesh.getClosestNode em m ep = some en)
    (hnn : ∀ u v c, Edge m u v c → 0 ≤ c)
    (hcons : ∀ u v c, Edge m u v c → hfun em m en u ≤ c + hfun em m en v) :
    (∃ ids, walkOK m ids ∧ ids.head? = some sn.id ∧ ids.getLast? = some en.id ∧
      NavMesh.findPath em m sp ep = ids.map (posOf m) ∧
      ∀ ids₂, walkOK m ids₂ → ids₂.head? = some sn.id → ids₂.getLast? = some en.id →
        walkCost m ids ≤ walkCost m ids₂)
    ∨ (NavMesh.findPath em m sp ep = [] ∧
      ¬ ∃ ids₂, walkOK m ids₂ ∧ ids₂.head? = some sn.id ∧ ids₂.getLast? = some en.id) := by
  obtain ⟨hsget, hsmin⟩ := getClosestNode_spec em m sp wf sn hsn
  have hspos : posOf m sn.id = sn.position := by
    rw [posOf, hsget]
    rfl
  have hskey : (aget m.nodes sn.id).isSome := by
    rw [hsget]
    rfl
  have heq : NavMesh.findPath em m sp ep =
      astarLoop em m en (m.nodes.length + 1)
        ⟨[sn.id], [], [(sn.id, 0)],
         [(sn.id, NavMesh.heuristic em sn.position en.position)]⟩ := by
    unfold NavMesh.findPath
    rw [hsn, hen]
  have hA₀ : ACore em m en sn.id
      (⟨[sn.id], [], [(sn.id, 0)],
        [(sn.id, NavMesh.heuristic em sn.position en.position)]⟩ : AState K) [] := by
    refine ⟨by simp, ?_, by simp, by simp, by simp, ?_, hskey, ?_, ?_, ?_, ?_, ?_, ?_, ?_,
      by simp, by simp⟩
    · intro v hv
      have hv₂ : v = sn.id := by simpa using hv
      rw [hv₂]
      exact hskey
    · rw [aget_single, if_pos rfl]
    · intro v hv
      have hv₂ : v = sn.id := by simpa using hv
      rw [hv₂, aget_single, if_pos rfl]
      rfl
    · intro v hv
      by_cases hvs : sn.id = v
      · exact Or.inr (by simp [hvs])
      · rw [aget_single, if_neg hvs] at hv
        cases hv
    · intro v g hg
      rw [aget_single] at hg
      by_cases hvs : sn.id = v
      · rw [if_pos hvs] at hg
        cases Option.some_inj.mp hg
        exact le_refl _
      · rw [if_neg hvs] at hg
        cases hg
    · intro v g hg
      rw [aget_single] at hg
      by_cases hvs : sn.id = v
      · rw [if_pos hvs] at hg
        cases Option.some_inj.mp hg
        subst hvs
        show aget [(sn.id, NavMesh.heuristic em sn.position en.position)] sn.id = _
        rw [aget_single, if_pos rfl]
        rw [show hfun em m en sn.id =
          NavMesh.heuristic em (posOf m sn.id) en.position from rfl, hspos, zero_add]
      · rw [if_neg hvs] at hg
        cases hg
    · rfl
    · intro v u h
      exact Option.noConfusion h
    · intro v hv
      by_cases hvs : sn.id = v
      · subst hvs
        exact ⟨[sn.id], Chain.base, by simp⟩
      · rw [show aget (⟨[sn.id], [], [(sn.id, (0:K))],
          [(sn.id, NavMesh.heuristic em sn.position en.position)]⟩ : AState K).gScore v =
          aget [(sn.id, (0:K))] v from rfl, aget_single, if_neg hvs] at hv
        cases hv
  have hR₀ : Relaxed m
      (⟨[sn.id], [], [(sn.id, 0)],
        [(sn.id, NavMesh.heuristic em sn.position en.position)]⟩ : AState K).gScore [] :=
    fun v hv => absurd hv (List.not_mem_nil _)
  have hrun := astar_correct wf hnn hcons (m.nodes.length + 1)
    (⟨[sn.id], [], [(sn.id, 0)],
      [(sn.id, NavMesh.heuristic em sn.position en.position)]⟩ : AState K) []
    hA₀ hR₀ (List.not_mem_nil _) (by simp)
  rw [heq]
  exact hrun

theorem sqDist_nonneg {K : Type} [LinearOrderedCommRing K] (a b : Vec3 K) :
    0 ≤ sqDist a b := by
  have h₁ := mul_self_nonneg (a.x - b.x)
  have h₂ := mul_self_nonneg (a.y - b.y)
  have h₃ := mul_self_nonneg (a.z - b.z)
  rw [sqDist]
  linarith

/-- The embedding of the 3-vector into the Euclidean space of Mathlib, used
only to import the triangle inequality. -/
def toE3 (v : Vec3 ℝ) : EuclideanSpace ℝ (Fin 3) := ![v.x, v.y, v.z]

theorem sqrt_sqDist_eq_dist (a b : Vec3 ℝ) :
    Real.sqrt (sqDist a b) = dist (toE3 a) (toE3 b) := by
  rw [EuclideanSpace.dist_eq]
  congr 1
  rw [Fin.sum_univ_three]
  show sqDist a b = dist (a.x) (b.x) ^ 2 + dist (a.y) (b.y) ^ 2 + dist (a.z) (b.z) ^ 2
  rw [Real.dist_eq, Real.dist_eq, Real.dist_eq, sq_abs, sq_abs, sq_abs]
  show sqDist a b = (a.x - b.x) ^ 2 + (a.y - b.y) ^ 2 + (a.z - b.z) ^ 2
  rw [sqDist]
  ring

/-- The claim's concrete three-node line graph A(0,0,0) — B(5,0,0) — C(10,0,0)
built through the construction API with the integer square-root table. -/
def meshC1 : NavMesh ℤ :=
  (NavMesh.connectNodes emW2
    ((NavMesh.connectNodes emW2
      ((((⟨[], [], []⟩ : NavMesh ℤ).addNode 0 ⟨0, 0, 0⟩).addNode 1 ⟨5, 0, 0⟩).addNode 2
        ⟨10, 0, 0⟩) 0 1).1) 1 2).1

/-- Claim C1: on Euclidean-cost graphs `findPath` resolves both endpoints to
their nearest nodes and returns a minimal-cost node-position walk including
both endpoints, the empty list on an empty graph or when no path exists; on
the concrete A—B—C line graph `findPath(A, C)` returns `[A, B, C]` with total
cost 10. -/
theorem c1_findPath_minimal :
    (∀ (em : ExtMath ℝ) (m : NavMesh ℝ) (sp ep : Vec3 ℝ),
      MeshWF m →
      (∀ x : ℝ, 0 ≤ x → em.sqrt x = Real.sqrt x) →
      (∀ u v : Nat, ∀ c : ℝ, Edge m u v c →
        c = Real.sqrt (sqDist (posOf m v) (posOf m u))) →
      (m.nodes = [] → NavMesh.findPath em m sp ep = []) ∧
      (∀ n, NavMesh.getClosestNode em m sp = some n → (n.id, n) ∈ m.nodes ∧
        ∀ q ∈ m.nodes,
          Real.sqrt (sqDist n.position sp) ≤ Real.sqrt (sqDist q.2.position sp)) ∧
      (∀ n, NavMesh.getClosestNode em m ep = some n → (n.id, n) ∈ m.nodes ∧
        ∀ q ∈ m.nodes,
          Real.sqrt (sqDist n.position ep) ≤ Real.sqrt (sqDist q.2.position ep)) ∧
      (∀ sn en, NavMesh.getClosestNode em m sp = some sn →
        NavMesh.getClosestNode em m ep = some en →
        (∃ ids, walkOK m ids ∧ ids.head? = some sn.id ∧ ids.getLast? = some en.id ∧
          NavMesh.findPath em m sp ep = ids.map (posOf m) ∧
          ∀ ids₂, walkOK m ids₂ → ids₂.head? = some sn.id → ids₂.getLast? = some en.id →
            walkCost m ids ≤ walkCost m ids₂) ∨
        (NavMesh.findPath em m sp ep = [] ∧
          ¬ ∃ ids₂, walkOK m ids₂ ∧ ids₂.head? = some sn.id ∧
            ids₂.getLast? = some en.id))) ∧
    NavMesh.findPath emW2 meshC1 ⟨0, 0, 0⟩ ⟨10, 0, 0⟩ =
      [⟨0, 0, 0⟩, ⟨5, 0, 0⟩, ⟨10, 0, 0⟩] ∧
    walkCost meshC1 [0, 1, 2] = (10 : ℤ) := by
  refine ⟨?_, by decide, by decide⟩
  intro em m sp ep wf hsq hEuclid
  have hnn : ∀ u v : Nat, ∀ c : ℝ, Edge m u v c → 0 ≤ c := by
    intro u v c he
    rw [hEuclid u v c he]
    exact Real.sqrt_nonneg _
  refine ⟨?_, ?_, ?_, ?_⟩
  · intro h
    unfold NavMesh.findPath
    rw [getClosestNode_none em m sp h, getClosestNode_none em m ep h]
  · intro n hn
    obtain ⟨hg, hm⟩ := getClosestNode_spec em m sp wf n hn
    refine ⟨aget_mem hg, ?_⟩
    intro q hq
    have hb := hm q hq
    rwa [hsq _ (sqDist_nonneg _ _), hsq _ (sqDist_nonneg _ _)] at hb
  · intro n hn
    obtain ⟨hg, hm⟩ := getClosestNode_spec em m ep wf n hn
    refine ⟨aget_mem hg, ?_⟩
    intro q hq
    have hb := hm q hq
    rwa [hsq _ (sqDist_nonneg _ _), hsq _ (sqDist_nonneg _ _)] at hb
  · intro sn en hsn hen
    have hcons : ∀ u v : Nat, ∀ c : ℝ, Edge m u v c →
        hfun em m en u ≤ c + hfun em m en v := by
      intro u v c he
      have hc := hEuclid u v c he
      have h₁ : hfun em m en u = Real.sqrt (sqDist en.position (posOf m u)) := by
        show em.sqrt (sqDist en.position (posOf m u)) = _
        exact hsq _ (sqDist_nonneg _ _)
      have h₂ : hfun em m en v = Real.sqrt (sqDist en.position (posOf m v)) := by
        show em.sqrt (sqDist en.position (posOf m v)) = _
        exact hsq _ (sqDist_nonneg _ _)
      rw [h₁, h₂, hc, sqrt_sqDist_eq_dist, sqrt_sqDist_eq_dist, sqrt_sqDist_eq_dist]
      have ht := dist_triangle (toE3 en.position) (toE3 (posOf m v)) (toE3 (posOf m u))
      linarith
    exact findPath_correct wf hsn hen hnn hcons

theorem c1_findPath_minimal_witness :
    NavMesh.findPath
      (⟨Real.sqrt, fun _ _ => 0, fun _ => 0, fun _ => 0, 0⟩ : ExtMath ℝ)
      (⟨[], [], []⟩ : NavMesh ℝ) ⟨0, 0, 0⟩ ⟨0, 0, 0⟩ = [] :=
  (c1_findPath_minimal.1 ⟨Real.sqrt, fun _ _ => 0, fun _ => 0, fun _ => 0, 0⟩
    ⟨[], [], []⟩ ⟨0, 0, 0⟩ ⟨0, 0, 0⟩
    ⟨by simp, by simp, by simp, by simp⟩
    (fun _ _ => rfl)
    (fun u v c he => absurd he.choose_spec.1 (by
      intro hc
      exact Option.noConfusion hc))).1 rfl
